import Mathlib

set_option linter.unusedSectionVars false

/-!
# XbimCompound: bounding-box clustering and incremental boolean merge

A shallow embedding of `XbimCompound::Merge`, `XbimCompound::GetConnected` and
`XbimCompound::GetDiscrete` (`Xbim.Geometry.Engine/XbimCompound.cpp`, lines 1629-1739,
1774-1790 and 1741-1772), of `XbimCompound::Upgrade` (lines 1546-1596), of the boolean
operations `Cut`, `Union` and `Intersection` between compounds (lines 1793-1868) and of
`BOPAlgo_MakerVolume::RemoveBox` (`OCC/src/BOPAlgo/BOPAlgo_MakerVolume.cxx`, lines 279-306),
and the properties proved of them.

## Conventions of the embedding

* `XbimSolid^` values are the elements of a type `Solid` with decidable equality: the equality
  used by `Dictionary`, by `HashSet` and by `!=` on solids.
* An `IXbimSolid^` of the input is an `Option Solid`: `none` is an element for which
  `dynamic_cast<XbimSolid^>` yields `nullptr`. Such an element is skipped by the loop of
  line 1637 and, following the test of line 1659, by the loop of line 1656.
* `Dictionary<XbimSolid^, HashSet<XbimSolid^>^>` is an association list with distinct keys and
  `HashSet<XbimSolid^>` a list without repetition; both are enumerated in insertion order, and
  removing a key keeps the order of the other entries.
* The geometry kernel (bounding-box test, `BRepAlgoAPI_Fuse`, `XbimSolidSet`, null shapes) is a
  parameter, `Kernel`. The boolean union is the only call modelled as able to fail.
* `tolerance` is a value of an arbitrary type `Tol`; `Merge` only passes it on.
* Calls with an effect outside `Merge` (`SetTolerance`, the construction of the boolean
  operation, `LogWarning`) are recorded, in order, in a trace of `Event`s.
* `GetConnected` is recursive in the source; the embedding recurses on a depth bound and
  yields `none` when the bound is reached. The `while` loop of `Merge` is bounded in the same
  way. `Merge` hands over bounds that are never reached (`Merge_terminates`), and
  `GetConnected` gives the same result for every bound above the number of solids it can meet.
* For `Upgrade`, a compound is the lists of shapes that its three explorers meet; for `Cut`,
  `Union` and `Intersection`, the outcome of the boolean operation is an argument; for
  `RemoveBox`, a solid is known by the list of its faces.
-/

namespace XbimCompound

/-! ## The kernel interface -/

/-- What `BRepAlgoAPI_Fuse boolOp(unionedShape, toConnect)` followed by `boolOp.HasErrors()`
can do at the call site inside the `try` block of `Merge`. -/
inductive FuseOutcome (Shape : Type) where
  /-- The test `HasErrors() == Standard_False` holds; the payload is `boolOp.Shape()`. -/
  | shape (result : Shape)
  /-- The value of `HasErrors()` is not `Standard_False`. -/
  | hasErrors
  /-- An exception matched by `catch (const std::exception& exc)`; the payload is `exc.what()`. -/
  | stdException (what : String)
  /-- An exception of a type that `catch (const std::exception&)` does not match. -/
  | otherException
  deriving DecidableEq

/-- The operations `Merge` consumes from the geometry kernel and from `XbimSolid`. -/
structure Kernel (Solid Shape : Type) where
  /-- The test `a.BoundingBox.Intersects(b.BoundingBox)`, receiver first. -/
  Intersects : Solid → Solid → Bool
  /-- A default-constructed `TopoDS_Shape`. -/
  nullShape : Shape
  /-- The test `TopoDS_Shape::IsNull()`. -/
  IsNull : Shape → Bool
  /-- The conversion of an `XbimSolid^` to its `TopoDS_Shape`. -/
  toShape : Solid → Shape
  /-- The operation `BRepAlgoAPI_Fuse boolOp(unionedShape, toConnect)`. -/
  Fuse : Shape → Solid → FuseOutcome Shape
  /-- The solids enumerated by `gcnew XbimSolidSet(unionedShape)`. -/
  SolidSet : Shape → List Solid

/-- Calls made by `Merge` whose effect is visible outside it, in the order they are made. -/
inductive Event (Solid Shape Tol : Type) where
  /-- The call `fixTol.SetTolerance(toConnect, tolerance)`. -/
  | setTolerance (toConnect : Solid) (tolerance : Tol)
  /-- The construction `BRepAlgoAPI_Fuse boolOp(unionedShape, toConnect)`. -/
  | fuse (unionedShape : Shape) (toConnect : Solid)
  /-- The call `XbimGeometryCreator::LogWarning(logger, toConnect, message)`. -/
  | logWarning (toConnect : Solid) (message : String)
  deriving DecidableEq

/-- What a call of `Merge` ends with. -/
inductive MergeResult (Solid Tol : Type) where
  /-- The statement `return nullptr`. -/
  | null
  /-- The statement `return gcnew XbimCompound(compound, sewn, tolerance)`, `compound` holding
  `solids`. -/
  | compound (solids : List Solid) (sewn : Bool) (tolerance : Tol)
  /-- An exception left `Merge`. -/
  | uncaught
  /-- The depth bound of the embedding was reached (never the case, see `Merge_terminates`). -/
  | outOfFuel
  deriving DecidableEq

/-- A run of `Merge`: what it returns, the trace of its calls, and two ghost fields. -/
structure MergeRun (Solid Shape Tol : Type) where
  result : MergeResult Solid Tol
  trace : List (Event Solid Shape Tol)
  /-- Ghost: `toMergeReduced` right after the loop of lines 1671-1677. -/
  isolated : List Solid
  /-- Ghost: the `connected` sets of the `while` loop, in the order they were computed. -/
  groups : List (List Solid)
  deriving DecidableEq

section Model

variable {Solid Shape Tol : Type} [DecidableEq Solid]

/-! ## Collections -/

/-- The method `HashSet::Add`: the set is unchanged when the element is already in it. -/
def hashSetAdd (set : List Solid) (s : Solid) : List Solid :=
  if s ∈ set then set else set ++ [s]

/-- The indexer `Dictionary::set_Item(key, value)`: replaces the value of a key in place, or
adds an entry. -/
def dictSetItem (d : List (Solid × List Solid)) (key : Solid) (value : List Solid) :
    List (Solid × List Solid) :=
  if d.any (fun e => decide (e.1 = key)) then
    d.map (fun e => if e.1 = key then (key, value) else e)
  else d ++ [(key, value)]

/-- The method `Dictionary::Remove(key)`. -/
def dictRemove (d : List (Solid × List Solid)) (key : Solid) : List (Solid × List Solid) :=
  d.filter (fun e => decide (e.1 ≠ key))

/-! ## GetConnected (lines 1774-1790) -/

/-- Lines 1783-1786: `for each (poly in polysets->Value) GetConnected(connected, clusters, poly)`,
with `GetConnected(·, clusters, ·)` given as `call`. -/
def visitValue (call : List Solid → Solid → Option (List Solid)) :
    List Solid → List Solid → Option (List Solid)
  | [], connected => some connected
  | poly :: rest, connected => (call connected poly).bind (visitValue call rest)

/-- Lines 1778-1788: the loop over the entries of `clusters`, entered after `clusterAround`
was added to `connected`. -/
def visitClusters (call : List Solid → Solid → Option (List Solid)) (clusterAround : Solid) :
    List (Solid × List Solid) → List Solid → Option (List Solid)
  | [], connected => some connected
  | polysets :: rest, connected =>
    if polysets.1 ∉ connected ∧ ¬ polysets.1 = clusterAround ∧ clusterAround ∈ polysets.2 then
      ((call connected polysets.1).bind (visitValue call polysets.2)).bind
        (visitClusters call clusterAround rest)
    else visitClusters call clusterAround rest connected

/-- The method `XbimCompound::GetConnected(connected, clusters, clusterAround)`; the result is the
`connected` set after the call. `fuel` bounds the depth of the recursion. -/
def GetConnected : Nat → List (Solid × List Solid) → List Solid → Solid → Option (List Solid)
  | 0, _, _, _ => none
  | fuel + 1, clusters, connected, clusterAround =>
    if clusterAround ∈ connected then some connected
    else
      visitClusters (GetConnected fuel clusters) clusterAround clusters
        (hashSetAdd connected clusterAround)

/-! ## Merge (lines 1629-1739) -/

/-- Lines 1636-1642: one entry with an empty set per solid of the input. -/
def initClusters (solids : List (Option Solid)) : List (Solid × List Solid) :=
  solids.foldl
    (fun clusters solid =>
      match solid with
      | some solidToCheck => dictSetItem clusters solidToCheck []
      | none => clusters)
    []

/-- Lines 1662-1666: `solidToCheck` is added to the set of every other key it intersects. -/
def addToClusters (K : Kernel Solid Shape) (solidToCheck : Solid)
    (clusters : List (Solid × List Solid)) : List (Solid × List Solid) :=
  clusters.map fun cluster =>
    if solidToCheck ≠ cluster.1 ∧ K.Intersects solidToCheck cluster.1 = true then
      (cluster.1, hashSetAdd cluster.2 solidToCheck)
    else cluster

/-- Lines 1656-1668: the adjacency pass. -/
def fillClusters (K : Kernel Solid Shape) (solids : List (Option Solid))
    (clusters : List (Solid × List Solid)) : List (Solid × List Solid) :=
  solids.foldl
    (fun clusters solid =>
      match solid with
      | some solidToCheck => addToClusters K solidToCheck clusters
      | none => clusters)
    clusters

/-- Lines 1671-1677, `else` branch: the keys whose set is empty, `toMergeReduced`. -/
def isolatedKeys (clusters : List (Solid × List Solid)) : List Solid :=
  (clusters.filter (fun cluster => decide (¬ 0 < cluster.2.length))).map Prod.fst

/-- Lines 1671-1677, `if` branch: the entries whose set is not empty, `clustersSparse`. -/
def sparseClusters (clusters : List (Solid × List Solid)) : List (Solid × List Solid) :=
  clusters.filter (fun cluster => decide (0 < cluster.2.length))

/-- The message of line 1706. -/
def unionFailed : String := "Boolean Union operation failed."

/-- The message of line 1711, before `err` is appended. -/
def unionFailedWith : String := "Boolean Union operation failed. "

/-- Lines 1692-1715: the fold over `connected`, from the accumulator `unionedShape`.
The first component is `none` when an exception left the fold. -/
def fuseConnected (K : Kernel Solid Shape) (tolerance : Tol) :
    List Solid → Shape → List (Event Solid Shape Tol) →
      Option Shape × List (Event Solid Shape Tol)
  | [], unionedShape, trace => (some unionedShape, trace)
  | toConnect :: rest, unionedShape, trace =>
    if K.IsNull unionedShape = true then
      fuseConnected K tolerance rest (K.toShape toConnect)
        (trace ++ [Event.setTolerance toConnect tolerance])
    else
      match K.Fuse unionedShape toConnect with
      | FuseOutcome.shape result =>
        fuseConnected K tolerance rest result
          (trace ++ [Event.setTolerance toConnect tolerance, Event.fuse unionedShape toConnect])
      | FuseOutcome.hasErrors =>
        fuseConnected K tolerance rest unionedShape
          (trace ++ [Event.setTolerance toConnect tolerance, Event.fuse unionedShape toConnect,
            Event.logWarning toConnect unionFailed])
      | FuseOutcome.stdException what =>
        fuseConnected K tolerance rest unionedShape
          (trace ++ [Event.setTolerance toConnect tolerance, Event.fuse unionedShape toConnect,
            Event.logWarning toConnect (unionFailedWith ++ what)])
      | FuseOutcome.otherException =>
        (none, trace ++ [Event.setTolerance toConnect tolerance,
          Event.fuse unionedShape toConnect])

/-- How the `while` loop of lines 1687-1729 ended. -/
inductive LoopStatus where
  | finished
  | uncaught
  | outOfFuel
  deriving DecidableEq

/-- The variables of `Merge` that the `while` loop updates. -/
structure MergeState (Solid Shape Tol : Type) where
  toMergeReduced : List Solid
  trace : List (Event Solid Shape Tol)
  /-- Ghost: the `connected` sets computed so far. -/
  groups : List (List Solid)

/-- Lines 1680-1729: `clusterAround` is the first key of `clustersSparse`; the loop ends when
there is none. `depth` is the bound handed to `GetConnected`, `fuel` bounds the number of
iterations. -/
def mergeLoop (K : Kernel Solid Shape) (tolerance : Tol) (depth : Nat) :
    Nat → List (Solid × List Solid) → MergeState Solid Shape Tol →
      LoopStatus × MergeState Solid Shape Tol
  | _, [], st => (LoopStatus.finished, st)
  | 0, _ :: _, st => (LoopStatus.outOfFuel, st)
  | fuel + 1, first :: others, st =>
    match GetConnected depth (first :: others) [] first.1 with
    | none => (LoopStatus.outOfFuel, st)
    | some connected =>
      match fuseConnected K tolerance connected K.nullShape st.trace with
      | (none, trace) =>
        (LoopStatus.uncaught,
          { toMergeReduced := st.toMergeReduced, trace := trace,
            groups := st.groups ++ [connected] })
      | (some unionedShape, trace) =>
        mergeLoop K tolerance depth fuel (connected.foldl dictRemove (first :: others))
          { toMergeReduced := st.toMergeReduced ++ K.SolidSet unionedShape, trace := trace,
            groups := st.groups ++ [connected] }

/-- The method `XbimCompound::Merge(solids, tolerance, logger)`. -/
def Merge (K : Kernel Solid Shape) (solids : List (Option Solid)) (tolerance : Tol) :
    MergeRun Solid Shape Tol :=
  let clusters := initClusters solids
  if clusters.length = 0 then
    { result := MergeResult.null, trace := [], isolated := [], groups := [] }
  else
    match (if clusters.length = 1 then clusters.head? else none) with
    | some first =>
      { result := MergeResult.compound [first.1] true tolerance, trace := [], isolated := [],
        groups := [] }
    | none =>
      let filled := fillClusters K solids clusters
      let toMergeReduced := isolatedKeys filled
      let clustersSparse := sparseClusters filled
      let run := mergeLoop K tolerance (filled.length + 1) clustersSparse.length clustersSparse
        { toMergeReduced := toMergeReduced, trace := [], groups := [] }
      match run.1 with
      | LoopStatus.finished =>
        { result := MergeResult.compound run.2.toMergeReduced true tolerance,
          trace := run.2.trace, isolated := toMergeReduced, groups := run.2.groups }
      | LoopStatus.uncaught =>
        { result := MergeResult.uncaught, trace := run.2.trace, isolated := toMergeReduced,
          groups := run.2.groups }
      | LoopStatus.outOfFuel =>
        { result := MergeResult.outOfFuel, trace := run.2.trace, isolated := toMergeReduced,
          groups := run.2.groups }

end Model

/-! ## Notions used to state the properties -/

section Graph
variable {Solid : Type} [DecidableEq Solid]

/-- Edges along which `GetConnected` moves: from a member of a set to the key of the set, and
from a key to a member of its set. -/
def Linked (clusters : List (Solid × List Solid)) (a b : Solid) : Prop :=
  ∃ e ∈ clusters, (a ∈ e.2 ∧ b = e.1) ∨ (a = e.1 ∧ b ∈ e.2)

/-- Every key whose set holds `y` is in `R`. -/
def Closed (clusters : List (Solid × List Solid)) (R : List Solid) (y : Solid) : Prop :=
  ∀ e ∈ clusters, y ∈ e.2 → e.1 ∈ R

/-- The number of elements of `U` not yet in `V`. -/
def unvisited (U V : List Solid) : Nat := U.countP (fun u => decide (u ∉ V))

/-- What a call `GetConnected(V, clusters, x)` leaves in `connected`. -/
structure Good (clusters : List (Solid × List Solid)) (V : List Solid) (x : Solid)
    (R : List Solid) : Prop where
  ext : ∃ e, R = V ++ e
  mem : x ∈ R
  new : ∀ y ∈ R, y ∉ V → Closed clusters R y ∧ Relation.ReflTransGen (Linked clusters) x y
  nodup : V.Nodup → R.Nodup

end Graph


section Spec
variable {Solid Shape : Type} [DecidableEq Solid]

/-- Two distinct solids of the input whose bounding boxes intersect. -/
def Overlap (K : Kernel Solid Shape) (solids : List (Option Solid)) (a b : Solid) : Prop :=
  some a ∈ solids ∧ some b ∈ solids ∧ a ≠ b ∧ K.Intersects a b = true

/-- A chain of pairwise bounding-box intersections between solids of the input joins `a`
and `b`. -/
def Chain (K : Kernel Solid Shape) (solids : List (Option Solid)) (a b : Solid) : Prop :=
  Relation.ReflTransGen (Overlap K solids) a b

end Spec

section Fold
variable {Solid Shape Tol : Type} [DecidableEq Solid]

/-- The accumulator `unionedShape` after the fold of lines 1692-1715 over the group `g`;
`none` when an exception left the fold. -/
def foldShape (K : Kernel Solid Shape) (tolerance : Tol) (g : List Solid) : Option Shape :=
  (fuseConnected K tolerance g K.nullShape ([] : List (Event Solid Shape Tol))).1

/-- The calls made by the fold of lines 1692-1715 over the group `g`. -/
def foldTrace (K : Kernel Solid Shape) (tolerance : Tol) (g : List Solid) :
    List (Event Solid Shape Tol) :=
  (fuseConnected K tolerance g K.nullShape ([] : List (Event Solid Shape Tol))).2

/-- Lines 1716-1718: the solids that the group `g` adds to `toMergeReduced`. -/
def groupSolids (K : Kernel Solid Shape) (tolerance : Tol) (g : List Solid) : List Solid :=
  match foldShape K tolerance g with
  | some unionedShape => K.SolidSet unionedShape
  | none => []

end Fold

section Pool
variable {Solid Shape : Type} [DecidableEq Solid]

/-- What holds of `clustersSparse` at the head of every iteration of the `while` loop when the
intersection test is symmetric. -/
structure PoolInv (K : Kernel Solid Shape) (solids : List (Option Solid))
    (pool : List (Solid × List Solid)) : Prop where
  adj : ∀ e ∈ pool, ∀ s, s ∈ e.2 ↔ Overlap K solids s e.1
  closed : ∀ e ∈ pool, ∀ s ∈ e.2, s ∈ pool.map Prod.fst
  sparse : ∀ e ∈ pool, e.2 ≠ []

end Pool

section Run
variable {Solid Shape Tol : Type} [DecidableEq Solid]

/-- The `clusters` dictionary after the adjacency pass of `Merge`. -/
def filledClusters (K : Kernel Solid Shape) (solids : List (Option Solid)) :
    List (Solid × List Solid) :=
  fillClusters K solids (initClusters solids)

/-- The run of the `while` loop inside `Merge`. -/
def loopRun (K : Kernel Solid Shape) (solids : List (Option Solid)) (tolerance : Tol) :
    LoopStatus × MergeState Solid Shape Tol :=
  mergeLoop K tolerance ((filledClusters K solids).length + 1)
    (sparseClusters (filledClusters K solids)).length (sparseClusters (filledClusters K solids))
    { toMergeReduced := isolatedKeys (filledClusters K solids), trace := [], groups := [] }

end Run

/-! ## A symbolic kernel -/

/-- Symbolic solids: the solids of an input, named by `ι`, and formal unions of them. A solid
built by unions is its own record of the unions that produced it. -/
inductive Traced (ι : Type) where
  | input (i : ι)
  | fused (unionedShape toConnect : Traced ι)
  deriving DecidableEq

/-- The solids of the input that a symbolic solid was built from. -/
def Traced.inputs {ι : Type} : Traced ι → List ι
  | Traced.input i => [i]
  | Traced.fused a b => a.inputs ++ b.inputs

/-- A kernel that computes unions symbolically. `inter` is the bounding-box test on the solids
of the input; `script unionedShape toConnect` says how the union of the two ends, a successful
union yielding the formal union. A shape is a solid or null (`none`). -/
def symbolicKernel {ι : Type} (inter : ι → ι → Bool)
    (script : Traced ι → Traced ι → FuseOutcome Unit) :
    Kernel (Traced ι) (Option (Traced ι)) where
  Intersects a b :=
    match a, b with
    | Traced.input i, Traced.input j => inter i j
    | _, _ => false
  nullShape := none
  IsNull shape := shape.isNone
  toShape solid := some solid
  Fuse unionedShape toConnect :=
    match unionedShape with
    | none => FuseOutcome.hasErrors
    | some acc =>
      match script acc toConnect with
      | FuseOutcome.shape _ => FuseOutcome.shape (some (Traced.fused acc toConnect))
      | FuseOutcome.hasErrors => FuseOutcome.hasErrors
      | FuseOutcome.stdException what => FuseOutcome.stdException what
      | FuseOutcome.otherException => FuseOutcome.otherException
  SolidSet shape := shape.toList

/-- The symbolic kernel in which no union fails. -/
def tracingKernel {ι : Type} (inter : ι → ι → Bool) : Kernel (Traced ι) (Option (Traced ι)) :=
  symbolicKernel inter (fun _ _ => FuseOutcome.shape ())

/-- A script in which every union whose second operand is `bad` ends with `outcome` and every
other union succeeds. -/
def failOn {ι : Type} [DecidableEq ι] (bad : Traced ι) (outcome : FuseOutcome Unit) :
    Traced ι → Traced ι → FuseOutcome Unit :=
  fun _ toConnect => if toConnect = bad then outcome else FuseOutcome.shape ()

/-- Three solids in a row: 0 and 1 intersect, 1 and 2 intersect, 0 and 2 do not. -/
def rowInter (i j : Fin 3) : Bool := decide (i.val + 1 = j.val ∨ j.val + 1 = i.val)

/-- Four solids: 0 and 1 intersect, 2 and 3 are isolated. -/
def pairInter (i j : Fin 4) : Bool := decide ((i.val = 0 ∧ j.val = 1) ∨ (i.val = 1 ∧ j.val = 0))

/-- No two solids intersect. -/
def noInter (_ _ : Fin 3) : Bool := false

/-- A sample input for `pairInter`: four solids and an element that is not a solid. -/
def pairSolids : List (Option (Traced (Fin 4))) :=
  [some (Traced.input 2), some (Traced.input 0), none, some (Traced.input 1),
    some (Traced.input 3)]

/-- A sample input for `rowInter`. -/
def rowSolids : List (Option (Traced (Fin 3))) :=
  [some (Traced.input 2), some (Traced.input 0), some (Traced.input 1)]

/-- The solids of `rowSolids` in another order. -/
def rowSolidsReordered : List (Option (Traced (Fin 3))) :=
  [some (Traced.input 1), some (Traced.input 2), some (Traced.input 0)]

section Observations
variable {Solid Shape Tol : Type}

/-- A union that reported errors or raised an exception matched by the handler of line 1708. -/
def FuseOutcome.isFailure : FuseOutcome Shape → Bool
  | FuseOutcome.hasErrors => true
  | FuseOutcome.stdException _ => true
  | _ => false

/-- The solid a warning was logged for. -/
def Event.warned : Event Solid Shape Tol → Option Solid
  | Event.logWarning toConnect _ => some toConnect
  | _ => none

end Observations

/-! ## GetDiscrete (lines 1741-1772) -/

section Discrete
variable {Solid Shape : Type} [DecidableEq Solid]

/-- Lines 1751-1767: the body of the loop over `toProcess`, on the lists `discrete` and
`connected`. The inner loop stops at the first solid of `discrete` that intersects `solid`. -/
def discreteStep (K : Kernel Solid Shape) (state : List Solid × List Solid) (solid : Solid) :
    List Solid × List Solid :=
  if state.1.length = 0 then (state.1 ++ [solid], state.2)
  else if state.1.any (fun discreteSolid => K.Intersects discreteSolid solid) = true then
    (state.1, state.2 ++ [solid])
  else (state.1 ++ [solid], state.2)

/-- The method `XbimCompound::GetDiscrete(toProcess)`: the first component is the list it
returns, the second is `toProcess` after the call. -/
def GetDiscrete (K : Kernel Solid Shape) (toProcess : List Solid) : List Solid × List Solid :=
  if 0 < toProcess.length then toProcess.foldl (discreteStep K) ([], [])
  else ([], toProcess)

/-- The elements of `L` at the positions where `mask` is `b`, in the order of `L`. -/
def selected (L : List Solid) (mask : List Bool) (b : Bool) : List Solid :=
  ((L.zip mask).filter (fun p => p.2 == b)).map Prod.fst

/-- The solid `b` is in the neighbour set of the key `a`. -/
def Adjacent (clusters : List (Solid × List Solid)) (a b : Solid) : Prop :=
  ∃ e ∈ clusters, e.1 = a ∧ b ∈ e.2

end Discrete

section Calls
variable {Solid Shape Tol : Type}

/-- The solid an event is about: `toConnect`. -/
def Event.toConnect : Event Solid Shape Tol → Solid
  | Event.setTolerance toConnect _ => toConnect
  | Event.fuse _ toConnect => toConnect
  | Event.logWarning toConnect _ => toConnect

/-- The solid and the tolerance of a call of `SetTolerance`. -/
def Event.tolerated : Event Solid Shape Tol → Option (Solid × Tol)
  | Event.setTolerance toConnect tolerance => some (toConnect, tolerance)
  | _ => none

/-- The calls of a left fold in which every union succeeds, `fuse` giving the shape of a
union: for each member, in order, its tolerance is set and it is then the second operand of
a union whose first operand is the accumulator. -/
def leftFoldCalls (fuse : Shape → Solid → Shape) (tolerance : Tol) :
    Shape → List Solid → List (Event Solid Shape Tol)
  | _, [] => []
  | acc, toConnect :: rest =>
    Event.setTolerance toConnect tolerance :: Event.fuse acc toConnect ::
      leftFoldCalls fuse tolerance (fuse acc toConnect) rest

end Calls

section Order
variable {Solid Shape Tol : Type}

/-- In the trace `tr`, the call right before every boolean union is the call of `SetTolerance`,
with the tolerance `tolerance`, on the second operand of the union. -/
def ToleranceFirst (tolerance : Tol) (tr : List (Event Solid Shape Tol)) : Prop :=
  ∀ (i : Nat) (acc : Shape) (s : Solid), tr[i]? = some (Event.fuse acc s) →
    ∃ j, i = j + 1 ∧ tr[j]? = some (Event.setTolerance s tolerance)

end Order

section Samples

/-- The formal union of a symbolic shape with a solid; the null shape stays null. -/
def symbolicFuse {ι : Type} (unionedShape : Option (Traced ι)) (toConnect : Traced ι) :
    Option (Traced ι) :=
  unionedShape.map (fun acc => Traced.fused acc toConnect)

/-- An adjacency map over three keys in a row: 0 - 1 - 2. -/
def rowClusters : List (Fin 3 × List (Fin 3)) := [(0, [1]), (1, [0, 2]), (2, [1])]

end Samples

section Counting
variable {Solid Shape Tol : Type}

end Counting

section Bound
variable {Solid : Type}

/-- The solids that a call `GetConnected(connected, clusters, clusterAround)` can meet: the
seed, the keys of `clusters` and the members of its sets. -/
def reachable (clusters : List (Solid × List Solid)) (clusterAround : Solid) : List Solid :=
  clusterAround :: (clusters.map Prod.fst ++ clusters.flatMap Prod.snd)

end Bound

section Samples2

/-- Five solids: 0 and 1 intersect, 2 and 3 intersect, 4 is isolated. -/
def twoPairsInter (i j : Fin 5) : Bool :=
  decide ((i.val = 0 ∧ j.val = 1) ∨ (i.val = 1 ∧ j.val = 0) ∨ (i.val = 2 ∧ j.val = 3) ∨
    (i.val = 3 ∧ j.val = 2))

/-- A sample input for `twoPairsInter`. -/
def twoPairsSolids : List (Option (Traced (Fin 5))) :=
  [some (Traced.input 0), some (Traced.input 2), some (Traced.input 1), some (Traced.input 4),
    some (Traced.input 3)]

end Samples2

section Iteration
variable {Solid : Type} [DecidableEq Solid]

/-- Lines 1720-1721: `clustersSparse` after every solid of `connected` was removed from it. -/
def removeConnected (pool : List (Solid × List Solid)) (connected : List Solid) :
    List (Solid × List Solid) :=
  connected.foldl dictRemove pool

/-- The dictionary `clustersSparse` after the iterations of the `while` loop that formed
`groups`, one after the other, starting from `pool`. -/
def poolAfter (pool : List (Solid × List Solid)) (groups : List (List Solid)) :
    List (Solid × List Solid) :=
  groups.foldl removeConnected pool

/-- The groups `groups` are formed by successive iterations of the `while` loop from `pool`:
each iteration takes the first key of the pool as seed, its group is what `GetConnected`
leaves in `connected`, and the next iteration starts from the pool without the group. -/
def Iterations : List (Solid × List Solid) → List (List Solid) → Prop
  | _, [] => True
  | pool, g :: groups =>
    (∃ first others, pool = first :: others ∧ Good pool [] first.1 g) ∧
      Iterations (removeConnected pool g) groups

end Iteration

/-! ## Upgrade (lines 1546-1596) -/

/-- A top-level item of a compound, as the three `TopExp_Explorer` loops of `Upgrade` see
them: a solid, a shell that is in no solid, a face that is in no shell. -/
inductive Item (Sd Sh Fc : Type) where
  | solid (s : Sd)
  | shell (s : Sh)
  | face (f : Fc)
  deriving DecidableEq

/-- The state of an `XbimCompound` that `Upgrade` reads. -/
structure CompoundData (Sd Sh Fc Tol : Type) where
  IsValid : Bool
  /-- The shapes met by `TopExp_Explorer expl(*pCompound, TopAbs_SOLID)`. -/
  solids : List Sd
  /-- The shapes met by `TopExp_Explorer expl(*pCompound, TopAbs_SHELL, TopAbs_SOLID)`. -/
  shells : List Sh
  /-- The shapes met by `TopExp_Explorer expl(*pCompound, TopAbs_FACE, TopAbs_SHELL)`. -/
  faces : List Fc
  IsSewn : Bool
  sewingTolerance : Tol

/-- The operations on shells that `Upgrade` uses. -/
structure ShellKernel (Sd Sh : Type) where
  /-- The property `XbimShell::IsClosed`. -/
  IsClosed : Sh → Bool
  /-- The method `XbimShell::MakeSolid()`. -/
  MakeSolid : Sh → Sd
  /-- The property `XbimSolid::IsValid`. -/
  IsValid : Sd → Bool

/-- What `Upgrade` returns. -/
inductive UpgradeResult (Sd Sh Fc Tol : Type) where
  /-- The statement `return this`. -/
  | this
  /-- The statement `return gcnew XbimSolid(TopoDS::Solid(lastAdded))`. -/
  | solid (s : Sd)
  /-- The statement `return gcnew XbimShell(TopoDS::Shell(lastAdded))`. -/
  | shell (s : Sh)
  /-- The statement `return gcnew XbimFace(TopoDS::Face(lastAdded))`. -/
  | face (f : Fc)
  /-- The statement `return gcnew XbimCompound(newCompound, IsSewn, _sewingTolerance)`. -/
  | compound (items : List (Item Sd Sh Fc)) (sewn : Bool) (tolerance : Tol)
  deriving DecidableEq

/-- The local variables of `Upgrade` that its three loops update. -/
structure UpgradeState (Sd Sh Fc : Type) where
  newCompound : List (Item Sd Sh Fc)
  count : Nat
  /-- The variable `lastAdded`; `none` is the null shape it starts as. -/
  lastAdded : Option (Item Sd Sh Fc)

section UpgradeModel
variable {Sd Sh Fc Tol : Type}

/-- Lines 1556-1561: the body of the loop over the solids. -/
def upgradeSolid (st : UpgradeState Sd Sh Fc) (current : Sd) : UpgradeState Sd Sh Fc :=
  { newCompound := st.newCompound ++ [Item.solid current], count := st.count + 1,
    lastAdded := some (Item.solid current) }

/-- Lines 1562-1577: the body of the loop over the shells that are in no solid. -/
def upgradeShell (K : ShellKernel Sd Sh) (st : UpgradeState Sd Sh Fc) (current : Sh) :
    UpgradeState Sd Sh Fc :=
  { newCompound :=
      if K.IsClosed current = true then
        if K.IsValid (K.MakeSolid current) = true then
          st.newCompound ++ [Item.solid (K.MakeSolid current)]
        else st.newCompound ++ [Item.shell current]
      else st.newCompound ++ [Item.shell current]
    count := st.count + 1
    lastAdded := some (Item.shell current) }

/-- Lines 1578-1583: the body of the loop over the faces that are in no shell. -/
def upgradeFace (st : UpgradeState Sd Sh Fc) (current : Fc) : UpgradeState Sd Sh Fc :=
  { newCompound := st.newCompound ++ [Item.face current], count := st.count + 1,
    lastAdded := some (Item.face current) }

/-- Lines 1551-1583: the state after the three loops. -/
def upgradeLoops (K : ShellKernel Sd Sh) (c : CompoundData Sd Sh Fc Tol) :
    UpgradeState Sd Sh Fc :=
  c.faces.foldl upgradeFace
    (c.shells.foldl (upgradeShell K)
      (c.solids.foldl upgradeSolid { newCompound := [], count := 0, lastAdded := none }))

/-- The method `XbimCompound::Upgrade()`. The shape type of `lastAdded` is the type the
explorer that met it was looking for. -/
def Upgrade (K : ShellKernel Sd Sh) (c : CompoundData Sd Sh Fc Tol) :
    UpgradeResult Sd Sh Fc Tol :=
  if c.IsValid = false then UpgradeResult.this
  else
    let st := upgradeLoops K c
    match (if st.count = 1 then st.lastAdded else none) with
    | some (Item.solid s) => UpgradeResult.solid s
    | some (Item.shell s) => UpgradeResult.shell s
    | some (Item.face f) => UpgradeResult.face f
    | none => UpgradeResult.compound st.newCompound c.IsSewn c.sewingTolerance

end UpgradeModel

/-! ## Cut, Union, Intersection (lines 1793-1868) -/

/-- Calls made by `Cut`, `Union` and `Intersection` whose effect is visible outside them. -/
inductive CompoundEvent where
  /-- The call `Sew()`. -/
  | sew
  /-- The call `XbimGeometryCreator::LogWarning(logger, solids, message)`. -/
  | logWarning (message : String)
  deriving DecidableEq

/-- What `Cut`, `Union` and `Intersection` end with. -/
inductive CompoundResult (Shape Tol : Type) where
  /-- The statement `return this`. -/
  | this
  /-- The statement `return gcnew XbimCompound(TopoDS::Compound(boolOp.Shape()), sewn,
  tolerance)`. -/
  | compound (shape : Shape) (sewn : Bool) (tolerance : Tol)
  /-- The statement `return XbimCompound::Empty`. -/
  | empty
  /-- An exception left the method. -/
  | uncaught
  deriving DecidableEq

section Booleans
variable {Shape Tol : Type}

/-- The first statement of the three methods: `if (!IsSewn) Sew();`. -/
def sewFirst (IsSewn : Bool) : List CompoundEvent :=
  if IsSewn = false then [CompoundEvent.sew] else []

/-- The message of line 1819, before `err` is appended. -/
def cutFailed : String := "Boolean Cut operation failed. "

/-- The message of line 1842, before `err` is appended. -/
def unionOpFailed : String := "Boolean Union operation failed. "

/-- The message of line 1866, before `err` is appended. -/
def intersectionFailed : String := "Boolean Intersection operation failed. "

/-- The method `XbimCompound::Cut(solids, tolerance, logger)`. `boolOp` is how constructing
`BRepAlgoAPI_Cut boolOp(this, solids)`, asking `HasErrors()` and taking `boolOp.Shape()` ends:
with the shape, with errors, or with an exception that the handler matches or not. `nonsense`
is the test `result->BoundingBox.Length() - this->BoundingBox.Length() > tolerance` of line
1809. -/
def Cut (IsSewn : Bool) (boolOp : FuseOutcome Shape) (nonsense : Shape → Bool)
    (tolerance : Tol) : CompoundResult Shape Tol × List CompoundEvent :=
  match boolOp with
  | FuseOutcome.shape result =>
    if nonsense result = true then (CompoundResult.this, sewFirst IsSewn)
    else (CompoundResult.compound result true tolerance, sewFirst IsSewn)
  | FuseOutcome.hasErrors =>
    (CompoundResult.empty, sewFirst IsSewn ++ [CompoundEvent.logWarning (cutFailed ++ "")])
  | FuseOutcome.stdException what =>
    (CompoundResult.empty, sewFirst IsSewn ++ [CompoundEvent.logWarning (cutFailed ++ what)])
  | FuseOutcome.otherException => (CompoundResult.uncaught, sewFirst IsSewn)

/-- The method `XbimCompound::Union(solids, tolerance, logger)`. `boolOp` is how constructing
`BRepAlgoAPI_Fuse boolOp(this, solids)`, asking `HasErrors()` and taking `boolOp.Shape()`
ends. -/
def Union (IsSewn : Bool) (boolOp : FuseOutcome Shape) (tolerance : Tol) :
    CompoundResult Shape Tol × List CompoundEvent :=
  match boolOp with
  | FuseOutcome.shape result => (CompoundResult.compound result true tolerance, sewFirst IsSewn)
  | FuseOutcome.hasErrors =>
    (CompoundResult.empty,
      sewFirst IsSewn ++ [CompoundEvent.logWarning (unionOpFailed ++ "")])
  | FuseOutcome.stdException what =>
    (CompoundResult.empty,
      sewFirst IsSewn ++ [CompoundEvent.logWarning (unionOpFailed ++ what)])
  | FuseOutcome.otherException => (CompoundResult.uncaught, sewFirst IsSewn)

/-- The method `XbimCompound::Intersection(solids, tolerance, logger)`. `boolOp` is how
constructing `BRepAlgoAPI_Common boolOp(this, solids)`, asking `HasErrors()` and taking
`boolOp.Shape()` ends. -/
def Intersection (IsSewn : Bool) (boolOp : FuseOutcome Shape) (tolerance : Tol) :
    CompoundResult Shape Tol × List CompoundEvent :=
  match boolOp with
  | FuseOutcome.shape result => (CompoundResult.compound result true tolerance, sewFirst IsSewn)
  | FuseOutcome.hasErrors =>
    (CompoundResult.empty,
      sewFirst IsSewn ++ [CompoundEvent.logWarning (intersectionFailed ++ "")])
  | FuseOutcome.stdException what =>
    (CompoundResult.empty,
      sewFirst IsSewn ++ [CompoundEvent.logWarning (intersectionFailed ++ what)])
  | FuseOutcome.otherException => (CompoundResult.uncaught, sewFirst IsSewn)

/-- The warnings among the calls. -/
def warnings (calls : List CompoundEvent) : List String :=
  calls.filterMap fun e =>
    match e with
    | CompoundEvent.logWarning message => some message
    | CompoundEvent.sew => none

end Booleans

end XbimCompound

/-! # BOPAlgo_MakerVolume: removal of the bounding box (`BOPAlgo_MakerVolume.cxx`) -/

namespace BOPAlgo_MakerVolume

section Box
variable {S F : Type} [DecidableEq F]

/-- Lines 292-300: the loop over the faces of the solid `aSR`, which stops at the first face
that `theBoxFaces` contains. `faces aSR` are the shapes met by
`TopExp_Explorer(aSR, TopAbs_FACE)`; the equality of `F` is the one used by the map. -/
def hasBoxFace (faces : S → List F) (theBoxFaces : List F) (aSR : S) : Bool :=
  (faces aSR).any (fun aF => decide (aF ∈ theBoxFaces))

/-- The method `BOPAlgo_MakerVolume::RemoveBox(theLSR, theBoxFaces)`; the result is `theLSR`
after the call. The outer loop ends as soon as a solid was removed. -/
def RemoveBox (faces : S → List F) : List S → List F → List S
  | [], _ => []
  | aSR :: rest, theBoxFaces =>
    if hasBoxFace faces theBoxFaces aSR = true then rest
    else aSR :: RemoveBox faces rest theBoxFaces

end Box

/-- Sample solids: solid `n` has the single face `n`. -/
def ownFace (n : Nat) : List Nat := [n]

/-- The faces of the box in the sample `boxedFaces`. -/
def sampleBox : List Nat := [100, 101, 102, 103, 104, 105]

/-- Sample solids as `BuildSolids` leaves them: solid 0 lies between the box and the
arguments and has the six faces of the box and the outer faces 1 and 2; the solids 1 and 2
are bounded by faces of the arguments only. -/
def boxedFaces : Nat → List Nat
  | 0 => [100, 101, 102, 103, 104, 105, 1, 2]
  | 1 => [1, 3]
  | 2 => [2, 3]
  | _ => []

end BOPAlgo_MakerVolume

namespace XbimCompound

section Samples3

end Samples3

section Samples4

/-- A shell kernel over numbered shapes: every shell is closed, the solid made from shell `n`
is solid `n + 100`, and every solid is valid. -/
def closedShells : ShellKernel Nat Nat where
  IsClosed _ := true
  MakeSolid shell := shell + 100
  IsValid _ := true

/-- A valid compound whose only top-level item is the shell 7. -/
def oneShell : CompoundData Nat Nat Nat Unit where
  IsValid := true
  solids := []
  shells := [7]
  faces := []
  IsSewn := false
  sewingTolerance := ()

end Samples4

/-! ## Properties -/

section GC
variable {Solid : Type} [DecidableEq Solid]

theorem unvisited_mono (U V W : List Solid) (h : ∀ v ∈ V, v ∈ W) :
    unvisited U W ≤ unvisited U V := by
  unfold unvisited
  apply List.countP_mono_left
  intro u _ hu
  have hu2 : u ∉ W := of_decide_eq_true hu
  exact decide_eq_true (fun hv => hu2 (h u hv))

theorem unvisited_lt (U : List Solid) {V : List Solid} {x : Solid} (hx : x ∈ U) (hV : x ∉ V) :
    unvisited U (V ++ [x]) < unvisited U V := by
  induction U with
  | nil => simp at hx
  | cons u U ih =>
    have hmono := unvisited_mono U V (V ++ [x]) (fun v hv => by simp [hv])
    unfold unvisited at hmono ih ⊢
    rw [List.countP_cons, List.countP_cons]
    by_cases hux : u = x
    · subst hux
      have h1 : decide (u ∉ V ++ [u]) = false := decide_eq_false (by simp)
      have h2 : decide (u ∉ V) = true := decide_eq_true hV
      rw [h1, h2]
      simp only [Bool.false_eq_true, if_false, if_true]
      omega
    · have hx2 : x ∈ U := by
        rcases List.mem_cons.1 hx with h | h
        · exact absurd h.symm hux
        · exact h
      have h3 := ih hx2
      have h4 : decide (u ∉ V ++ [x]) = decide (u ∉ V) := by
        simp [hux]
      rw [h4]
      omega

theorem Closed_mono {clusters : List (Solid × List Solid)} {R R2 : List Solid} {y : Solid}
    (h : Closed clusters R y) (hsub : ∀ r ∈ R, r ∈ R2) : Closed clusters R2 y :=
  fun e he hy => hsub _ (h e he hy)

end GC

section GC2
variable {Solid : Type} [DecidableEq Solid]

theorem visitValue_good (clusters : List (Solid × List Solid)) (U : List Solid) (n : Nat)
    (call : List Solid → Solid → Option (List Solid))
    (hcall : ∀ W p, p ∈ U → unvisited U W < n → ∃ R, call W p = some R ∧ Good clusters W p R) :
    ∀ (ps W : List Solid), (∀ p ∈ ps, p ∈ U) → unvisited U W < n →
      ∃ R, visitValue call ps W = some R ∧ (∃ e, R = W ++ e) ∧ (∀ p ∈ ps, p ∈ R) ∧
        (∀ y ∈ R, y ∉ W → Closed clusters R y ∧
          ∃ p ∈ ps, Relation.ReflTransGen (Linked clusters) p y) ∧
        (W.Nodup → R.Nodup) := by
  intro ps
  induction ps with
  | nil =>
    intro W _ _
    exact ⟨W, rfl, ⟨[], by simp⟩, by simp, fun y hy hn => absurd hy hn, id⟩
  | cons p ps ih =>
    intro W hps hW
    obtain ⟨R1, hR1, g1⟩ := hcall W p (hps p (List.mem_cons_self _ _)) hW
    obtain ⟨e1, he1⟩ := g1.ext
    have hsub1 : ∀ w ∈ W, w ∈ R1 := fun w hw => by rw [he1]; exact List.mem_append_left _ hw
    have hR1n : unvisited U R1 < n := lt_of_le_of_lt (unvisited_mono U _ _ hsub1) hW
    obtain ⟨R, hR, ⟨e2, he2⟩, hmem, hnew, hnd⟩ :=
      ih R1 (fun q hq => hps q (List.mem_cons_of_mem _ hq)) hR1n
    have hsub2 : ∀ r ∈ R1, r ∈ R := fun r hr => by rw [he2]; exact List.mem_append_left _ hr
    refine ⟨R, ?_, ⟨e1 ++ e2, by rw [he2, he1, List.append_assoc]⟩, ?_, ?_, ?_⟩
    · simp only [visitValue, hR1, Option.some_bind]
      exact hR
    · intro q hq
      rcases List.mem_cons.1 hq with h | h
      · subst h; exact hsub2 _ g1.mem
      · exact hmem q h
    · intro y hy hyW
      by_cases hy1 : y ∈ R1
      · obtain ⟨hc, hr⟩ := g1.new y hy1 hyW
        exact ⟨Closed_mono hc hsub2, p, List.mem_cons_self _ _, hr⟩
      · obtain ⟨hc, q, hq, hr⟩ := hnew y hy hy1
        exact ⟨hc, q, List.mem_cons_of_mem _ hq, hr⟩
    · intro hWn
      exact hnd (g1.nodup hWn)

theorem visitClusters_good (clusters : List (Solid × List Solid)) (U : List Solid) (n : Nat)
    (hU : ∀ e ∈ clusters, e.1 ∈ U ∧ ∀ s ∈ e.2, s ∈ U)
    (call : List Solid → Solid → Option (List Solid))
    (hcall : ∀ W p, p ∈ U → unvisited U W < n → ∃ R, call W p = some R ∧ Good clusters W p R)
    (x : Solid) :
    ∀ (rest W : List _), (∀ e ∈ rest, e ∈ clusters) → x ∈ W → unvisited U W < n →
      ∃ R, visitClusters call x rest W = some R ∧ (∃ e, R = W ++ e) ∧
        (∀ e ∈ rest, x ∈ e.2 → e.1 ∈ R) ∧
        (∀ y ∈ R, y ∉ W → Closed clusters R y ∧ Relation.ReflTransGen (Linked clusters) x y) ∧
        (W.Nodup → R.Nodup) := by
  intro rest
  induction rest with
  | nil =>
    intro W _ _ _
    exact ⟨W, rfl, ⟨[], by simp⟩, by simp, fun y hy hn => absurd hy hn, id⟩
  | cons c rest ih =>
    intro W hrest hxW hW
    have hc : c ∈ clusters := hrest c (List.mem_cons_self _ _)
    have hrest2 : ∀ e ∈ rest, e ∈ clusters := fun e he => hrest e (List.mem_cons_of_mem _ he)
    by_cases hcond : c.1 ∉ W ∧ ¬ c.1 = x ∧ x ∈ c.2
    · obtain ⟨R1, hR1, g1⟩ := hcall W c.1 (hU c hc).1 hW
      obtain ⟨e1, he1⟩ := g1.ext
      have hsub1 : ∀ w ∈ W, w ∈ R1 := fun w hw => by rw [he1]; exact List.mem_append_left _ hw
      have hR1n : unvisited U R1 < n := lt_of_le_of_lt (unvisited_mono U _ _ hsub1) hW
      obtain ⟨R2, hR2, ⟨e2, he2⟩, hmem2, hnew2, hnd2⟩ :=
        visitValue_good clusters U n call hcall c.2 R1 (hU c hc).2 hR1n
      have hsub2 : ∀ r ∈ R1, r ∈ R2 := fun r hr => by rw [he2]; exact List.mem_append_left _ hr
      have hR2n : unvisited U R2 < n := lt_of_le_of_lt (unvisited_mono U _ _ hsub2) hR1n
      obtain ⟨R, hR, ⟨e3, he3⟩, hkeys, hnew, hnd⟩ :=
        ih R2 hrest2 (hsub2 _ (hsub1 _ hxW)) hR2n
      have hsub3 : ∀ r ∈ R2, r ∈ R := fun r hr => by rw [he3]; exact List.mem_append_left _ hr
      have hxc : Relation.ReflTransGen (Linked clusters) x c.1 :=
        Relation.ReflTransGen.single ⟨c, hc, Or.inl ⟨hcond.2.2, rfl⟩⟩
      refine ⟨R, ?_, ⟨e1 ++ (e2 ++ e3), by rw [he3, he2, he1]; simp⟩, ?_, ?_, ?_⟩
      · simp only [visitClusters, if_pos hcond, hR1, Option.some_bind, hR2]
        exact hR
      · intro e he hxe
        rcases List.mem_cons.1 he with h | h
        · subst h; exact hsub3 _ (hsub2 _ g1.mem)
        · exact hkeys e h hxe
      · intro y hy hyW
        by_cases hy1 : y ∈ R1
        · obtain ⟨hcl, hr⟩ := g1.new y hy1 hyW
          exact ⟨Closed_mono hcl (fun r hr => hsub3 _ (hsub2 _ hr)), hxc.trans hr⟩
        · by_cases hy2 : y ∈ R2
          · obtain ⟨hcl, q, hq, hr⟩ := hnew2 y hy2 hy1
            refine ⟨Closed_mono hcl hsub3, (hxc.tail ?_).trans hr⟩
            exact ⟨c, hc, Or.inr ⟨rfl, hq⟩⟩
          · exact hnew y hy hy2
      · intro hWn
        exact hnd (hnd2 (g1.nodup hWn))
    · obtain ⟨R, hR, ⟨e3, he3⟩, hkeys, hnew, hnd⟩ := ih W hrest2 hxW hW
      have hsub3 : ∀ r ∈ W, r ∈ R := fun r hr => by rw [he3]; exact List.mem_append_left _ hr
      refine ⟨R, ?_, ⟨e3, he3⟩, ?_, hnew, hnd⟩
      · simp only [visitClusters, if_neg hcond]
        exact hR
      · intro e he hxe
        rcases List.mem_cons.1 he with h | h
        · subst h
          by_cases h1 : e.1 ∈ W
          · exact hsub3 _ h1
          · by_cases h2 : e.1 = x
            · rw [h2]; exact hsub3 _ hxW
            · exact absurd ⟨h1, h2, hxe⟩ hcond
        · exact hkeys e h hxe

/-- With a depth bound above the number of unvisited solids, `GetConnected` returns, and what
it returns is `Good`. -/
theorem GetConnected_good (clusters : List (Solid × List Solid)) (U : List Solid)
    (hU : ∀ e ∈ clusters, e.1 ∈ U ∧ ∀ s ∈ e.2, s ∈ U) :
    ∀ (fuel : Nat) (V : List Solid) (x : Solid), x ∈ U → unvisited U V < fuel →
      ∃ R, GetConnected fuel clusters V x = some R ∧ Good clusters V x R := by
  intro fuel
  induction fuel with
  | zero => intro V x _ h; exact absurd h (Nat.not_lt_zero _)
  | succ fuel ih =>
    intro V x hx hV
    by_cases hxV : x ∈ V
    · refine ⟨V, by simp [GetConnected, hxV], ⟨[], by simp⟩, hxV, ?_, id⟩
      intro y hy hn; exact absurd hy hn
    · have hadd : hashSetAdd V x = V ++ [x] := by simp [hashSetAdd, hxV]
      have hlt : unvisited U (V ++ [x]) < fuel :=
        lt_of_lt_of_le (unvisited_lt U hx hxV) (Nat.lt_succ_iff.1 hV)
      obtain ⟨R, hR, ⟨e, he⟩, hkeys, hnew, hnd⟩ :=
        visitClusters_good clusters U fuel hU (GetConnected fuel clusters) ih x clusters
          (V ++ [x]) (fun e he => he) (by simp) hlt
      have hxR : x ∈ R := by rw [he]; simp
      refine ⟨R, ?_, ⟨[x] ++ e, by rw [he]; simp⟩, hxR, ?_, ?_⟩
      · simp only [GetConnected, if_neg hxV, hadd]
        exact hR
      · intro y hy hyV
        by_cases hyx : y = x
        · subst hyx
          exact ⟨fun c hc hyc => hkeys c hc hyc, Relation.ReflTransGen.refl⟩
        · exact hnew y hy (by simp [hyV, hyx])
      · intro hVn
        apply hnd
        rw [List.nodup_append]
        refine ⟨hVn, by simp, ?_⟩
        intro a ha hb
        simp at hb
        subst hb
        exact hxV ha

end GC2

section Clusters
variable {Solid Shape : Type} [DecidableEq Solid]

theorem dictSetItem_nil (d : List (Solid × List Solid)) (k : Solid)
    (hd : ∀ e ∈ d, e.2 = []) :
    dictSetItem d k [] = if k ∈ d.map Prod.fst then d else d ++ [(k, [])] := by
  unfold dictSetItem
  by_cases hk : k ∈ d.map Prod.fst
  · have hany : (d.any fun e => decide (e.1 = k)) = true := by
      obtain ⟨e, he, hek⟩ := List.mem_map.1 hk
      exact List.any_eq_true.2 ⟨e, he, by simp [hek]⟩
    rw [if_pos hany, if_pos hk]
    conv_rhs => rw [← List.map_id d]
    apply List.map_congr_left
    intro e he
    by_cases hek : e.1 = k
    · rw [if_pos hek]
      exact Prod.ext hek.symm (hd e he).symm
    · rw [if_neg hek]; rfl
  · have hany : ¬ (d.any fun e => decide (e.1 = k)) = true := by
      intro h
      obtain ⟨e, he, hek⟩ := List.any_eq_true.1 h
      exact hk (List.mem_map.2 ⟨e, he, of_decide_eq_true hek⟩)
    rw [if_neg hany, if_neg hk]

theorem initClusters_aux (l : List (Option Solid)) :
    ∀ (d : List (Solid × List Solid)), (d.map Prod.fst).Nodup → (∀ e ∈ d, e.2 = []) →
      let r := l.foldl
        (fun clusters solid =>
          match solid with
          | some solidToCheck => dictSetItem clusters solidToCheck []
          | none => clusters) d
      (r.map Prod.fst).Nodup ∧ (∀ e ∈ r, e.2 = []) ∧
        ∀ s, s ∈ r.map Prod.fst ↔ (s ∈ d.map Prod.fst ∨ some s ∈ l) := by
  induction l with
  | nil => intro d hn hv; exact ⟨hn, hv, fun s => by simp⟩
  | cons o l ih =>
    intro d hn hv
    cases o with
    | none =>
      have := ih d hn hv
      simpa using this
    | some k =>
      simp only [List.foldl_cons]
      rw [dictSetItem_nil d k hv]
      by_cases hk : k ∈ d.map Prod.fst
      · rw [if_pos hk]
        obtain ⟨h1, h2, h3⟩ := ih d hn hv
        refine ⟨h1, h2, fun s => ?_⟩
        rw [h3 s]
        constructor
        · rintro (h | h)
          · exact Or.inl h
          · exact Or.inr (List.mem_cons_of_mem _ h)
        · rintro (h | h)
          · exact Or.inl h
          · rcases List.mem_cons.1 h with h | h
            · cases h; exact Or.inl hk
            · exact Or.inr h
      · rw [if_neg hk]
        have hn2 : ((d ++ [(k, [])]).map Prod.fst).Nodup := by
          rw [List.map_append, List.nodup_append]
          refine ⟨hn, by simp, ?_⟩
          intro a ha hb
          simp at hb
          subst hb
          exact hk ha
        have hv2 : ∀ e ∈ d ++ [(k, ([] : List Solid))], e.2 = [] := by
          intro e he
          rcases List.mem_append.1 he with h | h
          · exact hv e h
          · simp at h; rw [h]
        obtain ⟨h1, h2, h3⟩ := ih _ hn2 hv2
        refine ⟨h1, h2, fun s => ?_⟩
        rw [h3 s]
        simp only [List.map_append, List.mem_append, List.map_cons, List.map_nil,
          List.mem_singleton, List.mem_cons, Option.some.injEq, List.not_mem_nil, or_false]
        tauto

theorem initClusters_spec (solids : List (Option Solid)) :
    ((initClusters solids).map Prod.fst).Nodup ∧ (∀ e ∈ initClusters solids, e.2 = []) ∧
      ∀ s, s ∈ (initClusters solids).map Prod.fst ↔ some s ∈ solids := by
  have h := initClusters_aux solids ([] : List (Solid × List Solid)) (by simp) (by simp)
  simpa [initClusters] using h

theorem addToClusters_keys (K : Kernel Solid Shape) (s : Solid) (d : List (Solid × List Solid)) :
    (addToClusters K s d).map Prod.fst = d.map Prod.fst := by
  unfold addToClusters
  rw [List.map_map]
  apply List.map_congr_left
  intro e _
  simp only [Function.comp]
  split <;> rfl

theorem fillClusters_keys (K : Kernel Solid Shape) (l : List (Option Solid)) :
    ∀ d : List (Solid × List Solid), (fillClusters K l d).map Prod.fst = d.map Prod.fst := by
  induction l with
  | nil => intro d; rfl
  | cons o l ih =>
    intro d
    cases o with
    | none => exact ih d
    | some s =>
      have h := ih (addToClusters K s d)
      rw [addToClusters_keys] at h
      exact h

theorem mem_hashSetAdd (set : List Solid) (s x : Solid) :
    x ∈ hashSetAdd set s ↔ x ∈ set ∨ x = s := by
  unfold hashSetAdd
  by_cases h : s ∈ set
  · rw [if_pos h]
    constructor
    · exact Or.inl
    · rintro (h1 | h1)
      · exact h1
      · rw [h1]; exact h
  · rw [if_neg h]; simp

theorem mem_fillClusters (K : Kernel Solid Shape) (l : List (Option Solid)) :
    ∀ (d : List (Solid × List Solid)) (r : Solid × List Solid), r ∈ fillClusters K l d →
      ∃ e ∈ d, r.1 = e.1 ∧
        ∀ s, s ∈ r.2 ↔ (s ∈ e.2 ∨ (some s ∈ l ∧ s ≠ e.1 ∧ K.Intersects s e.1 = true)) := by
  induction l with
  | nil =>
    intro d r hr
    exact ⟨r, hr, rfl, fun s => by simp⟩
  | cons o l ih =>
    intro d r hr
    cases o with
    | none =>
      obtain ⟨e, he, h1, h2⟩ := ih d r hr
      refine ⟨e, he, h1, fun s => ?_⟩
      rw [h2 s]; simp
    | some k =>
      obtain ⟨e1, he1, h1, h2⟩ := ih (addToClusters K k d) r hr
      obtain ⟨e, he, hee⟩ := List.mem_map.1 he1
      by_cases hc : k ≠ e.1 ∧ K.Intersects k e.1 = true
      · rw [if_pos hc] at hee
        subst hee
        refine ⟨e, he, h1, fun s => ?_⟩
        rw [h2 s]
        simp only [mem_hashSetAdd, List.mem_cons, Option.some.injEq]
        constructor
        · rintro ((h | h) | h)
          · exact Or.inl h
          · subst h; exact Or.inr ⟨Or.inl rfl, hc.1, hc.2⟩
          · exact Or.inr ⟨Or.inr h.1, h.2⟩
        · rintro (h | ⟨h | h, h3⟩)
          · exact Or.inl (Or.inl h)
          · exact Or.inl (Or.inr h)
          · exact Or.inr ⟨h, h3⟩
      · rw [if_neg hc] at hee
        subst hee
        refine ⟨e, he, h1, fun s => ?_⟩
        rw [h2 s]
        simp only [List.mem_cons, Option.some.injEq]
        constructor
        · rintro (h | h)
          · exact Or.inl h
          · exact Or.inr ⟨Or.inr h.1, h.2⟩
        · rintro (h | ⟨h | h, h3⟩)
          · exact Or.inl h
          · subst h; exact absurd h3 hc
          · exact Or.inr ⟨h, h3⟩

/-- What the adjacency pass leaves in `clusters`: one entry per solid of the input, whose set
holds the other solids of the input that intersect it. -/
theorem filled_spec (K : Kernel Solid Shape) (solids : List (Option Solid)) :
    ((fillClusters K solids (initClusters solids)).map Prod.fst).Nodup ∧
      (∀ s, s ∈ (fillClusters K solids (initClusters solids)).map Prod.fst ↔ some s ∈ solids) ∧
      ∀ e ∈ fillClusters K solids (initClusters solids), ∀ s,
        s ∈ e.2 ↔ Overlap K solids s e.1 := by
  obtain ⟨h1, h2, h3⟩ := initClusters_spec solids
  rw [fillClusters_keys]
  refine ⟨h1, h3, ?_⟩
  intro r hr s
  obtain ⟨e, he, hk, hv⟩ := mem_fillClusters K solids _ r hr
  rw [hv s, h2 e he, hk]
  have hek : some e.1 ∈ solids := (h3 e.1).1 (List.mem_map.2 ⟨e, he, rfl⟩)
  unfold Overlap
  constructor
  · rintro (h | h)
    · simp at h
    · exact ⟨h.1, hek, h.2.1, h.2.2⟩
  · intro h
    exact Or.inr ⟨h.1, h.2.2.1, h.2.2.2⟩

end Clusters

section Loop
variable {Solid Shape Tol : Type} [DecidableEq Solid]

theorem fuseConnected_trace (K : Kernel Solid Shape) (tol : Tol) (g : List Solid) :
    ∀ (acc : Shape) (tr : List (Event Solid Shape Tol)),
      fuseConnected K tol g acc tr =
        ((fuseConnected K tol g acc []).1, tr ++ (fuseConnected K tol g acc []).2) := by
  induction g with
  | nil => intro acc tr; simp [fuseConnected]
  | cons s g ih =>
    intro acc tr
    simp only [fuseConnected]
    by_cases hn : K.IsNull acc = true
    · simp only [if_pos hn, List.nil_append]
      rw [ih (K.toShape s) (tr ++ _), ih (K.toShape s) [_]]
      simp
    · simp only [if_neg hn, List.nil_append]
      cases hF : K.Fuse acc s with
      | shape result =>
        simp only []
        rw [ih result (tr ++ _), ih result [_, _]]
        simp
      | hasErrors =>
        simp only []
        rw [ih acc (tr ++ _), ih acc [_, _, _]]
        simp
      | stdException what =>
        simp only []
        rw [ih acc (tr ++ _), ih acc [_, _, _]]
        simp
      | otherException => simp

theorem fuseConnected_uncaught (K : Kernel Solid Shape) (tol : Tol) (g : List Solid) :
    ∀ (acc : Shape) (tr : List (Event Solid Shape Tol)),
      (fuseConnected K tol g acc tr).1 = none →
        ∃ a s, K.Fuse a s = FuseOutcome.otherException := by
  induction g with
  | nil => intro acc tr h; simp [fuseConnected] at h
  | cons s g ih =>
    intro acc tr h
    simp only [fuseConnected] at h
    by_cases hn : K.IsNull acc = true
    · rw [if_pos hn] at h
      exact ih _ _ h
    · rw [if_neg hn] at h
      cases hF : K.Fuse acc s with
      | shape result => rw [hF] at h; exact ih _ _ h
      | hasErrors => rw [hF] at h; exact ih _ _ h
      | stdException what => rw [hF] at h; exact ih _ _ h
      | otherException => exact ⟨acc, s, hF⟩

theorem foldl_dictRemove (R : List Solid) :
    ∀ pool : List (Solid × List Solid),
      R.foldl dictRemove pool = pool.filter (fun e => decide (e.1 ∉ R)) := by
  induction R with
  | nil => intro pool; simp
  | cons r R ih =>
    intro pool
    rw [List.foldl_cons, ih, dictRemove, List.filter_filter]
    apply List.filter_congr
    intro e _
    simp only [List.mem_cons, not_or]
    by_cases h1 : e.1 = r <;> by_cases h2 : e.1 ∈ R <;> simp [h1, h2]

theorem mem_foldl_dictRemove (R : List Solid) (pool : List (Solid × List Solid))
    (e : Solid × List Solid) : e ∈ R.foldl dictRemove pool ↔ e ∈ pool ∧ e.1 ∉ R := by
  rw [foldl_dictRemove, List.mem_filter]
  simp

theorem length_foldl_dictRemove (R : List Solid) (first : Solid × List Solid)
    (others : List (Solid × List Solid)) (h : first.1 ∈ R) :
    (R.foldl dictRemove (first :: others)).length ≤ others.length := by
  rw [foldl_dictRemove, List.filter_cons]
  have : decide (first.1 ∉ R) = false := decide_eq_false (by simpa using h)
  rw [this]
  exact List.length_filter_le _ _

theorem unvisited_nil (U : List Solid) : unvisited U [] = U.length := by
  simp [unvisited]

/-- The `while` loop ends, and what it adds to the state is determined by the groups it
computes. -/
theorem mergeLoop_basic (K : Kernel Solid Shape) (tol : Tol) (depth : Nat) (U : List Solid)
    (hdepth : U.length < depth) :
    ∀ (fuel : Nat) (pool : List (Solid × List Solid)) (st : MergeState Solid Shape Tol),
      (∀ e ∈ pool, e.1 ∈ U ∧ ∀ s ∈ e.2, s ∈ U) → pool.length ≤ fuel →
      ∃ gs, (mergeLoop K tol depth fuel pool st).2.groups = st.groups ++ gs ∧
        (mergeLoop K tol depth fuel pool st).2.trace = st.trace ++ gs.flatMap (foldTrace K tol) ∧
        ((mergeLoop K tol depth fuel pool st).1 = LoopStatus.finished →
          (mergeLoop K tol depth fuel pool st).2.toMergeReduced =
            st.toMergeReduced ++ gs.flatMap (groupSolids K tol)) ∧
        (mergeLoop K tol depth fuel pool st).1 ≠ LoopStatus.outOfFuel ∧
        ((mergeLoop K tol depth fuel pool st).1 = LoopStatus.uncaught →
          ∃ a s, K.Fuse a s = FuseOutcome.otherException) := by
  intro fuel
  induction fuel with
  | zero =>
    intro pool st _ hlen
    have hp : pool = [] := List.length_eq_zero.1 (Nat.le_zero.1 hlen)
    subst hp
    exact ⟨[], by simp [mergeLoop]⟩
  | succ fuel ih =>
    intro pool st hU hlen
    cases pool with
    | nil => exact ⟨[], by simp [mergeLoop]⟩
    | cons first others =>
      obtain ⟨R, hR, g⟩ := GetConnected_good (first :: others) U hU depth [] first.1
        (hU first (List.mem_cons_self _ _)).1 (by rw [unvisited_nil]; exact hdepth)
      have hfold := fuseConnected_trace K tol R K.nullShape st.trace
      cases hsh : (fuseConnected K tol R K.nullShape ([] : List (Event Solid Shape Tol))).1 with
      | none =>
        rw [hsh] at hfold
        have hml : mergeLoop K tol depth (fuel + 1) (first :: others) st =
            (LoopStatus.uncaught,
              { toMergeReduced := st.toMergeReduced,
                trace := st.trace ++ (fuseConnected K tol R K.nullShape []).2,
                groups := st.groups ++ [R] }) := by
          simp only [mergeLoop, hR, hfold]
        rw [hml]
        refine ⟨[R], rfl, by simp [foldTrace], by simp, by simp, fun _ => ?_⟩
        exact fuseConnected_uncaught K tol R K.nullShape [] hsh
      | some sh =>
        rw [hsh] at hfold
        have hU2 : ∀ e ∈ R.foldl dictRemove (first :: others),
            e.1 ∈ U ∧ ∀ s ∈ e.2, s ∈ U :=
          fun e he => hU e ((mem_foldl_dictRemove R _ e).1 he).1
        have hlen2 : (R.foldl dictRemove (first :: others)).length ≤ fuel :=
          le_trans (length_foldl_dictRemove R first others g.mem)
            (Nat.le_of_succ_le_succ hlen)
        obtain ⟨gs, h1, h2, h3, h4, h5⟩ := ih (R.foldl dictRemove (first :: others))
          { toMergeReduced := st.toMergeReduced ++ K.SolidSet sh,
            trace := st.trace ++ (fuseConnected K tol R K.nullShape []).2,
            groups := st.groups ++ [R] } hU2 hlen2
        have hml : mergeLoop K tol depth (fuel + 1) (first :: others) st =
            mergeLoop K tol depth fuel (R.foldl dictRemove (first :: others))
              { toMergeReduced := st.toMergeReduced ++ K.SolidSet sh,
                trace := st.trace ++ (fuseConnected K tol R K.nullShape []).2,
                groups := st.groups ++ [R] } := by
          simp only [mergeLoop, hR, hfold]
        rw [hml]
        refine ⟨R :: gs, by rw [h1]; simp, by rw [h2]; simp [foldTrace], fun hf => ?_, h4, h5⟩
        rw [h3 hf]
        simp [groupSolids, foldShape, hsh]

end Loop

section Groups
variable {Solid Shape Tol : Type} [DecidableEq Solid]

theorem Overlap_symm {K : Kernel Solid Shape} {solids : List (Option Solid)}
    (hsym : ∀ a b, K.Intersects a b = K.Intersects b a) {a b : Solid}
    (h : Overlap K solids a b) : Overlap K solids b a :=
  ⟨h.2.1, h.1, fun hba => h.2.2.1 hba.symm, by rw [hsym]; exact h.2.2.2⟩

theorem Chain_symm {K : Kernel Solid Shape} {solids : List (Option Solid)}
    (hsym : ∀ a b, K.Intersects a b = K.Intersects b a) {a b : Solid}
    (h : Chain K solids a b) : Chain K solids b a := by
  unfold Chain at h ⊢
  induction h with
  | refl => exact Relation.ReflTransGen.refl
  | tail _ hbc ih => exact Relation.ReflTransGen.head (Overlap_symm hsym hbc) ih

theorem Chain_mem {K : Kernel Solid Shape} {solids : List (Option Solid)} {a b : Solid}
    (h : Chain K solids a b) (ha : some a ∈ solids) : some b ∈ solids := by
  unfold Chain at h
  induction h with
  | refl => exact ha
  | tail _ hbc _ => exact hbc.2.1

/-- A chain between two different solids starts with an overlap. -/
theorem Chain_exists_overlap {K : Kernel Solid Shape} {solids : List (Option Solid)}
    {a b : Solid} (h : Chain K solids a b) (hab : a ≠ b) : ∃ z, Overlap K solids a z := by
  unfold Chain at h
  rcases Relation.ReflTransGen.cases_head h with h1 | ⟨z, hz, _⟩
  · exact absurd h1 hab
  · exact ⟨z, hz⟩

theorem component_sound {K : Kernel Solid Shape} {solids : List (Option Solid)}
    (hsym : ∀ a b, K.Intersects a b = K.Intersects b a) {pool : List (Solid × List Solid)}
    (hinv : PoolInv K solids pool) {x y : Solid} (hx : x ∈ pool.map Prod.fst)
    (h : Relation.ReflTransGen (Linked pool) x y) :
    y ∈ pool.map Prod.fst ∧ Chain K solids x y := by
  induction h with
  | refl => exact ⟨hx, Relation.ReflTransGen.refl⟩
  | tail _ hbc ih =>
    obtain ⟨e, he, h1 | h1⟩ := hbc
    · obtain ⟨hb, hc⟩ := h1
      subst hc
      exact ⟨List.mem_map.2 ⟨e, he, rfl⟩, ih.2.tail ((hinv.adj e he _).1 hb)⟩
    · obtain ⟨hb, hc⟩ := h1
      subst hb
      exact ⟨hinv.closed e he _ hc, ih.2.tail (Overlap_symm hsym ((hinv.adj e he _).1 hc))⟩

theorem component_complete {K : Kernel Solid Shape} {solids : List (Option Solid)}
    (hsym : ∀ a b, K.Intersects a b = K.Intersects b a) {pool : List (Solid × List Solid)}
    (hinv : PoolInv K solids pool) {x : Solid} {R : List Solid}
    (hkeys : ∀ y ∈ R, y ∈ pool.map Prod.fst) (hclosed : ∀ y ∈ R, Closed pool R y)
    (hx : x ∈ R) {y : Solid} (h : Chain K solids x y) : y ∈ R := by
  unfold Chain at h
  induction h with
  | refl => exact hx
  | @tail b c _ hbc ih =>
    obtain ⟨eb, heb, hebk⟩ := List.mem_map.1 (hkeys b ih)
    have hcb : c ∈ eb.2 := (hinv.adj eb heb c).2 (by rw [hebk]; exact Overlap_symm hsym hbc)
    obtain ⟨ec, hec, heck⟩ := List.mem_map.1 (hinv.closed eb heb c hcb)
    have hbc2 : b ∈ ec.2 := (hinv.adj ec hec b).2 (by rw [heck]; exact hbc)
    have := hclosed b ih ec hec hbc2
    rw [heck] at this
    exact this

theorem PoolInv_remove {K : Kernel Solid Shape} {solids : List (Option Solid)}
    {pool : List (Solid × List Solid)} (hinv : PoolInv K solids pool) {R : List Solid}
    (hclosed : ∀ y ∈ R, Closed pool R y) : PoolInv K solids (R.foldl dictRemove pool) := by
  refine ⟨?_, ?_, ?_⟩
  · intro e he
    exact hinv.adj e ((mem_foldl_dictRemove R pool e).1 he).1
  · intro e he s hs
    obtain ⟨hep, heR⟩ := (mem_foldl_dictRemove R pool e).1 he
    obtain ⟨es, hes, hesk⟩ := List.mem_map.1 (hinv.closed e hep s hs)
    refine List.mem_map.2 ⟨es, (mem_foldl_dictRemove R pool es).2 ⟨hes, ?_⟩, hesk⟩
    rw [hesk]
    intro hsR
    exact heR (hclosed s hsR e hep hs)
  · intro e he
    exact hinv.sparse e ((mem_foldl_dictRemove R pool e).1 he).1

/-- With a symmetric intersection test, every group the `while` loop computes is a connected
component with at least two members, the groups are pairwise disjoint, and a loop that
finishes leaves no key of `clustersSparse` out. -/
theorem mergeLoop_groups (K : Kernel Solid Shape) (solids : List (Option Solid))
    (hsym : ∀ a b, K.Intersects a b = K.Intersects b a) (tol : Tol) (depth : Nat)
    (U : List Solid) (hdepth : U.length < depth) :
    ∀ (fuel : Nat) (pool : List (Solid × List Solid)) (st : MergeState Solid Shape Tol),
      (∀ e ∈ pool, e.1 ∈ U ∧ ∀ s ∈ e.2, s ∈ U) → pool.length ≤ fuel → PoolInv K solids pool →
      ∃ gs, (mergeLoop K tol depth fuel pool st).2.groups = st.groups ++ gs ∧
        (∀ g ∈ gs, g.Nodup ∧ 2 ≤ g.length ∧
          ∀ x ∈ g, x ∈ pool.map Prod.fst ∧ ∀ y, y ∈ g ↔ Chain K solids x y) ∧
        gs.Pairwise List.Disjoint ∧
        ((mergeLoop K tol depth fuel pool st).1 = LoopStatus.finished →
          ∀ x ∈ pool.map Prod.fst, ∃ g ∈ gs, x ∈ g) := by
  intro fuel
  induction fuel with
  | zero =>
    intro pool st _ hlen _
    have hp : pool = [] := List.length_eq_zero.1 (Nat.le_zero.1 hlen)
    subst hp
    exact ⟨[], by simp [mergeLoop]⟩
  | succ fuel ih =>
    intro pool st hU hlen hinv
    cases pool with
    | nil => exact ⟨[], by simp [mergeLoop]⟩
    | cons first others =>
      have hfirst : first ∈ first :: others := List.mem_cons_self _ _
      have hfk : first.1 ∈ (first :: others).map Prod.fst := List.mem_map.2 ⟨first, hfirst, rfl⟩
      obtain ⟨R, hR, g⟩ := GetConnected_good (first :: others) U hU depth [] first.1
        (hU first hfirst).1 (by rw [unvisited_nil]; exact hdepth)
      have hnew : ∀ y ∈ R, Closed (first :: others) R y ∧
          Relation.ReflTransGen (Linked (first :: others)) first.1 y :=
        fun y hy => g.new y hy (List.not_mem_nil y)
      have hsound : ∀ y ∈ R, y ∈ (first :: others).map Prod.fst ∧ Chain K solids first.1 y :=
        fun y hy => component_sound hsym hinv hfk (hnew y hy).2
      have hclosed : ∀ y ∈ R, Closed (first :: others) R y := fun y hy => (hnew y hy).1
      have hcomplete : ∀ y, Chain K solids first.1 y → y ∈ R :=
        fun y hy => component_complete hsym hinv (fun z hz => (hsound z hz).1) hclosed g.mem hy
      have hRnd : R.Nodup := g.nodup List.nodup_nil
      have hRcomp : ∀ x ∈ R, x ∈ (first :: others).map Prod.fst ∧
          ∀ y, y ∈ R ↔ Chain K solids x y := by
        intro x hx
        refine ⟨(hsound x hx).1, fun y => ⟨fun hy => ?_, fun hy => ?_⟩⟩
        · exact Relation.ReflTransGen.trans (Chain_symm hsym (hsound x hx).2) (hsound y hy).2
        · exact hcomplete y (Relation.ReflTransGen.trans (hsound x hx).2 hy)
      have hRlen : 2 ≤ R.length := by
        obtain ⟨s, hs⟩ := List.exists_mem_of_ne_nil _ (hinv.sparse first hfirst)
        have hov := (hinv.adj first hfirst s).1 hs
        have hsR : s ∈ R :=
          hcomplete s (Relation.ReflTransGen.single (Overlap_symm hsym hov))
        have hsub : [s, first.1].Subperm R := by
          apply List.subperm_of_subset
          · simp; exact hov.2.2.1
          · intro z hz
            simp at hz
            rcases hz with h | h
            · rw [h]; exact hsR
            · rw [h]; exact g.mem
        simpa using hsub.length_le
      have hfold := fuseConnected_trace K tol R K.nullShape st.trace
      cases hsh : (fuseConnected K tol R K.nullShape ([] : List (Event Solid Shape Tol))).1 with
      | none =>
        rw [hsh] at hfold
        have hml : mergeLoop K tol depth (fuel + 1) (first :: others) st =
            (LoopStatus.uncaught,
              { toMergeReduced := st.toMergeReduced,
                trace := st.trace ++ (fuseConnected K tol R K.nullShape []).2,
                groups := st.groups ++ [R] }) := by
          simp only [mergeLoop, hR, hfold]
        rw [hml]
        refine ⟨[R], rfl, ?_, by simp, by simp⟩
        intro g2 hg2
        simp at hg2
        subst hg2
        exact ⟨hRnd, hRlen, hRcomp⟩
      | some sh =>
        rw [hsh] at hfold
        have hU2 : ∀ e ∈ R.foldl dictRemove (first :: others),
            e.1 ∈ U ∧ ∀ s ∈ e.2, s ∈ U :=
          fun e he => hU e ((mem_foldl_dictRemove R _ e).1 he).1
        have hlen2 : (R.foldl dictRemove (first :: others)).length ≤ fuel :=
          le_trans (length_foldl_dictRemove R first others g.mem)
            (Nat.le_of_succ_le_succ hlen)
        have hkeys2 : ∀ x, x ∈ (R.foldl dictRemove (first :: others)).map Prod.fst →
            x ∈ (first :: others).map Prod.fst ∧ x ∉ R := by
          intro x hx
          obtain ⟨e, he, hek⟩ := List.mem_map.1 hx
          obtain ⟨h1, h2⟩ := (mem_foldl_dictRemove R _ e).1 he
          exact ⟨List.mem_map.2 ⟨e, h1, hek⟩, by rw [← hek]; exact h2⟩
        obtain ⟨gs, h1, h2, h3, h4⟩ := ih (R.foldl dictRemove (first :: others))
          { toMergeReduced := st.toMergeReduced ++ K.SolidSet sh,
            trace := st.trace ++ (fuseConnected K tol R K.nullShape []).2,
            groups := st.groups ++ [R] } hU2 hlen2 (PoolInv_remove hinv hclosed)
        have hml : mergeLoop K tol depth (fuel + 1) (first :: others) st =
            mergeLoop K tol depth fuel (R.foldl dictRemove (first :: others))
              { toMergeReduced := st.toMergeReduced ++ K.SolidSet sh,
                trace := st.trace ++ (fuseConnected K tol R K.nullShape []).2,
                groups := st.groups ++ [R] } := by
          simp only [mergeLoop, hR, hfold]
        rw [hml]
        refine ⟨R :: gs, by rw [h1]; simp, ?_, ?_, ?_⟩
        · intro g2 hg2
          rcases List.mem_cons.1 hg2 with h | h
          · subst h; exact ⟨hRnd, hRlen, hRcomp⟩
          · obtain ⟨a1, a2, a3⟩ := h2 g2 h
            exact ⟨a1, a2, fun x hx => ⟨(hkeys2 x (a3 x hx).1).1, (a3 x hx).2⟩⟩
        · rw [List.pairwise_cons]
          refine ⟨fun g2 hg2 => ?_, h3⟩
          intro x hxR hx2
          exact (hkeys2 x ((h2 g2 hg2).2.2 x hx2).1).2 hxR
        · intro hf x hx
          by_cases hxR : x ∈ R
          · exact ⟨R, List.mem_cons_self _ _, hxR⟩
          · obtain ⟨e, he, hek⟩ := List.mem_map.1 hx
            have : x ∈ (R.foldl dictRemove (first :: others)).map Prod.fst :=
              List.mem_map.2 ⟨e, (mem_foldl_dictRemove R _ e).2 ⟨he, by rw [hek]; exact hxR⟩, hek⟩
            obtain ⟨g2, hg2, hxg⟩ := h4 hf x this
            exact ⟨g2, List.mem_cons_of_mem _ hg2, hxg⟩

end Groups

section MergeLemmas
variable {Solid Shape Tol : Type} [DecidableEq Solid]

theorem Merge_general (K : Kernel Solid Shape) (solids : List (Option Solid)) (tol : Tol)
    (h : 2 ≤ (initClusters solids).length) :
    Merge K solids tol =
      { result :=
          match (loopRun K solids tol).1 with
          | LoopStatus.finished =>
            MergeResult.compound (loopRun K solids tol).2.toMergeReduced true tol
          | LoopStatus.uncaught => MergeResult.uncaught
          | LoopStatus.outOfFuel => MergeResult.outOfFuel
        trace := (loopRun K solids tol).2.trace
        isolated := isolatedKeys (filledClusters K solids)
        groups := (loopRun K solids tol).2.groups } := by
  have h0 : ¬ (initClusters solids).length = 0 := by omega
  have h1 : ¬ (initClusters solids).length = 1 := by omega
  unfold Merge loopRun filledClusters
  simp only [h0, h1, if_false]
  split <;> simp_all

theorem Merge_empty (K : Kernel Solid Shape) (solids : List (Option Solid)) (tol : Tol)
    (h : (initClusters solids).length = 0) :
    Merge K solids tol =
      { result := MergeResult.null, trace := [], isolated := [], groups := [] } := by
  unfold Merge
  simp only [h, if_true]

theorem Merge_single (K : Kernel Solid Shape) (solids : List (Option Solid)) (tol : Tol)
    (first : Solid × List Solid) (h : initClusters solids = [first]) :
    Merge K solids tol =
      { result := MergeResult.compound [first.1] true tol, trace := [], isolated := [],
        groups := [] } := by
  unfold Merge
  simp [h]

end MergeLemmas

section MergeLemmas2
variable {Solid Shape Tol : Type} [DecidableEq Solid]

theorem filledClusters_spec (K : Kernel Solid Shape) (solids : List (Option Solid)) :
    ((filledClusters K solids).map Prod.fst).Nodup ∧
      (∀ s, s ∈ (filledClusters K solids).map Prod.fst ↔ some s ∈ solids) ∧
      ∀ e ∈ filledClusters K solids, ∀ s, s ∈ e.2 ↔ Overlap K solids s e.1 :=
  filled_spec K solids

theorem filledClusters_length (K : Kernel Solid Shape) (solids : List (Option Solid)) :
    (filledClusters K solids).length = (initClusters solids).length := by
  have h := congrArg List.length (fillClusters_keys K solids (initClusters solids))
  simpa [filledClusters] using h

theorem mem_sparseClusters (d : List (Solid × List Solid)) (e : Solid × List Solid) :
    e ∈ sparseClusters d ↔ e ∈ d ∧ e.2 ≠ [] := by
  unfold sparseClusters
  rw [List.mem_filter]
  simp [List.length_pos]

theorem mem_isolatedKeys (d : List (Solid × List Solid)) (x : Solid) :
    x ∈ isolatedKeys d ↔ ∃ e ∈ d, e.2 = [] ∧ e.1 = x := by
  unfold isolatedKeys
  rw [List.mem_map]
  constructor
  · rintro ⟨e, he, hx⟩
    rw [List.mem_filter] at he
    exact ⟨e, he.1, by simpa using he.2, hx⟩
  · rintro ⟨e, he, h2, hx⟩
    exact ⟨e, List.mem_filter.2 ⟨he, by simp [h2]⟩, hx⟩

theorem sparse_bounded (K : Kernel Solid Shape) (solids : List (Option Solid)) :
    ∀ e ∈ sparseClusters (filledClusters K solids),
      e.1 ∈ (filledClusters K solids).map Prod.fst ∧
        ∀ s ∈ e.2, s ∈ (filledClusters K solids).map Prod.fst := by
  intro e he
  obtain ⟨_, h2, h3⟩ := filledClusters_spec K solids
  have hef := ((mem_sparseClusters _ e).1 he).1
  refine ⟨List.mem_map.2 ⟨e, hef, rfl⟩, fun s hs => ?_⟩
  exact (h2 s).2 ((h3 e hef s).1 hs).1

theorem loopRun_basic (K : Kernel Solid Shape) (solids : List (Option Solid)) (tol : Tol) :
    (loopRun K solids tol).2.trace = (loopRun K solids tol).2.groups.flatMap (foldTrace K tol) ∧
      ((loopRun K solids tol).1 = LoopStatus.finished →
        (loopRun K solids tol).2.toMergeReduced =
          isolatedKeys (filledClusters K solids) ++
            (loopRun K solids tol).2.groups.flatMap (groupSolids K tol)) ∧
      (loopRun K solids tol).1 ≠ LoopStatus.outOfFuel ∧
      ((loopRun K solids tol).1 = LoopStatus.uncaught →
        ∃ a s, K.Fuse a s = FuseOutcome.otherException) := by
  obtain ⟨gs, h1, h2, h3, h4, h5⟩ :=
    mergeLoop_basic K tol ((filledClusters K solids).length + 1)
      ((filledClusters K solids).map Prod.fst) (by simp)
      (sparseClusters (filledClusters K solids)).length (sparseClusters (filledClusters K solids))
      { toMergeReduced := isolatedKeys (filledClusters K solids), trace := [], groups := [] }
      (sparse_bounded K solids) (le_refl _)
  simp only [List.nil_append] at h1 h2
  unfold loopRun
  rw [h1]
  exact ⟨h2, h3, h4, h5⟩

/-- Neither depth bound of the embedding is ever reached. -/
theorem Merge_terminates (K : Kernel Solid Shape) (solids : List (Option Solid)) (tol : Tol) :
    (Merge K solids tol).result ≠ MergeResult.outOfFuel := by
  by_cases h : 2 ≤ (initClusters solids).length
  · rw [Merge_general K solids tol h]
    have h3 := (loopRun_basic K solids tol).2.2.1
    cases hs : (loopRun K solids tol).1 with
    | finished => simp
    | uncaught => simp
    | outOfFuel => exact absurd hs h3
  · by_cases h0 : (initClusters solids).length = 0
    · rw [Merge_empty K solids tol h0]; simp
    · have h1 : (initClusters solids).length = 1 := by omega
      obtain ⟨first, hf⟩ := List.length_eq_one.1 h1
      rw [Merge_single K solids tol first hf]; simp

/-- The trace of `Merge` is the concatenation of the traces of the folds over its groups. -/
theorem Merge_trace_eq (K : Kernel Solid Shape) (solids : List (Option Solid)) (tol : Tol) :
    (Merge K solids tol).trace = (Merge K solids tol).groups.flatMap (foldTrace K tol) := by
  by_cases h : 2 ≤ (initClusters solids).length
  · rw [Merge_general K solids tol h]
    exact (loopRun_basic K solids tol).1
  · by_cases h0 : (initClusters solids).length = 0
    · rw [Merge_empty K solids tol h0]; simp
    · have h1 : (initClusters solids).length = 1 := by omega
      obtain ⟨first, hf⟩ := List.length_eq_one.1 h1
      rw [Merge_single K solids tol first hf]; simp

/-- With two or more distinct solids, `Merge` is either left by an exception that the handler
of the union does not match, or returns the isolated solids followed by the solids of the
folded groups. -/
theorem Merge_result_general (K : Kernel Solid Shape) (solids : List (Option Solid)) (tol : Tol)
    (h : 2 ≤ (initClusters solids).length) :
    ((Merge K solids tol).result = MergeResult.uncaught ∧
        ∃ a s, K.Fuse a s = FuseOutcome.otherException) ∨
      (Merge K solids tol).result =
        MergeResult.compound
          ((Merge K solids tol).isolated ++
            (Merge K solids tol).groups.flatMap (groupSolids K tol)) true tol := by
  rw [Merge_general K solids tol h]
  obtain ⟨_, h2, h3, h4⟩ := loopRun_basic K solids tol
  cases hs : (loopRun K solids tol).1 with
  | finished => right; simp only []; rw [h2 hs]
  | uncaught => left; exact ⟨rfl, h4 hs⟩
  | outOfFuel => exact absurd hs h3

theorem two_le_count_iff (solids : List (Option Solid)) :
    2 ≤ (initClusters solids).length ↔ ∃ a b : Solid, a ≠ b ∧ some a ∈ solids ∧ some b ∈ solids := by
  obtain ⟨hnd, _, hmem⟩ := initClusters_spec solids
  rw [← List.length_map (initClusters solids) Prod.fst]
  constructor
  · intro h
    match hk : (initClusters solids).map Prod.fst, h with
    | a :: b :: rest, _ =>
      rw [hk] at hnd
      refine ⟨a, b, ?_, (hmem a).1 (by rw [hk]; simp), (hmem b).1 (by rw [hk]; simp)⟩
      intro hab
      subst hab
      simp at hnd
    | [_], h => simp at h
    | [], h => simp at h
  · rintro ⟨a, b, hab, ha, hb⟩
    have hsub : [a, b].Subperm ((initClusters solids).map Prod.fst) := by
      apply List.subperm_of_subset
      · simp; exact hab
      · intro z hz
        simp at hz
        rcases hz with h | h
        · rw [h]; exact (hmem a).2 ha
        · rw [h]; exact (hmem b).2 hb
    simpa using hsub.length_le

theorem Merge_isolated (K : Kernel Solid Shape) (solids : List (Option Solid)) (tol : Tol)
    (h : 2 ≤ (initClusters solids).length) :
    (Merge K solids tol).isolated.Nodup ∧
      ∀ x, x ∈ (Merge K solids tol).isolated ↔
        (some x ∈ solids ∧ ∀ z, ¬ Overlap K solids z x) := by
  rw [Merge_general K solids tol h]
  obtain ⟨hnd, hk, hv⟩ := filledClusters_spec K solids
  simp only []
  constructor
  · unfold isolatedKeys
    exact (List.Nodup.sublist (List.Sublist.map _ (List.filter_sublist _)) hnd)
  · intro x
    rw [mem_isolatedKeys]
    constructor
    · rintro ⟨e, he, hnil, hx⟩
      subst hx
      refine ⟨(hk e.1).1 (List.mem_map.2 ⟨e, he, rfl⟩), fun z hz => ?_⟩
      have := (hv e he z).2 hz
      rw [hnil] at this
      simp at this
    · rintro ⟨hx, hno⟩
      obtain ⟨e, he, hex⟩ := List.mem_map.1 ((hk x).2 hx)
      refine ⟨e, he, ?_, hex⟩
      apply List.eq_nil_iff_forall_not_mem.2
      intro z hz
      exact hno z (by rw [← hex]; exact (hv e he z).1 hz)

end MergeLemmas2

section MergeGroups
variable {Solid Shape Tol : Type} [DecidableEq Solid]

theorem sparse_poolInv (K : Kernel Solid Shape) (solids : List (Option Solid))
    (hsym : ∀ a b, K.Intersects a b = K.Intersects b a) :
    PoolInv K solids (sparseClusters (filledClusters K solids)) := by
  obtain ⟨_, hk, hv⟩ := filledClusters_spec K solids
  refine ⟨?_, ?_, ?_⟩
  · intro e he
    exact hv e ((mem_sparseClusters _ e).1 he).1
  · intro e he s hs
    have hef := ((mem_sparseClusters _ e).1 he).1
    have hov := (hv e hef s).1 hs
    obtain ⟨es, hes, hesk⟩ := List.mem_map.1 ((hk s).2 hov.1)
    have hmem : e.1 ∈ es.2 := (hv es hes e.1).2 (by rw [hesk]; exact Overlap_symm hsym hov)
    exact List.mem_map.2 ⟨es, (mem_sparseClusters _ es).2 ⟨hes, List.ne_nil_of_mem hmem⟩, hesk⟩
  · intro e he
    exact ((mem_sparseClusters _ e).1 he).2

theorem mem_sparse_keys (K : Kernel Solid Shape) (solids : List (Option Solid)) (x : Solid) :
    x ∈ (sparseClusters (filledClusters K solids)).map Prod.fst ↔
      ∃ z, Overlap K solids z x := by
  obtain ⟨_, hk, hv⟩ := filledClusters_spec K solids
  constructor
  · intro hx
    obtain ⟨e, he, hex⟩ := List.mem_map.1 hx
    obtain ⟨hef, hne⟩ := (mem_sparseClusters _ e).1 he
    obtain ⟨z, hz⟩ := List.exists_mem_of_ne_nil _ hne
    exact ⟨z, by rw [← hex]; exact (hv e hef z).1 hz⟩
  · rintro ⟨z, hz⟩
    obtain ⟨e, he, hex⟩ := List.mem_map.1 ((hk x).2 hz.2.1)
    have hmem : z ∈ e.2 := (hv e he z).2 (by rw [hex]; exact hz)
    exact List.mem_map.2 ⟨e, (mem_sparseClusters _ e).2 ⟨he, List.ne_nil_of_mem hmem⟩, hex⟩

/-- With a symmetric intersection test: every group of `Merge` is a connected component with
at least two members, the groups are pairwise disjoint, and unless an exception leaves `Merge`
every solid that overlaps another one is in a group. -/
theorem Merge_groups_spec (K : Kernel Solid Shape) (solids : List (Option Solid)) (tol : Tol)
    (hsym : ∀ a b, K.Intersects a b = K.Intersects b a) :
    (∀ g ∈ (Merge K solids tol).groups, g.Nodup ∧ 2 ≤ g.length ∧
        ∀ x ∈ g, some x ∈ solids ∧ ∀ y, y ∈ g ↔ Chain K solids x y) ∧
      (Merge K solids tol).groups.Pairwise List.Disjoint ∧
      ((Merge K solids tol).result ≠ MergeResult.uncaught →
        ∀ x z, Overlap K solids x z → ∃ g ∈ (Merge K solids tol).groups, x ∈ g) := by
  by_cases h : 2 ≤ (initClusters solids).length
  · rw [Merge_general K solids tol h]
    obtain ⟨gs, h1, h2, h3, h4⟩ :=
      mergeLoop_groups K solids hsym tol ((filledClusters K solids).length + 1)
        ((filledClusters K solids).map Prod.fst) (by simp)
        (sparseClusters (filledClusters K solids)).length
        (sparseClusters (filledClusters K solids))
        { toMergeReduced := isolatedKeys (filledClusters K solids), trace := [], groups := [] }
        (sparse_bounded K solids) (le_refl _) (sparse_poolInv K solids hsym)
    simp only [List.nil_append] at h1
    have hg : (loopRun K solids tol).2.groups = gs := h1
    have hst : (loopRun K solids tol).1 = LoopStatus.finished →
        ∀ x ∈ (sparseClusters (filledClusters K solids)).map Prod.fst, ∃ g ∈ gs, x ∈ g := h4
    simp only [hg]
    refine ⟨?_, h3, ?_⟩
    · intro g hgs
      obtain ⟨a1, a2, a3⟩ := h2 g hgs
      refine ⟨a1, a2, fun x hx => ⟨?_, (a3 x hx).2⟩⟩
      obtain ⟨z, hz⟩ := (mem_sparse_keys K solids x).1 (a3 x hx).1
      exact hz.2.1
    · intro hres x z hxz
      have hfin : (loopRun K solids tol).1 = LoopStatus.finished := by
        cases hs : (loopRun K solids tol).1 with
        | finished => rfl
        | uncaught => rw [hs] at hres; exact absurd rfl hres
        | outOfFuel => exact absurd hs (loopRun_basic K solids tol).2.2.1
      have hzx : Overlap K solids z x := Overlap_symm hsym hxz
      exact hst hfin x ((mem_sparse_keys K solids x).2 ⟨z, hzx⟩)
  · have hgroups : (Merge K solids tol).groups = [] := by
      by_cases h0 : (initClusters solids).length = 0
      · rw [Merge_empty K solids tol h0]
      · have h1 : (initClusters solids).length = 1 := by omega
        obtain ⟨first, hf⟩ := List.length_eq_one.1 h1
        rw [Merge_single K solids tol first hf]
    rw [hgroups]
    refine ⟨by simp, by simp, ?_⟩
    intro _ x z hxz
    exact absurd ((two_le_count_iff solids).2 ⟨x, z, hxz.2.2.1, hxz.1, hxz.2.1⟩) h

end MergeGroups

section Claims
variable {Solid Shape Tol : Type} [DecidableEq Solid]

theorem symbolicKernel_symm {ι : Type} (inter : ι → ι → Bool)
    (script : Traced ι → Traced ι → FuseOutcome Unit) (hsym : ∀ i j, inter i j = inter j i) :
    ∀ a b, (symbolicKernel inter script).Intersects a b =
      (symbolicKernel inter script).Intersects b a := by
  intro a b
  cases a <;> cases b <;> simp [symbolicKernel, hsym _ _]

theorem rowInter_symm : ∀ i j, rowInter i j = rowInter j i := by decide

theorem pairInter_symm : ∀ i j, pairInter i j = pairInter j i := by decide

/-- C1: with a symmetric bounding-box test, whenever `Merge` is not left by an exception,
every group it folds is a connected component with at least two members of the graph of
overlapping input solids, different groups share no solid, and two different solids of the
input are in one group if and only if a chain of pairwise overlaps joins them. -/
theorem Merge_groups_are_components (K : Kernel Solid Shape) (solids : List (Option Solid))
    (tol : Tol) (hsym : ∀ a b, K.Intersects a b = K.Intersects b a)
    (hret : (Merge K solids tol).result ≠ MergeResult.uncaught) :
    (∀ g ∈ (Merge K solids tol).groups, g.Nodup ∧ 2 ≤ g.length ∧
        ∀ x ∈ g, some x ∈ solids ∧ ∀ y, y ∈ g ↔ Chain K solids x y) ∧
      (Merge K solids tol).groups.Pairwise List.Disjoint ∧
      ∀ x y, some x ∈ solids → some y ∈ solids → x ≠ y →
        ((∃ g ∈ (Merge K solids tol).groups, x ∈ g ∧ y ∈ g) ↔ Chain K solids x y) := by
  obtain ⟨h1, h2, h3⟩ := Merge_groups_spec K solids tol hsym
  refine ⟨h1, h2, ?_⟩
  intro x y _ _ hxy
  constructor
  · rintro ⟨g, hg, hx, hy⟩
    exact (((h1 g hg).2.2 x hx).2 y).1 hy
  · intro hc
    obtain ⟨z, hz⟩ := Chain_exists_overlap hc hxy
    obtain ⟨g, hg, hx⟩ := h3 hret x z hz
    exact ⟨g, hg, hx, (((h1 g hg).2.2 x hx).2 y).2 hc⟩

theorem Merge_groups_are_components_witness :
    (∀ a b, (tracingKernel pairInter).Intersects a b = (tracingKernel pairInter).Intersects b a) ∧
      (Merge (tracingKernel pairInter) pairSolids ()).result ≠ MergeResult.uncaught ∧
      ((∀ g ∈ (Merge (tracingKernel pairInter) pairSolids ()).groups, g.Nodup ∧ 2 ≤ g.length ∧
          ∀ x ∈ g, some x ∈ pairSolids ∧
            ∀ y, y ∈ g ↔ Chain (tracingKernel pairInter) pairSolids x y) ∧
        (Merge (tracingKernel pairInter) pairSolids ()).groups.Pairwise List.Disjoint ∧
        ∀ x y, some x ∈ pairSolids → some y ∈ pairSolids → x ≠ y →
          ((∃ g ∈ (Merge (tracingKernel pairInter) pairSolids ()).groups, x ∈ g ∧ y ∈ g) ↔
            Chain (tracingKernel pairInter) pairSolids x y)) :=
  ⟨symbolicKernel_symm pairInter _ pairInter_symm, by decide,
    Merge_groups_are_components (tracingKernel pairInter) pairSolids ()
      (symbolicKernel_symm pairInter _ pairInter_symm) (by decide)⟩

/-- C3: for an input with two or more distinct solids no two of which have intersecting
bounding boxes, `Merge` returns a compound that holds exactly the solids of the input, each
once, forms no group, and makes no call of the boolean union (its trace is empty). -/
theorem Merge_no_overlap (K : Kernel Solid Shape) (solids : List (Option Solid)) (tol : Tol)
    (htwo : ∃ a b : Solid, a ≠ b ∧ some a ∈ solids ∧ some b ∈ solids)
    (hno : ∀ a b, some a ∈ solids → some b ∈ solids → a ≠ b → K.Intersects a b = false) :
    (∃ items, (Merge K solids tol).result = MergeResult.compound items true tol ∧
        items.Nodup ∧ ∀ s, s ∈ items ↔ some s ∈ solids) ∧
      (Merge K solids tol).groups = [] ∧ (Merge K solids tol).trace = [] := by
  have h2 := (two_le_count_iff solids).2 htwo
  have hov : ∀ a b, ¬ Overlap K solids a b := by
    intro a b hab
    have := hno a b hab.1 hab.2.1 hab.2.2.1
    rw [hab.2.2.2] at this
    exact Bool.noConfusion this
  have hsparse : sparseClusters (filledClusters K solids) = [] := by
    apply List.eq_nil_iff_forall_not_mem.2
    intro e he
    obtain ⟨hef, hne⟩ := (mem_sparseClusters _ e).1 he
    obtain ⟨z, hz⟩ := List.exists_mem_of_ne_nil _ hne
    exact hov z e.1 (((filledClusters_spec K solids).2.2 e hef z).1 hz)
  have hloop : loopRun K solids tol =
      (LoopStatus.finished,
        { toMergeReduced := isolatedKeys (filledClusters K solids), trace := [],
          groups := [] }) := by
    unfold loopRun
    rw [hsparse]
    simp [mergeLoop]
  obtain ⟨hnd, hmem⟩ := Merge_isolated K solids tol h2
  rw [Merge_general K solids tol h2] at hnd hmem ⊢
  rw [hloop]
  refine ⟨⟨isolatedKeys (filledClusters K solids), rfl, hnd, fun s => ?_⟩, rfl, rfl⟩
  rw [hmem s]
  exact ⟨fun h => h.1, fun h => ⟨h, fun z => hov z s⟩⟩

theorem Merge_no_overlap_witness :
    (∃ a b : Traced (Fin 3), a ≠ b ∧ some a ∈ rowSolids ∧ some b ∈ rowSolids) ∧
      (∀ a b, some a ∈ rowSolids → some b ∈ rowSolids → a ≠ b →
        (tracingKernel noInter).Intersects a b = false) ∧
      ((∃ items, (Merge (tracingKernel noInter) rowSolids ()).result =
            MergeResult.compound items true () ∧
          items.Nodup ∧ ∀ s, s ∈ items ↔ some s ∈ rowSolids) ∧
        (Merge (tracingKernel noInter) rowSolids ()).groups = [] ∧
        (Merge (tracingKernel noInter) rowSolids ()).trace = []) :=
  ⟨⟨Traced.input 0, Traced.input 1, by decide, by decide, by decide⟩,
    fun a b _ _ _ => by cases a <;> cases b <;> rfl,
    Merge_no_overlap (tracingKernel noInter) rowSolids ()
      ⟨Traced.input 0, Traced.input 1, by decide, by decide, by decide⟩
      (fun a b _ _ _ => by cases a <;> cases b <;> rfl)⟩

/-- C4: for an input that consists of exactly one solid, `Merge` returns a compound whose
only solid is that solid, and makes no call at all: no boolean union, no warning. -/
theorem Merge_one_solid (K : Kernel Solid Shape) (s : Solid) (tol : Tol) :
    (Merge K [some s] tol).result = MergeResult.compound [s] true tol ∧
      (Merge K [some s] tol).trace = [] := by
  have h : initClusters [some s] = [(s, [])] := by
    simp [initClusters, dictSetItem]
  rw [Merge_single K [some s] tol (s, []) h]
  exact ⟨rfl, rfl⟩

/-- C5: for an input that holds no solid (every element fails the cast to `XbimSolid`, or the
input is empty), `Merge` returns `nullptr`, not a compound, and makes no call: no boolean
union and no warning. -/
theorem Merge_no_solid (K : Kernel Solid Shape) (solids : List (Option Solid)) (tol : Tol)
    (hnone : ∀ o ∈ solids, o = none) :
    (Merge K solids tol).result = MergeResult.null ∧ (Merge K solids tol).trace = [] := by
  have h0 : (initClusters solids).length = 0 := by
    rw [← List.length_map (initClusters solids) Prod.fst, List.length_eq_zero]
    apply List.eq_nil_iff_forall_not_mem.2
    intro s hs
    have := hnone _ (((initClusters_spec solids).2.2 s).1 hs)
    exact Option.noConfusion this
  rw [Merge_empty K solids tol h0]
  exact ⟨rfl, rfl⟩

theorem Merge_no_solid_witness :
    (∀ o ∈ ([none, none] : List (Option (Traced (Fin 3)))), o = none) ∧
      (Merge (tracingKernel rowInter) [none, none] ()).result = MergeResult.null ∧
      (Merge (tracingKernel rowInter) [none, none] ()).trace = [] :=
  ⟨by decide, Merge_no_solid (tracingKernel rowInter) [none, none] () (by decide)⟩

end Claims

section Claims2
variable {Solid Shape Tol : Type} [DecidableEq Solid]

theorem Overlap_congr {K : Kernel Solid Shape} {l1 l2 : List (Option Solid)}
    (h : ∀ o, o ∈ l1 ↔ o ∈ l2) {a b : Solid} (hab : Overlap K l1 a b) : Overlap K l2 a b :=
  ⟨(h _).1 hab.1, (h _).1 hab.2.1, hab.2.2⟩

theorem Chain_congr {K : Kernel Solid Shape} {l1 l2 : List (Option Solid)}
    (h : ∀ o, o ∈ l1 ↔ o ∈ l2) {a b : Solid} (hab : Chain K l1 a b) : Chain K l2 a b :=
  Relation.ReflTransGen.mono (fun _ _ hxy => Overlap_congr h hxy) hab

theorem two_le_exists_ne {g : List Solid} (hnd : g.Nodup) (hlen : 2 ≤ g.length) :
    ∃ x ∈ g, ∃ y ∈ g, x ≠ y := by
  match g, hnd, hlen with
  | a :: b :: rest, hnd, _ =>
    refine ⟨a, by simp, b, by simp, ?_⟩
    intro hab
    subst hab
    simp at hnd
  | [_], _, h => simp at h
  | [], _, h => simp at h

theorem Merge_isolated_small (K : Kernel Solid Shape) (solids : List (Option Solid)) (tol : Tol)
    (h : ¬ 2 ≤ (initClusters solids).length) : (Merge K solids tol).isolated = [] := by
  by_cases h0 : (initClusters solids).length = 0
  · rw [Merge_empty K solids tol h0]
  · have h1 : (initClusters solids).length = 1 := by omega
    obtain ⟨first, hf⟩ := List.length_eq_one.1 h1
    rw [Merge_single K solids tol first hf]

theorem groups_transfer (K : Kernel Solid Shape) (l1 l2 : List (Option Solid)) (tol : Tol)
    (hsym : ∀ a b, K.Intersects a b = K.Intersects b a) (h : ∀ o, o ∈ l1 ↔ o ∈ l2)
    (hret : (Merge K l2 tol).result ≠ MergeResult.uncaught) :
    ∀ g1 ∈ (Merge K l1 tol).groups, ∃ g2 ∈ (Merge K l2 tol).groups, ∀ x, x ∈ g1 ↔ x ∈ g2 := by
  intro g1 hg1
  obtain ⟨a1, _, _⟩ := Merge_groups_spec K l1 tol hsym
  obtain ⟨b1, _, b3⟩ := Merge_groups_spec K l2 tol hsym
  obtain ⟨hnd, hlen, hcomp⟩ := a1 g1 hg1
  obtain ⟨x, hx, y, hy, hxy⟩ := two_le_exists_ne hnd hlen
  have hc : Chain K l1 x y := ((hcomp x hx).2 y).1 hy
  obtain ⟨z, hz⟩ := Chain_exists_overlap hc hxy
  obtain ⟨g2, hg2, hx2⟩ := b3 hret x z (Overlap_congr h hz)
  refine ⟨g2, hg2, fun w => ?_⟩
  rw [(hcomp x hx).2 w, (((b1 g2 hg2).2.2 x hx2).2 w)]
  exact ⟨Chain_congr h, Chain_congr (fun o => (h o).symm)⟩

/-- C6: for three different solids A, B, C, given in any order, with a symmetric bounding-box
test under which A and B intersect, B and C intersect and A and C do not, `Merge` (when no
exception leaves it) forms exactly one group, the members of that group are A, B and C, and
the calls it makes are those of the single fold over that group. -/
theorem Merge_transitive_group (K : Kernel Solid Shape) (A B C : Solid) (tol : Tol)
    (solids : List (Option Solid)) (horder : solids.Perm [some A, some B, some C])
    (hsym : ∀ a b, K.Intersects a b = K.Intersects b a) (hne : A ≠ C)
    (hAB : K.Intersects A B = true) (hBC : K.Intersects B C = true)
    (hAC : K.Intersects A C = false)
    (hret : (Merge K solids tol).result ≠ MergeResult.uncaught) :
    ∃ g, (Merge K solids tol).groups = [g] ∧ g.Perm [A, B, C] ∧
      (Merge K solids tol).trace = foldTrace K tol g := by
  have hmem : ∀ x, some x ∈ solids ↔ (x = A ∨ x = B ∨ x = C) := by
    intro x
    rw [horder.mem_iff]
    simp
  have hneAB : A ≠ B := by
    intro h; rw [← h] at hBC; rw [hBC] at hAC; exact Bool.noConfusion hAC
  have hneBC : B ≠ C := by
    intro h; rw [h] at hAB; rw [hAB] at hAC; exact Bool.noConfusion hAC
  have hA := (hmem A).2 (Or.inl rfl)
  have hB := (hmem B).2 (Or.inr (Or.inl rfl))
  have hC := (hmem C).2 (Or.inr (Or.inr rfl))
  have oAB : Overlap K solids A B := ⟨hA, hB, hneAB, hAB⟩
  have oBC : Overlap K solids B C := ⟨hB, hC, hneBC, hBC⟩
  have cAB : Chain K solids A B := Relation.ReflTransGen.single oAB
  have cAC : Chain K solids A C := cAB.tail oBC
  have call : ∀ x, some x ∈ solids → Chain K solids x A := by
    intro x hx
    rcases (hmem x).1 hx with h | h | h
    · rw [h]; exact Relation.ReflTransGen.refl
    · rw [h]; exact Chain_symm hsym cAB
    · rw [h]; exact Chain_symm hsym cAC
  obtain ⟨h1, h2, h3⟩ := Merge_groups_spec K solids tol hsym
  have hallA : ∀ g ∈ (Merge K solids tol).groups, A ∈ g := by
    intro g hg
    obtain ⟨hnd, hlen, hcomp⟩ := h1 g hg
    obtain ⟨x, hx, _⟩ := two_le_exists_ne hnd hlen
    exact ((hcomp x hx).2 A).2 (call x (hcomp x hx).1)
  obtain ⟨g, hg, hAg⟩ := h3 hret A B oAB
  obtain ⟨hnd, _, hcomp⟩ := h1 g hg
  have hperm : g.Perm [A, B, C] := by
    apply (List.perm_ext_iff_of_nodup hnd ?_).2
    · intro x
      constructor
      · intro hx
        have := (hmem x).1 (hcomp x hx).1
        simpa using this
      · intro hx
        simp at hx
        rcases hx with h | h | h
        · rw [h]; exact hAg
        · rw [h]; exact ((hcomp A hAg).2 B).2 cAB
        · rw [h]; exact ((hcomp A hAg).2 C).2 cAC
    · simp [hneAB, hne, hneBC]
  have hone : (Merge K solids tol).groups = [g] := by
    match hgr : (Merge K solids tol).groups with
    | [] => rw [hgr] at hg; simp at hg
    | [g0] => rw [hgr] at hg; simp at hg; rw [hg]
    | g0 :: g1 :: rest =>
      rw [hgr] at h2 hallA
      have hd : List.Disjoint g0 g1 := by
        have := List.pairwise_cons.1 h2
        exact this.1 g1 (by simp)
      exact absurd (hallA g1 (by simp)) (hd (hallA g0 (by simp)))
  refine ⟨g, hone, hperm, ?_⟩
  rw [Merge_trace_eq, hone]
  simp

theorem Merge_transitive_group_witness :
    rowSolids.Perm [some (Traced.input 0), some (Traced.input 1), some (Traced.input 2)] ∧
      (∀ a b, (tracingKernel rowInter).Intersects a b =
        (tracingKernel rowInter).Intersects b a) ∧
      (Traced.input 0 : Traced (Fin 3)) ≠ Traced.input 2 ∧
      (tracingKernel rowInter).Intersects (Traced.input 0) (Traced.input 1) = true ∧
      (tracingKernel rowInter).Intersects (Traced.input 1) (Traced.input 2) = true ∧
      (tracingKernel rowInter).Intersects (Traced.input 0) (Traced.input 2) = false ∧
      (Merge (tracingKernel rowInter) rowSolids ()).result ≠ MergeResult.uncaught ∧
      ∃ g, (Merge (tracingKernel rowInter) rowSolids ()).groups = [g] ∧
        g.Perm [Traced.input 0, Traced.input 1, Traced.input 2] ∧
        (Merge (tracingKernel rowInter) rowSolids ()).trace =
          foldTrace (tracingKernel rowInter) () g :=
  ⟨by decide, symbolicKernel_symm rowInter _ rowInter_symm, by decide, by decide, by decide,
    by decide, by decide,
    Merge_transitive_group (tracingKernel rowInter) (Traced.input 0) (Traced.input 1)
      (Traced.input 2) () rowSolids (by decide) (symbolicKernel_symm rowInter _ rowInter_symm)
      (by decide) (by decide) (by decide) (by decide) (by decide)⟩

/-- C7: for two orderings of the same input and a symmetric bounding-box test, when no
exception leaves either run, `Merge` forms the same groups as sets of solids (every group of
one run has the members of a group of the other run) and the same set of isolated solids. -/
theorem Merge_order_independent (K : Kernel Solid Shape) (l1 l2 : List (Option Solid))
    (tol : Tol) (horder : l1.Perm l2)
    (hsym : ∀ a b, K.Intersects a b = K.Intersects b a)
    (hret1 : (Merge K l1 tol).result ≠ MergeResult.uncaught)
    (hret2 : (Merge K l2 tol).result ≠ MergeResult.uncaught) :
    (∀ g1 ∈ (Merge K l1 tol).groups, ∃ g2 ∈ (Merge K l2 tol).groups, ∀ x, x ∈ g1 ↔ x ∈ g2) ∧
      (∀ g2 ∈ (Merge K l2 tol).groups, ∃ g1 ∈ (Merge K l1 tol).groups,
        ∀ x, x ∈ g2 ↔ x ∈ g1) ∧
      ∀ x, x ∈ (Merge K l1 tol).isolated ↔ x ∈ (Merge K l2 tol).isolated := by
  have h : ∀ o, o ∈ l1 ↔ o ∈ l2 := fun o => horder.mem_iff
  refine ⟨groups_transfer K l1 l2 tol hsym h hret2,
    groups_transfer K l2 l1 tol hsym (fun o => (h o).symm) hret1, ?_⟩
  have hcount : 2 ≤ (initClusters l1).length ↔ 2 ≤ (initClusters l2).length := by
    rw [two_le_count_iff, two_le_count_iff]
    constructor
    · rintro ⟨a, b, hab, ha, hb⟩; exact ⟨a, b, hab, (h _).1 ha, (h _).1 hb⟩
    · rintro ⟨a, b, hab, ha, hb⟩; exact ⟨a, b, hab, (h _).2 ha, (h _).2 hb⟩
  intro x
  by_cases h2 : 2 ≤ (initClusters l1).length
  · rw [(Merge_isolated K l1 tol h2).2 x, (Merge_isolated K l2 tol (hcount.1 h2)).2 x]
    constructor
    · rintro ⟨hx, hno⟩
      exact ⟨(h _).1 hx, fun z hz => hno z (Overlap_congr (fun o => (h o).symm) hz)⟩
    · rintro ⟨hx, hno⟩
      exact ⟨(h _).2 hx, fun z hz => hno z (Overlap_congr h hz)⟩
  · rw [Merge_isolated_small K l1 tol h2,
      Merge_isolated_small K l2 tol (fun h3 => h2 (hcount.2 h3))]

theorem Merge_order_independent_witness :
    rowSolids.Perm rowSolidsReordered ∧
      (∀ a b, (tracingKernel rowInter).Intersects a b =
        (tracingKernel rowInter).Intersects b a) ∧
      (Merge (tracingKernel rowInter) rowSolids ()).result ≠ MergeResult.uncaught ∧
      (Merge (tracingKernel rowInter) rowSolidsReordered ()).result ≠ MergeResult.uncaught ∧
      ((∀ g1 ∈ (Merge (tracingKernel rowInter) rowSolids ()).groups,
          ∃ g2 ∈ (Merge (tracingKernel rowInter) rowSolidsReordered ()).groups,
            ∀ x, x ∈ g1 ↔ x ∈ g2) ∧
        (∀ g2 ∈ (Merge (tracingKernel rowInter) rowSolidsReordered ()).groups,
          ∃ g1 ∈ (Merge (tracingKernel rowInter) rowSolids ()).groups,
            ∀ x, x ∈ g2 ↔ x ∈ g1) ∧
        ∀ x, x ∈ (Merge (tracingKernel rowInter) rowSolids ()).isolated ↔
          x ∈ (Merge (tracingKernel rowInter) rowSolidsReordered ()).isolated) :=
  ⟨by decide, symbolicKernel_symm rowInter _ rowInter_symm, by decide, by decide,
    Merge_order_independent (tracingKernel rowInter) rowSolids rowSolidsReordered ()
      (by decide) (symbolicKernel_symm rowInter _ rowInter_symm) (by decide) (by decide)⟩

end Claims2

section Claims3
variable {Solid Shape Tol : Type} [DecidableEq Solid]

/-- With a symmetric intersection test and two or more distinct solids, the isolated solids
and the members of the groups of a run that no exception leaves are the solids of the input,
each once. -/
theorem Merge_partition (K : Kernel Solid Shape) (solids : List (Option Solid)) (tol : Tol)
    (hsym : ∀ a b, K.Intersects a b = K.Intersects b a)
    (h2 : 2 ≤ (initClusters solids).length)
    (hret : (Merge K solids tol).result ≠ MergeResult.uncaught) :
    ((Merge K solids tol).isolated ++ (Merge K solids tol).groups.flatten).Nodup ∧
      ∀ x, x ∈ (Merge K solids tol).isolated ++ (Merge K solids tol).groups.flatten ↔
        some x ∈ solids := by
  obtain ⟨g1, g2, g3⟩ := Merge_groups_spec K solids tol hsym
  obtain ⟨i1, i2⟩ := Merge_isolated K solids tol h2
  have hgroup : ∀ g ∈ (Merge K solids tol).groups, ∀ x ∈ g, ∃ z, Overlap K solids z x := by
    intro g hg x hx
    obtain ⟨hnd, hlen, hcomp⟩ := g1 g hg
    obtain ⟨a, ha, b, hb, hab⟩ := two_le_exists_ne hnd hlen
    by_cases hxa : x = a
    · have hc : Chain K solids x b := ((hcomp x hx).2 b).1 hb
      obtain ⟨z, hz⟩ := Chain_exists_overlap hc (by rw [hxa]; exact hab)
      exact ⟨z, Overlap_symm hsym hz⟩
    · have hc : Chain K solids x a := ((hcomp x hx).2 a).1 ha
      obtain ⟨z, hz⟩ := Chain_exists_overlap hc hxa
      exact ⟨z, Overlap_symm hsym hz⟩
  constructor
  · rw [List.nodup_append]
    refine ⟨i1, List.nodup_flatten.2 ⟨fun g hg => (g1 g hg).1, g2⟩, ?_⟩
    intro x hxi hxg
    obtain ⟨g, hg, hx⟩ := List.mem_flatten.1 hxg
    obtain ⟨z, hz⟩ := hgroup g hg x hx
    exact ((i2 x).1 hxi).2 z hz
  · intro x
    rw [List.mem_append, i2 x, List.mem_flatten]
    constructor
    · rintro (h | ⟨g, hg, hx⟩)
      · exact h.1
      · exact ((g1 g hg).2.2 x hx).1
    · intro hx
      by_cases hov : ∃ z, Overlap K solids z x
      · obtain ⟨z, hz⟩ := hov
        obtain ⟨g, hg, hxg⟩ := g3 hret x z (Overlap_symm hsym hz)
        exact Or.inr ⟨g, hg, hxg⟩
      · exact Or.inl ⟨hx, fun z hz => hov ⟨z, hz⟩⟩

theorem tracing_fuseConnected {ι : Type} [DecidableEq ι] (inter : ι → ι → Bool) (tol : Tol)
    (g : List (Traced ι)) :
    ∀ (acc : Option (Traced ι)) (tr : List (Event (Traced ι) (Option (Traced ι)) Tol)),
      ∃ sh, (fuseConnected (tracingKernel inter) tol g acc tr).1 = some sh ∧
        sh.toList.flatMap Traced.inputs =
          acc.toList.flatMap Traced.inputs ++ g.flatMap Traced.inputs := by
  induction g with
  | nil => intro acc tr; exact ⟨acc, by simp [fuseConnected]⟩
  | cons s g ih =>
    intro acc tr
    cases acc with
    | none =>
      obtain ⟨sh, h1, h2⟩ := ih (some s) (tr ++ [Event.setTolerance s tol])
      refine ⟨sh, ?_, ?_⟩
      · simpa [fuseConnected, tracingKernel, symbolicKernel] using h1
      · rw [h2]; simp
    | some a =>
      obtain ⟨sh, h1, h2⟩ := ih (some (Traced.fused a s))
        (tr ++ [Event.setTolerance s tol, Event.fuse (some a) s])
      refine ⟨sh, ?_, ?_⟩
      · simpa [fuseConnected, tracingKernel, symbolicKernel] using h1
      · rw [h2]; simp [Traced.inputs]

theorem tracing_groupSolids {ι : Type} [DecidableEq ι] (inter : ι → ι → Bool) (tol : Tol)
    (g : List (Traced ι)) :
    (groupSolids (tracingKernel inter) tol g).flatMap Traced.inputs =
      g.flatMap Traced.inputs := by
  obtain ⟨sh, h1, h2⟩ := tracing_fuseConnected inter tol g none
    ([] : List (Event (Traced ι) (Option (Traced ι)) Tol))
  have hf : foldShape (tracingKernel inter) tol g = some sh := h1
  unfold groupSolids
  rw [hf]
  simpa [tracingKernel, symbolicKernel] using h2

theorem tracingKernel_caught {ι : Type} (inter : ι → ι → Bool) :
    ∀ a s, (tracingKernel inter).Fuse a s ≠ FuseOutcome.otherException := by
  intro a s
  cases a <;> simp [tracingKernel, symbolicKernel]

theorem inputs_of_atoms {ι : Type} [DecidableEq ι] (l : List (Option ι)) (L : List (Traced ι))
    (hnd : L.Nodup) (hmem : ∀ x, x ∈ L ↔ some x ∈ l.map (Option.map Traced.input)) :
    (L.flatMap Traced.inputs).Nodup ∧ ∀ i, i ∈ L.flatMap Traced.inputs ↔ some i ∈ l := by
  have hatom : ∀ x ∈ L, ∃ i, some i ∈ l ∧ x = Traced.input i := by
    intro x hx
    obtain ⟨o, ho, hox⟩ := List.mem_map.1 ((hmem x).1 hx)
    cases o with
    | none => simp at hox
    | some i => exact ⟨i, ho, by simpa using hox.symm⟩
  constructor
  · rw [List.nodup_flatMap]
    constructor
    · intro x hx
      obtain ⟨i, _, hi⟩ := hatom x hx
      rw [hi]; simp [Traced.inputs]
    · refine List.Pairwise.imp_of_mem ?_ hnd
      intro a b ha hb hab
      obtain ⟨i, _, hi⟩ := hatom a ha
      obtain ⟨j, _, hj⟩ := hatom b hb
      subst hi; subst hj
      simp only [Function.onFun, Traced.inputs]
      intro k hk1 hk2
      simp at hk1 hk2
      exact hab (by rw [← hk1, ← hk2])
  · intro i
    rw [List.mem_flatMap]
    constructor
    · rintro ⟨x, hx, hix⟩
      obtain ⟨j, hj, hxj⟩ := hatom x hx
      rw [hxj] at hix
      simp [Traced.inputs] at hix
      rw [hix]; exact hj
    · intro hi
      refine ⟨Traced.input i, (hmem _).2 (List.mem_map.2 ⟨some i, hi, rfl⟩), ?_⟩
      simp [Traced.inputs]

/-- C2: run `Merge` with the symbolic kernel in which no union fails, on an input that holds
at least one solid and with a symmetric bounding-box test. It returns a compound, and the
input solids that the solids of the compound were built from are the solids of the input,
each exactly once: none is dropped, none is in two results. -/
theorem Merge_traced_partition {ι : Type} [DecidableEq ι] (inter : ι → ι → Bool)
    (l : List (Option ι)) (tol : Tol) (hsym : ∀ i j, inter i j = inter j i)
    (hsolid : ∃ i, some i ∈ l) :
    ∃ items,
      (Merge (tracingKernel inter) (l.map (Option.map Traced.input)) tol).result =
          MergeResult.compound items true tol ∧
        (items.flatMap Traced.inputs).Nodup ∧
        ∀ i, i ∈ items.flatMap Traced.inputs ↔ some i ∈ l := by
  have hKsym := symbolicKernel_symm inter (fun _ _ => FuseOutcome.shape ()) hsym
  by_cases h2 : 2 ≤ (initClusters (l.map (Option.map Traced.input))).length
  · rcases Merge_result_general (tracingKernel inter) (l.map (Option.map Traced.input)) tol h2
      with ⟨_, a, s, has⟩ | hres
    · exact absurd has (tracingKernel_caught inter a s)
    · have hret : (Merge (tracingKernel inter) (l.map (Option.map Traced.input)) tol).result ≠
          MergeResult.uncaught := by rw [hres]; simp
      obtain ⟨p1, p2⟩ := Merge_partition (tracingKernel inter)
        (l.map (Option.map Traced.input)) tol hKsym h2 hret
      obtain ⟨q1, q2⟩ := inputs_of_atoms l _ p1 p2
      have heq : ((Merge (tracingKernel inter) (l.map (Option.map Traced.input)) tol).isolated ++
            (Merge (tracingKernel inter) (l.map (Option.map Traced.input)) tol).groups.flatMap
              (groupSolids (tracingKernel inter) tol)).flatMap Traced.inputs =
          ((Merge (tracingKernel inter) (l.map (Option.map Traced.input)) tol).isolated ++
            (Merge (tracingKernel inter)
              (l.map (Option.map Traced.input)) tol).groups.flatten).flatMap Traced.inputs := by
        rw [List.flatMap_append, List.flatMap_append, List.flatMap_assoc,
          List.flatten_eq_flatMap, List.flatMap_assoc]
        congr 1
        apply List.flatMap_congr
        intro g _
        exact tracing_groupSolids inter tol g
      refine ⟨_, hres, ?_, ?_⟩
      · rw [heq]; exact q1
      · intro i; rw [heq]; exact q2 i
  · obtain ⟨i, hi⟩ := hsolid
    obtain ⟨knd, _, kmem⟩ := initClusters_spec (l.map (Option.map (@Traced.input ι)))
    have hin : Traced.input i ∈ (initClusters (l.map (Option.map Traced.input))).map Prod.fst :=
      (kmem _).2 (List.mem_map.2 ⟨some i, hi, rfl⟩)
    have h1 : (initClusters (l.map (Option.map (@Traced.input ι)))).length = 1 := by
      have : (initClusters (l.map (Option.map (@Traced.input ι)))).length ≠ 0 := by
        intro h0
        rw [List.length_eq_zero] at h0
        rw [h0] at hin
        simp at hin
      omega
    obtain ⟨first, hf⟩ := List.length_eq_one.1 h1
    rw [Merge_single (tracingKernel inter) _ tol first hf]
    have hL : ∀ x, x ∈ [first.1] ↔ some x ∈ l.map (Option.map Traced.input) := by
      intro x
      rw [← kmem x, hf]
      simp
    obtain ⟨q1, q2⟩ := inputs_of_atoms l [first.1] (by simp) hL
    exact ⟨[first.1], rfl, q1, q2⟩

theorem Merge_traced_partition_witness :
    (∀ i j, pairInter i j = pairInter j i) ∧
      (∃ i, some i ∈ [some (2 : Fin 4), some 0, none, some 1, some 3, some 0]) ∧
      ∃ items,
        (Merge (tracingKernel pairInter)
          ([some (2 : Fin 4), some 0, none, some 1, some 3, some 0].map
            (Option.map Traced.input)) ()).result = MergeResult.compound items true () ∧
          (items.flatMap Traced.inputs).Nodup ∧
          ∀ i, i ∈ items.flatMap Traced.inputs ↔
            some i ∈ [some (2 : Fin 4), some 0, none, some 1, some 3, some 0] :=
  ⟨pairInter_symm, ⟨2, by decide⟩,
    Merge_traced_partition pairInter [some (2 : Fin 4), some 0, none, some 1, some 3, some 0] ()
      pairInter_symm ⟨2, by decide⟩⟩

end Claims3

section Claims4
variable {Solid Shape Tol : Type} [DecidableEq Solid]

/-- When no union raises an exception that the handler does not match, `Merge` returns a
compound for every input that holds a solid. -/
theorem Merge_returns_compound (K : Kernel Solid Shape) (solids : List (Option Solid))
    (tol : Tol) (hcaught : ∀ a s, K.Fuse a s ≠ FuseOutcome.otherException)
    (hsolid : ∃ s, some s ∈ solids) :
    ∃ items, (Merge K solids tol).result = MergeResult.compound items true tol := by
  by_cases h2 : 2 ≤ (initClusters solids).length
  · rcases Merge_result_general K solids tol h2 with ⟨_, a, s, has⟩ | hres
    · exact absurd has (hcaught a s)
    · exact ⟨_, hres⟩
  · obtain ⟨s, hs⟩ := hsolid
    have hin := ((initClusters_spec solids).2.2 s).2 hs
    have h1 : (initClusters solids).length = 1 := by
      have : (initClusters solids).length ≠ 0 := by
        intro h0
        rw [List.length_eq_zero] at h0
        rw [h0] at hin
        simp at hin
      omega
    obtain ⟨first, hf⟩ := List.length_eq_one.1 h1
    rw [Merge_single K solids tol first hf]
    exact ⟨_, rfl⟩

theorem failOn_caught {ι : Type} [DecidableEq ι] (inter : ι → ι → Bool) (bad : Traced ι)
    (outcome : FuseOutcome Unit) (h : outcome ≠ FuseOutcome.otherException) :
    ∀ a s, (symbolicKernel inter (failOn bad outcome)).Fuse a s ≠
      FuseOutcome.otherException := by
  intro a s
  cases a with
  | none => simp [symbolicKernel]
  | some acc =>
    by_cases hs : s = bad
    · cases outcome <;> simp_all [symbolicKernel, failOn]
    · simp [symbolicKernel, failOn, hs]

/-- C8: a union that reports errors leaves the accumulator as it was and the fold goes on
with the next member, after one warning for the member. When a group of three members
`s1, s2, s3` (in fold order, `s1` the seed) has exactly one failing union, the accumulator
after the fold is the shape of the one successful union, and `Merge` still returns a
compound, in which the group contributes the solids of that shape. -/
theorem Merge_failed_union_skipped (K : Kernel Solid Shape) (tol : Tol)
    (solids : List (Option Solid)) (pre post : List (List Solid)) (s1 s2 s3 : Solid)
    (sh : Shape) (hcaught : ∀ a s, K.Fuse a s ≠ FuseOutcome.otherException)
    (hgroups : (Merge K solids tol).groups = pre ++ [s1, s2, s3] :: post)
    (hnull : K.IsNull K.nullShape = true) (hseed : K.IsNull (K.toShape s1) = false)
    (hsh : K.IsNull sh = false)
    (hone : ((K.Fuse (K.toShape s1) s2).isFailure = true ∧
          K.Fuse (K.toShape s1) s3 = FuseOutcome.shape sh) ∨
        (K.Fuse (K.toShape s1) s2 = FuseOutcome.shape sh ∧
          (K.Fuse sh s3).isFailure = true)) :
    (∀ (toConnect : Solid) (rest : List Solid) (acc : Shape)
        (tr : List (Event Solid Shape Tol)),
        K.IsNull acc = false → K.Fuse acc toConnect = FuseOutcome.hasErrors →
        fuseConnected K tol (toConnect :: rest) acc tr =
          fuseConnected K tol rest acc
            (tr ++ [Event.setTolerance toConnect tol, Event.fuse acc toConnect,
              Event.logWarning toConnect unionFailed])) ∧
      foldShape K tol [s1, s2, s3] = some sh ∧
      (Merge K solids tol).result =
        MergeResult.compound
          ((Merge K solids tol).isolated ++ pre.flatMap (groupSolids K tol) ++ K.SolidSet sh ++
            post.flatMap (groupSolids K tol)) true tol := by
  have hfold : foldShape K tol [s1, s2, s3] = some sh := by
    rcases hone with ⟨h1, h2⟩ | ⟨h1, h2⟩
    · cases hF : K.Fuse (K.toShape s1) s2 with
      | shape r => rw [hF] at h1; simp [FuseOutcome.isFailure] at h1
      | otherException => rw [hF] at h1; simp [FuseOutcome.isFailure] at h1
      | hasErrors => simp [foldShape, fuseConnected, hnull, hseed, hF, h2]
      | stdException w => simp [foldShape, fuseConnected, hnull, hseed, hF, h2]
    · cases hF : K.Fuse sh s3 with
      | shape r => rw [hF] at h2; simp [FuseOutcome.isFailure] at h2
      | otherException => rw [hF] at h2; simp [FuseOutcome.isFailure] at h2
      | hasErrors => simp [foldShape, fuseConnected, hnull, hseed, hsh, hF, h1]
      | stdException w => simp [foldShape, fuseConnected, hnull, hseed, hsh, hF, h1]
  refine ⟨?_, hfold, ?_⟩
  · intro toConnect rest acc tr hacc hF
    simp [fuseConnected, hacc, hF]
  · have h2 : 2 ≤ (initClusters solids).length := by
      by_contra hsmall
      have hnil : (Merge K solids tol).groups = [] := by
        by_cases h0 : (initClusters solids).length = 0
        · rw [Merge_empty K solids tol h0]
        · have h1 : (initClusters solids).length = 1 := by omega
          obtain ⟨first, hf⟩ := List.length_eq_one.1 h1
          rw [Merge_single K solids tol first hf]
      rw [hnil] at hgroups
      simp at hgroups
    rcases Merge_result_general K solids tol h2 with ⟨_, a, s, has⟩ | hres
    · exact absurd has (hcaught a s)
    · rw [hres, hgroups]
      simp [groupSolids, hfold]

theorem Merge_failed_union_skipped_witness :
    (∀ a s, (symbolicKernel rowInter (failOn (Traced.input 1) FuseOutcome.hasErrors)).Fuse a s ≠
        FuseOutcome.otherException) ∧
      (Merge (symbolicKernel rowInter (failOn (Traced.input 1) FuseOutcome.hasErrors))
        rowSolids ()).groups = [] ++ [Traced.input 2, Traced.input 1, Traced.input 0] :: [] ∧
      ((symbolicKernel rowInter (failOn (Traced.input 1) FuseOutcome.hasErrors)).Fuse
          (some (Traced.input 2)) (Traced.input 1)).isFailure = true ∧
      (symbolicKernel rowInter (failOn (Traced.input 1) FuseOutcome.hasErrors)).Fuse
          (some (Traced.input 2)) (Traced.input 0) =
        FuseOutcome.shape (some (Traced.fused (Traced.input 2) (Traced.input 0))) ∧
      foldShape (symbolicKernel rowInter (failOn (Traced.input 1) FuseOutcome.hasErrors)) ()
          [Traced.input 2, Traced.input 1, Traced.input 0] =
        some (some (Traced.fused (Traced.input 2) (Traced.input 0))) ∧
      (Merge (symbolicKernel rowInter (failOn (Traced.input 1) FuseOutcome.hasErrors))
        rowSolids ()).result =
        MergeResult.compound [Traced.fused (Traced.input 2) (Traced.input 0)] true () :=
  ⟨failOn_caught rowInter _ _ (by decide), by decide, by decide, by decide,
    (Merge_failed_union_skipped
      (symbolicKernel rowInter (failOn (Traced.input 1) FuseOutcome.hasErrors)) ()
      rowSolids [] [] (Traced.input 2) (Traced.input 1) (Traced.input 0)
      (some (Traced.fused (Traced.input 2) (Traced.input 0)))
      (failOn_caught rowInter _ _ (by decide)) (by decide) (by decide) (by decide) (by decide)
      (Or.inl ⟨by decide, by decide⟩)).2⟩

/-- C9 (counterexample): a union that raises an exception which is not a `std::exception` is
not caught at the call site: the exception leaves `Merge`, no compound is returned and no
warning is logged. -/
theorem Merge_other_exception_escapes :
    (Merge (symbolicKernel rowInter (failOn (Traced.input 1) FuseOutcome.otherException))
        rowSolids ()).result = MergeResult.uncaught ∧
      (Merge (symbolicKernel rowInter (failOn (Traced.input 1) FuseOutcome.otherException))
        rowSolids ()).trace.filterMap Event.warned = [] := by
  decide

/-- C9 (amended): an exception derived from `std::exception` that a union raises is caught at
the call site and has the effect of a union that returns with errors: the accumulator is
unchanged, one warning (carrying `what()`) is logged for the member, and the fold goes on
with the next member; when the unions raise no other kind of exception, `Merge` returns a
compound for every input that holds a solid. -/
theorem Merge_std_exception_caught (K : Kernel Solid Shape) (tol : Tol)
    (hcaught : ∀ a s, K.Fuse a s ≠ FuseOutcome.otherException) :
    (∀ (toConnect : Solid) (rest : List Solid) (acc : Shape)
        (tr : List (Event Solid Shape Tol)) (what : String),
        K.IsNull acc = false → K.Fuse acc toConnect = FuseOutcome.stdException what →
        fuseConnected K tol (toConnect :: rest) acc tr =
          fuseConnected K tol rest acc
            (tr ++ [Event.setTolerance toConnect tol, Event.fuse acc toConnect,
              Event.logWarning toConnect (unionFailedWith ++ what)])) ∧
      ∀ solids : List (Option Solid), (∃ s, some s ∈ solids) →
        ∃ items, (Merge K solids tol).result = MergeResult.compound items true tol := by
  refine ⟨?_, fun solids hs => Merge_returns_compound K solids tol hcaught hs⟩
  intro toConnect rest acc tr what hacc hF
  simp [fuseConnected, hacc, hF]

theorem Merge_std_exception_caught_witness :
    (∀ a s,
        (symbolicKernel rowInter (failOn (Traced.input 1) (FuseOutcome.stdException "x"))).Fuse
          a s ≠ FuseOutcome.otherException) ∧
      (Merge (symbolicKernel rowInter (failOn (Traced.input 1) (FuseOutcome.stdException "x")))
        rowSolids ()).result =
        MergeResult.compound [Traced.fused (Traced.input 2) (Traced.input 0)] true () ∧
      ∃ items,
        (Merge (symbolicKernel rowInter (failOn (Traced.input 1) (FuseOutcome.stdException "x")))
          rowSolids ()).result = MergeResult.compound items true () :=
  ⟨failOn_caught rowInter _ _ (by decide), by decide,
    (Merge_std_exception_caught
      (symbolicKernel rowInter (failOn (Traced.input 1) (FuseOutcome.stdException "x"))) ()
      (failOn_caught rowInter _ _ (by decide))).2 rowSolids
      ⟨Traced.input 0, by decide⟩⟩

end Claims4

section DiscreteClaims
variable {Solid Shape : Type} [DecidableEq Solid]

theorem discreteStep_cases (K : Kernel Solid Shape) (st : List Solid × List Solid) (x : Solid) :
    (discreteStep K st x = (st.1 ++ [x], st.2) ∧ ∀ d ∈ st.1, K.Intersects d x = false) ∨
      (discreteStep K st x = (st.1, st.2 ++ [x]) ∧ ∃ d ∈ st.1, K.Intersects d x = true) := by
  unfold discreteStep
  by_cases h0 : st.1.length = 0
  · left
    rw [if_pos h0]
    refine ⟨rfl, fun d hd => ?_⟩
    rw [List.length_eq_zero.1 h0] at hd
    simp at hd
  · rw [if_neg h0]
    by_cases hany : st.1.any (fun discreteSolid => K.Intersects discreteSolid x) = true
    · right
      rw [if_pos hany]
      exact ⟨rfl, List.any_eq_true.1 hany⟩
    · left
      rw [if_neg hany]
      refine ⟨rfl, fun d hd => ?_⟩
      cases hdx : K.Intersects d x with
      | false => rfl
      | true => exact absurd (List.any_eq_true.2 ⟨d, hd, hdx⟩) hany

theorem selected_sublist (L : List Solid) : ∀ (mask : List Bool) (b : Bool),
    (selected L mask b).Sublist L := by
  induction L with
  | nil => intro mask b; simp [selected]
  | cons x L ih =>
    intro mask b
    cases mask with
    | nil => simp [selected]
    | cons m mask =>
      have h := ih mask b
      unfold selected at h ⊢
      simp only [List.zip_cons_cons, List.filter_cons]
      split
      · exact List.Sublist.cons₂ x h
      · exact List.Sublist.cons x h

theorem selected_length (L : List Solid) : ∀ (mask : List Bool), mask.length = L.length →
    (selected L mask true).length + (selected L mask false).length = L.length := by
  induction L with
  | nil => intro mask _; simp [selected]
  | cons x L ih =>
    intro mask hlen
    cases mask with
    | nil => simp at hlen
    | cons m mask =>
      have h := ih mask (by simpa using hlen)
      simp only [selected, List.length_map] at h ⊢
      cases m <;> simp [List.filter_cons] at h ⊢ <;> omega

theorem foldl_discreteStep_mask (K : Kernel Solid Shape) (L : List Solid) :
    ∀ st : List Solid × List Solid, ∃ mask : List Bool, mask.length = L.length ∧
      (L.foldl (discreteStep K) st).1 = st.1 ++ selected L mask true ∧
      (L.foldl (discreteStep K) st).2 = st.2 ++ selected L mask false := by
  induction L with
  | nil => intro st; exact ⟨[], rfl, by simp [selected], by simp [selected]⟩
  | cons x L ih =>
    intro st
    rcases discreteStep_cases K st x with ⟨h, _⟩ | ⟨h, _⟩
    · obtain ⟨mask, h1, h2, h3⟩ := ih (st.1 ++ [x], st.2)
      refine ⟨true :: mask, by simp [h1], ?_, ?_⟩
      · rw [List.foldl_cons, h, h2]; simp [selected, List.filter_cons]
      · rw [List.foldl_cons, h, h3]; simp [selected, List.filter_cons]
    · obtain ⟨mask, h1, h2, h3⟩ := ih (st.1, st.2 ++ [x])
      refine ⟨false :: mask, by simp [h1], ?_, ?_⟩
      · rw [List.foldl_cons, h, h2]; simp [selected, List.filter_cons]
      · rw [List.foldl_cons, h, h3]; simp [selected, List.filter_cons]

theorem GetDiscrete_eq_foldl (K : Kernel Solid Shape) (L : List Solid) :
    GetDiscrete K L = L.foldl (discreteStep K) ([], []) := by
  unfold GetDiscrete
  cases L with
  | nil => simp
  | cons x L => simp

/-- C14: `GetDiscrete` sends every position of its input to exactly one of the returned list
and the remaining list, and both keep the order of the input: there is a mask over the
positions such that the returned list holds the solids at the marked positions and the
remaining list those at the unmarked ones. Both are sublists of the input, their lengths add
up to the length of the input, and for the empty list both are empty. -/
theorem GetDiscrete_split (K : Kernel Solid Shape) (L : List Solid) :
    (∃ mask : List Bool, mask.length = L.length ∧
        (GetDiscrete K L).1 = selected L mask true ∧
        (GetDiscrete K L).2 = selected L mask false) ∧
      (GetDiscrete K L).1.Sublist L ∧ (GetDiscrete K L).2.Sublist L ∧
      (GetDiscrete K L).1.length + (GetDiscrete K L).2.length = L.length ∧
      GetDiscrete K ([] : List Solid) = ([], []) := by
  obtain ⟨mask, h1, h2, h3⟩ := foldl_discreteStep_mask K L ([], [])
  rw [← GetDiscrete_eq_foldl] at h2 h3
  simp only [List.nil_append] at h2 h3
  refine ⟨⟨mask, h1, h2, h3⟩, ?_, ?_, ?_, ?_⟩
  · rw [h2]; exact selected_sublist L mask true
  · rw [h3]; exact selected_sublist L mask false
  · rw [h2, h3]; exact selected_length L mask h1
  · simp [GetDiscrete]

theorem foldl_discreteStep_pairwise (K : Kernel Solid Shape) (L : List Solid) :
    ∀ st : List Solid × List Solid, st.1.Pairwise (fun a b => K.Intersects a b = false) →
      (L.foldl (discreteStep K) st).1.Pairwise (fun a b => K.Intersects a b = false) := by
  induction L with
  | nil => intro st h; exact h
  | cons x L ih =>
    intro st hst
    rw [List.foldl_cons]
    apply ih
    rcases discreteStep_cases K st x with ⟨h, hno⟩ | ⟨h, _⟩
    · rw [h]
      rw [List.pairwise_append]
      refine ⟨hst, by simp, ?_⟩
      intro a ha b hb
      simp at hb
      rw [hb]
      exact hno a ha
    · rw [h]; exact hst

theorem discrete_pairwise_core (K : Kernel Solid Shape) (L : List Solid) :
    (GetDiscrete K L).1.Pairwise (fun a b => K.Intersects a b = false) := by
  rw [GetDiscrete_eq_foldl]
  exact foldl_discreteStep_pairwise K L ([], []) List.Pairwise.nil

/-- C15: in the list `GetDiscrete` returns, no solid intersects a solid at a later position;
with a symmetric bounding-box test, the solids at two different positions of the returned
list never intersect. -/
theorem GetDiscrete_pairwise (K : Kernel Solid Shape) (L : List Solid) :
    (GetDiscrete K L).1.Pairwise (fun a b => K.Intersects a b = false) ∧
      ((∀ a b, K.Intersects a b = K.Intersects b a) →
        ∀ (i j : Nat) (a b : Solid), i ≠ j → (GetDiscrete K L).1[i]? = some a →
          (GetDiscrete K L).1[j]? = some b → K.Intersects a b = false) := by
  have hp := discrete_pairwise_core K L
  refine ⟨hp, ?_⟩
  intro hsym i j a b hij hi hj
  obtain ⟨hi1, hi2⟩ := List.getElem?_eq_some_iff.1 hi
  obtain ⟨hj1, hj2⟩ := List.getElem?_eq_some_iff.1 hj
  rw [List.pairwise_iff_getElem] at hp
  rcases Nat.lt_or_gt_of_ne hij with h | h
  · have := hp i j hi1 hj1 h
    rw [hi2, hj2] at this
    exact this
  · have := hp j i hj1 hi1 h
    rw [hi2, hj2] at this
    rw [hsym]
    exact this

theorem GetDiscrete_pairwise_witness :
    (∀ a b, (tracingKernel rowInter).Intersects a b = (tracingKernel rowInter).Intersects b a) ∧
      (GetDiscrete (tracingKernel rowInter)
        [Traced.input 0, Traced.input 1, Traced.input 2]).1 =
        [Traced.input 0, Traced.input 2] ∧
      (tracingKernel rowInter).Intersects (Traced.input 2) (Traced.input 0) = false :=
  ⟨symbolicKernel_symm rowInter _ rowInter_symm, by decide,
    (GetDiscrete_pairwise (tracingKernel rowInter)
      [Traced.input 0, Traced.input 1, Traced.input 2]).2
      (symbolicKernel_symm rowInter _ rowInter_symm) 1 0 (Traced.input 2) (Traced.input 0)
      (by decide) (by decide) (by decide)⟩

/-- C16 (counterexample): for two solids that intersect, `GetDiscrete` returns the first one,
although it intersects another solid of the input. -/
theorem GetDiscrete_returns_overlapping :
    ¬ ∀ x ∈ (GetDiscrete (tracingKernel rowInter) [Traced.input 0, Traced.input 1]).1,
        ∀ y ∈ [(Traced.input 0 : Traced (Fin 3)), Traced.input 1], y ≠ x →
          (tracingKernel rowInter).Intersects x y = false := by
  intro h
  have h1 := h (Traced.input 0) (by decide) (Traced.input 1) (by decide) (by decide)
  revert h1
  decide

/-- C16 (amended): a solid in the list `GetDiscrete` returns is intersected by no solid
returned before it; with a symmetric bounding-box test it intersects no other solid of the
returned list. -/
theorem GetDiscrete_returned_apart (K : Kernel Solid Shape) (L pre post : List Solid)
    (x : Solid) (hsplit : (GetDiscrete K L).1 = pre ++ x :: post) :
    (∀ d ∈ pre, K.Intersects d x = false) ∧
      ((∀ a b, K.Intersects a b = K.Intersects b a) →
        ∀ d ∈ pre ++ post, K.Intersects d x = false ∧ K.Intersects x d = false) := by
  have hp := discrete_pairwise_core K L
  rw [hsplit, List.pairwise_append, List.pairwise_cons] at hp
  obtain ⟨_, ⟨hx, _⟩, hcross⟩ := hp
  have hpre : ∀ d ∈ pre, K.Intersects d x = false :=
    fun d hd => hcross d hd x (List.mem_cons_self _ _)
  refine ⟨hpre, ?_⟩
  intro hsym d hd
  rcases List.mem_append.1 hd with h | h
  · exact ⟨hpre d h, by rw [hsym]; exact hpre d h⟩
  · exact ⟨by rw [hsym]; exact hx d h, hx d h⟩

theorem GetDiscrete_returned_apart_witness :
    (GetDiscrete (tracingKernel rowInter)
        [Traced.input 0, Traced.input 1, Traced.input 2]).1 =
        [Traced.input 0] ++ Traced.input 2 :: [] ∧
      ∀ d ∈ [(Traced.input 0 : Traced (Fin 3))],
        (tracingKernel rowInter).Intersects d (Traced.input 2) = false :=
  ⟨by decide,
    (GetDiscrete_returned_apart (tracingKernel rowInter)
      [Traced.input 0, Traced.input 1, Traced.input 2] [Traced.input 0] []
      (Traced.input 2) (by decide)).1⟩

end DiscreteClaims
section LoopMembers
variable {Solid Shape Tol : Type} [DecidableEq Solid]

theorem reach_linked_mem {clusters : List (Solid × List Solid)} {x y : Solid}
    (h : Relation.ReflTransGen (Linked clusters) x y) :
    y = x ∨ y ∈ clusters.map Prod.fst ∨ ∃ e ∈ clusters, y ∈ e.2 := by
  rcases Relation.ReflTransGen.cases_tail h with h1 | ⟨c, _, e, he, h2 | h2⟩
  · exact Or.inl h1
  · exact Or.inr (Or.inl (List.mem_map.2 ⟨e, he, h2.2.symm⟩))
  · exact Or.inr (Or.inr ⟨e, he, h2.2⟩)

/-- Every group of the `while` loop holds its seed, its members are keys of `clustersSparse`
or members of its sets, and a loop that finishes was left by no fold. -/
theorem mergeLoop_members (K : Kernel Solid Shape) (tol : Tol) (depth : Nat) (U : List Solid)
    (hdepth : U.length < depth) :
    ∀ (fuel : Nat) (pool : List (Solid × List Solid)) (st : MergeState Solid Shape Tol),
      (∀ e ∈ pool, e.1 ∈ U ∧ ∀ s ∈ e.2, s ∈ U) → pool.length ≤ fuel →
      ∃ gs, (mergeLoop K tol depth fuel pool st).2.groups = st.groups ++ gs ∧
        (∀ g ∈ gs, g ≠ [] ∧ ∀ y ∈ g, y ∈ pool.map Prod.fst ∨ ∃ e ∈ pool, y ∈ e.2) ∧
        ((mergeLoop K tol depth fuel pool st).1 = LoopStatus.finished →
          ∀ g ∈ gs, foldShape K tol g ≠ none) := by
  intro fuel
  induction fuel with
  | zero =>
    intro pool st _ hlen
    have hp : pool = [] := List.length_eq_zero.1 (Nat.le_zero.1 hlen)
    subst hp
    exact ⟨[], by simp [mergeLoop]⟩
  | succ fuel ih =>
    intro pool st hU hlen
    cases pool with
    | nil => exact ⟨[], by simp [mergeLoop]⟩
    | cons first others =>
      have hfirst : first ∈ first :: others := List.mem_cons_self _ _
      obtain ⟨R, hR, g⟩ := GetConnected_good (first :: others) U hU depth [] first.1
        (hU first hfirst).1 (by rw [unvisited_nil]; exact hdepth)
      have hRne : R ≠ [] := List.ne_nil_of_mem g.mem
      have hRmem : ∀ y ∈ R, y ∈ (first :: others).map Prod.fst ∨
          ∃ e ∈ first :: others, y ∈ e.2 := by
        intro y hy
        rcases reach_linked_mem (g.new y hy (List.not_mem_nil y)).2 with h | h | h
        · rw [h]; exact Or.inl (List.mem_map.2 ⟨first, hfirst, rfl⟩)
        · exact Or.inl h
        · exact Or.inr h
      have hfold := fuseConnected_trace K tol R K.nullShape st.trace
      cases hsh : (fuseConnected K tol R K.nullShape ([] : List (Event Solid Shape Tol))).1 with
      | none =>
        rw [hsh] at hfold
        have hml : mergeLoop K tol depth (fuel + 1) (first :: others) st =
            (LoopStatus.uncaught,
              { toMergeReduced := st.toMergeReduced,
                trace := st.trace ++ (fuseConnected K tol R K.nullShape []).2,
                groups := st.groups ++ [R] }) := by
          simp only [mergeLoop, hR, hfold]
        rw [hml]
        refine ⟨[R], rfl, ?_, by simp⟩
        intro g2 hg2
        simp at hg2
        subst hg2
        exact ⟨hRne, hRmem⟩
      | some sh =>
        rw [hsh] at hfold
        have hU2 : ∀ e ∈ R.foldl dictRemove (first :: others),
            e.1 ∈ U ∧ ∀ s ∈ e.2, s ∈ U :=
          fun e he => hU e ((mem_foldl_dictRemove R _ e).1 he).1
        have hlen2 : (R.foldl dictRemove (first :: others)).length ≤ fuel :=
          le_trans (length_foldl_dictRemove R first others g.mem)
            (Nat.le_of_succ_le_succ hlen)
        obtain ⟨gs, h1, h2, h3⟩ := ih (R.foldl dictRemove (first :: others))
          { toMergeReduced := st.toMergeReduced ++ K.SolidSet sh,
            trace := st.trace ++ (fuseConnected K tol R K.nullShape []).2,
            groups := st.groups ++ [R] } hU2 hlen2
        have hml : mergeLoop K tol depth (fuel + 1) (first :: others) st =
            mergeLoop K tol depth fuel (R.foldl dictRemove (first :: others))
              { toMergeReduced := st.toMergeReduced ++ K.SolidSet sh,
                trace := st.trace ++ (fuseConnected K tol R K.nullShape []).2,
                groups := st.groups ++ [R] } := by
          simp only [mergeLoop, hR, hfold]
        rw [hml]
        refine ⟨R :: gs, by rw [h1]; simp, ?_, ?_⟩
        · intro g2 hg2
          rcases List.mem_cons.1 hg2 with h | h
          · subst h; exact ⟨hRne, hRmem⟩
          · obtain ⟨a1, a2⟩ := h2 g2 h
            refine ⟨a1, fun y hy => ?_⟩
            rcases a2 y hy with h4 | ⟨e, he, hye⟩
            · obtain ⟨e, he, hek⟩ := List.mem_map.1 h4
              exact Or.inl (List.mem_map.2 ⟨e, ((mem_foldl_dictRemove R _ e).1 he).1, hek⟩)
            · exact Or.inr ⟨e, ((mem_foldl_dictRemove R _ e).1 he).1, hye⟩
        · intro hf g2 hg2
          rcases List.mem_cons.1 hg2 with h | h
          · subst h
            unfold foldShape
            rw [hsh]
            simp
          · exact h3 hf g2 h

theorem Merge_groups_small (K : Kernel Solid Shape) (solids : List (Option Solid)) (tol : Tol)
    (h : ¬ 2 ≤ (initClusters solids).length) : (Merge K solids tol).groups = [] := by
  by_cases h0 : (initClusters solids).length = 0
  · rw [Merge_empty K solids tol h0]
  · have h1 : (initClusters solids).length = 1 := by omega
    obtain ⟨first, hf⟩ := List.length_eq_one.1 h1
    rw [Merge_single K solids tol first hf]

/-- Every group of `Merge` is not empty and each of its members overlaps a solid of the input,
in one direction or the other; a run that no exception leaves was left by no fold. -/
theorem Merge_group_members (K : Kernel Solid Shape) (solids : List (Option Solid)) (tol : Tol) :
    (∀ g ∈ (Merge K solids tol).groups, g ≠ [] ∧
        ∀ y ∈ g, ∃ z, Overlap K solids z y ∨ Overlap K solids y z) ∧
      ((Merge K solids tol).result ≠ MergeResult.uncaught →
        ∀ g ∈ (Merge K solids tol).groups, foldShape K tol g ≠ none) := by
  by_cases h : 2 ≤ (initClusters solids).length
  · rw [Merge_general K solids tol h]
    obtain ⟨gs, h1, h2, h3⟩ :=
      mergeLoop_members K tol ((filledClusters K solids).length + 1)
        ((filledClusters K solids).map Prod.fst) (by simp)
        (sparseClusters (filledClusters K solids)).length
        (sparseClusters (filledClusters K solids))
        { toMergeReduced := isolatedKeys (filledClusters K solids), trace := [], groups := [] }
        (sparse_bounded K solids) (le_refl _)
    simp only [List.nil_append] at h1
    have hg : (loopRun K solids tol).2.groups = gs := h1
    have hst : (loopRun K solids tol).1 = LoopStatus.finished →
        ∀ g ∈ gs, foldShape K tol g ≠ none := h3
    simp only [hg]
    constructor
    · intro g hgs
      refine ⟨(h2 g hgs).1, fun y hy => ?_⟩
      rcases (h2 g hgs).2 y hy with hk | ⟨e, he, hye⟩
      · obtain ⟨z, hz⟩ := (mem_sparse_keys K solids y).1 hk
        exact ⟨z, Or.inl hz⟩
      · have hef := ((mem_sparseClusters _ e).1 he).1
        exact ⟨e.1, Or.inr (((filledClusters_spec K solids).2.2 e hef y).1 hye)⟩
    · intro hres
      apply hst
      cases hs : (loopRun K solids tol).1 with
      | finished => rfl
      | uncaught => rw [hs] at hres; exact absurd rfl hres
      | outOfFuel => exact absurd hs (loopRun_basic K solids tol).2.2.1
  · rw [Merge_groups_small K solids tol h]
    simp

end LoopMembers
section FoldCalls
variable {Solid Shape Tol : Type} [DecidableEq Solid]

theorem fuseConnected_toConnect (K : Kernel Solid Shape) (tol : Tol) (g : List Solid) :
    ∀ (acc : Shape) (tr : List (Event Solid Shape Tol)),
      ∀ e ∈ (fuseConnected K tol g acc tr).2, e ∈ tr ∨ e.toConnect ∈ g := by
  induction g with
  | nil => intro acc tr e he; exact Or.inl (by simpa [fuseConnected] using he)
  | cons s g ih =>
    intro acc tr e he
    have hstep : ∀ (acc2 : Shape) (evs : List (Event Solid Shape Tol)),
        (∀ x ∈ evs, x.toConnect = s) → e ∈ (fuseConnected K tol g acc2 (tr ++ evs)).2 →
        e ∈ tr ∨ e.toConnect ∈ s :: g := by
      intro acc2 evs hevs h
      rcases ih acc2 (tr ++ evs) e h with h1 | h1
      · rcases List.mem_append.1 h1 with h2 | h2
        · exact Or.inl h2
        · exact Or.inr (by rw [hevs e h2]; exact List.mem_cons_self _ _)
      · exact Or.inr (List.mem_cons_of_mem _ h1)
    simp only [fuseConnected] at he
    by_cases hn : K.IsNull acc = true
    · rw [if_pos hn] at he
      exact hstep _ _ (by simp [Event.toConnect]) he
    · rw [if_neg hn] at he
      cases hF : K.Fuse acc s with
      | shape result =>
        rw [hF] at he
        exact hstep _ _ (by simp [Event.toConnect]) he
      | hasErrors =>
        rw [hF] at he
        exact hstep _ _ (by simp [Event.toConnect]) he
      | stdException what =>
        rw [hF] at he
        exact hstep _ _ (by simp [Event.toConnect]) he
      | otherException =>
        rw [hF] at he
        simp only [List.mem_append, List.mem_cons, List.mem_singleton, List.not_mem_nil,
          or_false] at he
        rcases he with h | h | h
        · exact Or.inl h
        · exact Or.inr (by rw [h]; simp [Event.toConnect])
        · exact Or.inr (by rw [h]; simp [Event.toConnect])

theorem ToleranceFirst_append (tol : Tol) (l1 l2 : List (Event Solid Shape Tol))
    (h1 : ToleranceFirst tol l1) (h2 : ToleranceFirst tol l2) : ToleranceFirst tol (l1 ++ l2) := by
  intro i acc s hi
  by_cases hlt : i < l1.length
  · rw [List.getElem?_append_left hlt] at hi
    obtain ⟨j, hj, hj2⟩ := h1 i acc s hi
    refine ⟨j, hj, ?_⟩
    rw [List.getElem?_append_left (by omega)]
    exact hj2
  · rw [List.getElem?_append_right (by omega)] at hi
    obtain ⟨j, hj, hj2⟩ := h2 _ acc s hi
    refine ⟨l1.length + j, by omega, ?_⟩
    rw [List.getElem?_append_right (by omega)]
    simpa using hj2

theorem ToleranceFirst_block (tol : Tol) (s : Solid) (acc : Shape)
    (rest : List (Event Solid Shape Tol)) (hrest : ∀ e ∈ rest, ∀ a x, e ≠ Event.fuse a x) :
    ToleranceFirst tol (Event.setTolerance s tol :: Event.fuse acc s :: rest) := by
  intro i a x hi
  match i, hi with
  | 0, hi => simp at hi
  | 1, hi =>
    simp at hi
    exact ⟨0, rfl, by simp [hi.2]⟩
  | i + 2, hi =>
    simp at hi
    exact absurd rfl (hrest _ (List.getElem?_mem hi) a x)

theorem ToleranceFirst_single (tol : Tol) (s : Solid) :
    ToleranceFirst tol ([Event.setTolerance s tol] : List (Event Solid Shape Tol)) := by
  intro i a x hi
  match i, hi with
  | 0, hi => simp at hi
  | i + 1, hi => simp at hi

theorem fuseConnected_toleranceFirst (K : Kernel Solid Shape) (tol : Tol) (g : List Solid) :
    ∀ (acc : Shape) (tr : List (Event Solid Shape Tol)), ToleranceFirst tol tr →
      ToleranceFirst tol (fuseConnected K tol g acc tr).2 := by
  induction g with
  | nil => intro acc tr h; simpa [fuseConnected] using h
  | cons s g ih =>
    intro acc tr h
    simp only [fuseConnected]
    by_cases hn : K.IsNull acc = true
    · rw [if_pos hn]
      exact ih _ _ (ToleranceFirst_append tol _ _ h (ToleranceFirst_single tol s))
    · rw [if_neg hn]
      cases hF : K.Fuse acc s with
      | shape result =>
        exact ih _ _ (ToleranceFirst_append tol _ _ h
          (ToleranceFirst_block tol s acc [] (by simp)))
      | hasErrors =>
        exact ih _ _ (ToleranceFirst_append tol _ _ h
          (ToleranceFirst_block tol s acc _ (by simp)))
      | stdException what =>
        exact ih _ _ (ToleranceFirst_append tol _ _ h
          (ToleranceFirst_block tol s acc _ (by simp)))
      | otherException =>
        exact ToleranceFirst_append tol _ _ h (ToleranceFirst_block tol s acc [] (by simp))

theorem fuseConnected_tolerated (K : Kernel Solid Shape) (tol : Tol) (g : List Solid) :
    ∀ (acc : Shape) (tr : List (Event Solid Shape Tol)),
      (fuseConnected K tol g acc tr).1 ≠ none →
      (fuseConnected K tol g acc tr).2.filterMap Event.tolerated =
        tr.filterMap Event.tolerated ++ g.map (fun s => (s, tol)) := by
  induction g with
  | nil => intro acc tr _; simp [fuseConnected]
  | cons s g ih =>
    intro acc tr h
    simp only [fuseConnected] at h ⊢
    by_cases hn : K.IsNull acc = true
    · rw [if_pos hn] at h ⊢
      rw [ih _ _ h]
      simp [Event.tolerated]
    · rw [if_neg hn] at h ⊢
      cases hF : K.Fuse acc s with
      | shape result =>
        rw [hF] at h
        simp only [] at h ⊢
        rw [ih _ _ h]
        simp [Event.tolerated]
      | hasErrors =>
        rw [hF] at h
        simp only [] at h ⊢
        rw [ih _ _ h]
        simp [Event.tolerated]
      | stdException what =>
        rw [hF] at h
        simp only [] at h ⊢
        rw [ih _ _ h]
        simp [Event.tolerated]
      | otherException =>
        rw [hF] at h
        exact absurd rfl h

theorem foldTrace_head (K : Kernel Solid Shape) (tol : Tol) (s : Solid) (rest : List Solid) :
    ∃ tail, foldTrace K tol (s :: rest) =
      (Event.setTolerance s tol : Event Solid Shape Tol) :: tail := by
  unfold foldTrace
  simp only [fuseConnected]
  by_cases hn : K.IsNull K.nullShape = true
  · rw [if_pos hn, fuseConnected_trace]
    exact ⟨_, rfl⟩
  · rw [if_neg hn]
    cases hF : K.Fuse K.nullShape s with
    | shape result => simp only []; rw [fuseConnected_trace]; exact ⟨_, rfl⟩
    | hasErrors => simp only []; rw [fuseConnected_trace]; exact ⟨_, rfl⟩
    | stdException what => simp only []; rw [fuseConnected_trace]; exact ⟨_, rfl⟩
    | otherException => exact ⟨_, rfl⟩

theorem fuseConnected_leftFold (K : Kernel Solid Shape) (tol : Tol)
    (fuse : Shape → Solid → Shape) (rest : List Solid)
    (hfuse : ∀ a s, K.IsNull a = false → s ∈ rest →
      K.Fuse a s = FuseOutcome.shape (fuse a s) ∧ K.IsNull (fuse a s) = false) :
    ∀ (acc : Shape) (tr : List (Event Solid Shape Tol)), K.IsNull acc = false →
      fuseConnected K tol rest acc tr =
        (some (rest.foldl fuse acc), tr ++ leftFoldCalls fuse tol acc rest) := by
  induction rest with
  | nil => intro acc tr _; simp [fuseConnected, leftFoldCalls]
  | cons s rest ih =>
    intro acc tr hacc
    obtain ⟨hF, hN⟩ := hfuse acc s hacc (List.mem_cons_self _ _)
    have ih2 := ih (fun a x ha hx => hfuse a x ha (List.mem_cons_of_mem _ hx)) (fuse acc s)
      (tr ++ [Event.setTolerance s tol, Event.fuse acc s]) hN
    simp only [fuseConnected, hacc, hF]
    simp only [Bool.false_eq_true, if_false]
    rw [ih2]
    simp [leftFoldCalls]

end FoldCalls
section Claims5
variable {Solid Shape Tol : Type} [DecidableEq Solid]

/-- C11: in an input with two or more distinct solids, take a solid that intersects no other
solid of the input, in either direction. It is once in `toMergeReduced` before the loop, it
is in no group, no call of `SetTolerance`, of the boolean union or of `LogWarning` is about
it, and a run that no exception leaves returns the isolated solids followed by the solids of
the fold results; unless a fold result holds the solid, it is in the compound exactly once. -/
theorem Merge_isolated_untouched (K : Kernel Solid Shape) (solids : List (Option Solid))
    (tol : Tol) (x : Solid)
    (htwo : ∃ a b : Solid, a ≠ b ∧ some a ∈ solids ∧ some b ∈ solids)
    (hx : some x ∈ solids)
    (hno : ∀ z, some z ∈ solids → z ≠ x →
      K.Intersects z x = false ∧ K.Intersects x z = false)
    (hret : (Merge K solids tol).result ≠ MergeResult.uncaught) :
    (Merge K solids tol).isolated.count x = 1 ∧
      (∀ g ∈ (Merge K solids tol).groups, x ∉ g) ∧
      (∀ e ∈ (Merge K solids tol).trace, e.toConnect ≠ x) ∧
      (Merge K solids tol).result =
        MergeResult.compound
          ((Merge K solids tol).isolated ++
            (Merge K solids tol).groups.flatMap (groupSolids K tol)) true tol ∧
      (x ∉ (Merge K solids tol).groups.flatMap (groupSolids K tol) →
        ((Merge K solids tol).isolated ++
          (Merge K solids tol).groups.flatMap (groupSolids K tol)).count x = 1) := by
  have h2 := (two_le_count_iff solids).2 htwo
  have hov : ∀ z, ¬ Overlap K solids z x ∧ ¬ Overlap K solids x z := by
    intro z
    constructor
    · intro h
      have := (hno z h.1 h.2.2.1).1
      rw [h.2.2.2] at this
      exact Bool.noConfusion this
    · intro h
      have := (hno z h.2.1 (fun hzx => h.2.2.1 hzx.symm)).2
      rw [h.2.2.2] at this
      exact Bool.noConfusion this
  obtain ⟨hnd, hmem⟩ := Merge_isolated K solids tol h2
  have hxi : x ∈ (Merge K solids tol).isolated := (hmem x).2 ⟨hx, fun z => (hov z).1⟩
  have hcount : (Merge K solids tol).isolated.count x = 1 := List.count_eq_one_of_mem hnd hxi
  have hgroups : ∀ g ∈ (Merge K solids tol).groups, x ∉ g := by
    intro g hg hxg
    obtain ⟨z, hz | hz⟩ := ((Merge_group_members K solids tol).1 g hg).2 x hxg
    · exact (hov z).1 hz
    · exact (hov z).2 hz
  refine ⟨hcount, hgroups, ?_, ?_, ?_⟩
  · intro e he hex
    rw [Merge_trace_eq, List.mem_flatMap] at he
    obtain ⟨g, hg, heg⟩ := he
    rcases fuseConnected_toConnect K tol g K.nullShape [] e heg with h | h
    · simp at h
    · rw [hex] at h
      exact hgroups g hg h
  · rcases Merge_result_general K solids tol h2 with ⟨h, _⟩ | h
    · exact absurd h hret
    · exact h
  · intro hfresh
    rw [List.count_append, hcount, List.count_eq_zero_of_not_mem hfresh]

theorem pairSolids_two_apart :
    ∀ z, some z ∈ pairSolids → z ≠ Traced.input 2 →
      (tracingKernel pairInter).Intersects z (Traced.input 2) = false ∧
        (tracingKernel pairInter).Intersects (Traced.input 2) z = false := by
  intro z hz _
  have hz2 : z = Traced.input 2 ∨ z = Traced.input 0 ∨ z = Traced.input 1 ∨
      z = Traced.input 3 := by
    simpa [pairSolids] using hz
  rcases hz2 with h | h | h | h <;> subst h <;> decide

theorem Merge_isolated_untouched_witness :
    (∃ a b : Traced (Fin 4), a ≠ b ∧ some a ∈ pairSolids ∧ some b ∈ pairSolids) ∧
      some (Traced.input 2) ∈ pairSolids ∧
      (∀ z, some z ∈ pairSolids → z ≠ Traced.input 2 →
        (tracingKernel pairInter).Intersects z (Traced.input 2) = false ∧
          (tracingKernel pairInter).Intersects (Traced.input 2) z = false) ∧
      (Merge (tracingKernel pairInter) pairSolids ()).result ≠ MergeResult.uncaught ∧
      ((Merge (tracingKernel pairInter) pairSolids ()).isolated.count (Traced.input 2) = 1 ∧
        (∀ g ∈ (Merge (tracingKernel pairInter) pairSolids ()).groups, Traced.input 2 ∉ g) ∧
        (∀ e ∈ (Merge (tracingKernel pairInter) pairSolids ()).trace,
          e.toConnect ≠ Traced.input 2) ∧
        (Merge (tracingKernel pairInter) pairSolids ()).result =
          MergeResult.compound
            ((Merge (tracingKernel pairInter) pairSolids ()).isolated ++
              (Merge (tracingKernel pairInter) pairSolids ()).groups.flatMap
                (groupSolids (tracingKernel pairInter) ())) true () ∧
        (Traced.input 2 ∉ (Merge (tracingKernel pairInter) pairSolids ()).groups.flatMap
            (groupSolids (tracingKernel pairInter) ()) →
          ((Merge (tracingKernel pairInter) pairSolids ()).isolated ++
            (Merge (tracingKernel pairInter) pairSolids ()).groups.flatMap
              (groupSolids (tracingKernel pairInter) ())).count (Traced.input 2) = 1)) :=
  ⟨⟨Traced.input 0, Traced.input 1, by decide, by decide, by decide⟩, by decide,
    pairSolids_two_apart, by decide,
    Merge_isolated_untouched (tracingKernel pairInter) pairSolids () (Traced.input 2)
      ⟨Traced.input 0, Traced.input 1, by decide, by decide, by decide⟩ (by decide)
      pairSolids_two_apart (by decide)⟩

theorem length_flatMap_ones {α β : Type} (f : α → List β) (l : List α)
    (h : ∀ a ∈ l, (f a).length = 1) : (l.flatMap f).length = l.length := by
  induction l with
  | nil => simp
  | cons a l ih =>
    rw [List.flatMap_cons, List.length_append, h a (List.mem_cons_self _ _),
      ih (fun b hb => h b (List.mem_cons_of_mem _ hb))]
    simp
    omega

/-- C12: for an input with two or more distinct solids, a run of `Merge` that no exception
leaves returns a compound that holds the isolated solids (the solids of the input that no
other solid of the input intersects) followed, group by group, by the solids of the shape
the fold over the group ended with; when each of these shapes is a single solid, the compound
holds as many solids as there are isolated solids and groups. -/
theorem Merge_output (K : Kernel Solid Shape) (solids : List (Option Solid)) (tol : Tol)
    (htwo : ∃ a b : Solid, a ≠ b ∧ some a ∈ solids ∧ some b ∈ solids)
    (hret : (Merge K solids tol).result ≠ MergeResult.uncaught) :
    (Merge K solids tol).result =
        MergeResult.compound
          ((Merge K solids tol).isolated ++
            (Merge K solids tol).groups.flatMap (groupSolids K tol)) true tol ∧
      (∀ x, x ∈ (Merge K solids tol).isolated ↔
        (some x ∈ solids ∧ ∀ z, ¬ Overlap K solids z x)) ∧
      (∀ g ∈ (Merge K solids tol).groups, ∃ unionedShape,
        foldShape K tol g = some unionedShape ∧
          groupSolids K tol g = K.SolidSet unionedShape) ∧
      ((∀ g ∈ (Merge K solids tol).groups, (groupSolids K tol g).length = 1) →
        ((Merge K solids tol).isolated ++
            (Merge K solids tol).groups.flatMap (groupSolids K tol)).length =
          (Merge K solids tol).isolated.length + (Merge K solids tol).groups.length) := by
  have h2 := (two_le_count_iff solids).2 htwo
  refine ⟨?_, (Merge_isolated K solids tol h2).2, ?_, ?_⟩
  · rcases Merge_result_general K solids tol h2 with ⟨h, _⟩ | h
    · exact absurd h hret
    · exact h
  · intro g hg
    have hne := (Merge_group_members K solids tol).2 hret g hg
    cases hsh : foldShape K tol g with
    | none => exact absurd hsh hne
    | some sh => exact ⟨sh, rfl, by simp [groupSolids, hsh]⟩
  · intro hone
    rw [List.length_append, length_flatMap_ones _ _ hone]

theorem Merge_output_witness :
    (∃ a b : Traced (Fin 4), a ≠ b ∧ some a ∈ pairSolids ∧ some b ∈ pairSolids) ∧
      (Merge (tracingKernel pairInter) pairSolids ()).result ≠ MergeResult.uncaught ∧
      (Merge (tracingKernel pairInter) pairSolids ()).result =
        MergeResult.compound
          [Traced.input 2, Traced.input 3, Traced.fused (Traced.input 0) (Traced.input 1)]
          true () ∧
      (Merge (tracingKernel pairInter) pairSolids ()).result =
        MergeResult.compound
          ((Merge (tracingKernel pairInter) pairSolids ()).isolated ++
            (Merge (tracingKernel pairInter) pairSolids ()).groups.flatMap
              (groupSolids (tracingKernel pairInter) ())) true () :=
  ⟨⟨Traced.input 0, Traced.input 1, by decide, by decide, by decide⟩, by decide, by decide,
    (Merge_output (tracingKernel pairInter) pairSolids ()
      ⟨Traced.input 0, Traced.input 1, by decide, by decide, by decide⟩ (by decide)).1⟩

/-- C13 (counterexample): for a one-solid input `Merge` makes no call of `SetTolerance`: the
tolerance-setting operation is not applied to the solid. -/
theorem Merge_single_solid_no_tolerance :
    Event.setTolerance (Traced.input 0) () ∉
        (Merge (tracingKernel rowInter) [some (Traced.input 0)] ()).trace ∧
      (Merge (tracingKernel rowInter) [some (Traced.input 0)] ()).trace.filterMap
        Event.tolerated = [] := by
  decide

/-- C13 (amended): for an input whose solids are all one solid, `Merge` returns that solid in
a compound that is flagged as sewn and records the given tolerance; it makes no call of
`SetTolerance` (and no other call). -/
theorem Merge_single_solid_records_tolerance (K : Kernel Solid Shape)
    (solids : List (Option Solid)) (tol : Tol) (s : Solid) (hs : some s ∈ solids)
    (hone : ∀ o ∈ solids, o = none ∨ o = some s) :
    (Merge K solids tol).result = MergeResult.compound [s] true tol ∧
      (Merge K solids tol).trace.filterMap Event.tolerated = [] ∧
      (Merge K solids tol).trace = [] := by
  obtain ⟨hnd, _, hmem⟩ := initClusters_spec solids
  have hall : ∀ k ∈ (initClusters solids).map Prod.fst, k = s := by
    intro k hk
    rcases hone _ ((hmem k).1 hk) with h | h
    · exact Option.noConfusion h
    · exact Option.some.inj h
  have hin : s ∈ (initClusters solids).map Prod.fst := (hmem s).2 hs
  have hrep := List.eq_replicate_of_mem hall
  have hlen : (initClusters solids).length = 1 := by
    rw [hrep, List.nodup_replicate] at hnd
    have hpos : 0 < ((initClusters solids).map Prod.fst).length := List.length_pos_of_mem hin
    rw [List.length_map] at hnd hpos
    omega
  obtain ⟨first, hf⟩ := List.length_eq_one.1 hlen
  have hfs : first.1 = s := hall first.1 (by rw [hf]; simp)
  rw [Merge_single K solids tol first hf, hfs]
  exact ⟨rfl, rfl, rfl⟩

theorem Merge_single_solid_records_tolerance_witness :
    some (Traced.input 0) ∈
        [none, some (Traced.input 0), some (Traced.input (0 : Fin 3))] ∧
      (∀ o ∈ [none, some (Traced.input 0), some (Traced.input (0 : Fin 3))],
        o = none ∨ o = some (Traced.input 0)) ∧
      (Merge (tracingKernel rowInter)
          [none, some (Traced.input 0), some (Traced.input 0)] ()).result =
        MergeResult.compound [Traced.input 0] true () ∧
      (Merge (tracingKernel rowInter)
          [none, some (Traced.input 0), some (Traced.input 0)] ()).trace.filterMap
        Event.tolerated = [] ∧
      (Merge (tracingKernel rowInter)
          [none, some (Traced.input 0), some (Traced.input 0)] ()).trace = [] :=
  ⟨by decide, by decide,
    Merge_single_solid_records_tolerance (tracingKernel rowInter)
      [none, some (Traced.input 0), some (Traced.input 0)] () (Traced.input 0) (by decide)
      (by decide)⟩

end Claims5
section Claims6
variable {Solid Shape Tol : Type} [DecidableEq Solid]

/-- C17: after the adjacency pass of `Merge` the keys of `clusters` are the solids of the
input, and for every key `k` and every solid `s`: `s` is in the set of `k` if and only if `s`
is a solid of the input, different from `k`, whose bounding box intersects that of `k`. So no
key is in its own set, and with a symmetric intersection test one key is in the set of
another exactly when the other is in its set. -/
theorem Merge_adjacency (K : Kernel Solid Shape) (solids : List (Option Solid)) :
    (∀ k, k ∈ (filledClusters K solids).map Prod.fst ↔ some k ∈ solids) ∧
      (∀ e ∈ filledClusters K solids, ∀ s,
        s ∈ e.2 ↔ (some s ∈ solids ∧ s ≠ e.1 ∧ K.Intersects s e.1 = true)) ∧
      (∀ e ∈ filledClusters K solids, e.1 ∉ e.2) ∧
      ((∀ a b, K.Intersects a b = K.Intersects b a) →
        ∀ e1 ∈ filledClusters K solids, ∀ e2 ∈ filledClusters K solids,
          e1.1 ∈ e2.2 ↔ e2.1 ∈ e1.2) := by
  obtain ⟨_, hk, hv⟩ := filledClusters_spec K solids
  have hkey : ∀ e ∈ filledClusters K solids, some e.1 ∈ solids :=
    fun e he => (hk e.1).1 (List.mem_map.2 ⟨e, he, rfl⟩)
  have hset : ∀ e ∈ filledClusters K solids, ∀ s,
      s ∈ e.2 ↔ (some s ∈ solids ∧ s ≠ e.1 ∧ K.Intersects s e.1 = true) := by
    intro e he s
    rw [hv e he s]
    unfold Overlap
    exact ⟨fun h => ⟨h.1, h.2.2⟩, fun h => ⟨h.1, hkey e he, h.2⟩⟩
  refine ⟨hk, hset, ?_, ?_⟩
  · intro e he hself
    exact ((hset e he e.1).1 hself).2.1 rfl
  · intro hsym e1 he1 e2 he2
    rw [hset e2 he2 e1.1, hset e1 he1 e2.1, hsym e1.1 e2.1]
    constructor
    · intro h; exact ⟨hkey e2 he2, fun hne => h.2.1 hne.symm, h.2.2⟩
    · intro h; exact ⟨hkey e1 he1, fun hne => h.2.1 hne.symm, h.2.2⟩

theorem Merge_adjacency_witness :
    (∀ a b, (tracingKernel rowInter).Intersects a b = (tracingKernel rowInter).Intersects b a) ∧
      filledClusters (tracingKernel rowInter) rowSolids =
        [(Traced.input 2, [Traced.input 1]), (Traced.input 0, [Traced.input 1]),
          (Traced.input 1, [Traced.input 2, Traced.input 0])] ∧
      ∀ e1 ∈ filledClusters (tracingKernel rowInter) rowSolids,
        ∀ e2 ∈ filledClusters (tracingKernel rowInter) rowSolids, e1.1 ∈ e2.2 ↔ e2.1 ∈ e1.2 :=
  ⟨symbolicKernel_symm rowInter _ rowInter_symm, by decide,
    (Merge_adjacency (tracingKernel rowInter) rowSolids).2.2.2
      (symbolicKernel_symm rowInter _ rowInter_symm)⟩

/-- C18: on a symmetric adjacency map whose sets hold only keys, a call of `GetConnected`
with an empty `connected` set and a key as seed returns (for every depth bound above the
number of keys), and leaves in `connected`, without repetition, exactly the solids that a
chain of adjacencies joins to the seed, the seed among them. -/
theorem GetConnected_reachable (clusters : List (Solid × List Solid)) (seed : Solid)
    (fuel : Nat) (hseed : seed ∈ clusters.map Prod.fst)
    (hsym : ∀ e1 ∈ clusters, ∀ e2 ∈ clusters, e1.1 ∈ e2.2 ↔ e2.1 ∈ e1.2)
    (hkeys : ∀ e ∈ clusters, ∀ s ∈ e.2, s ∈ clusters.map Prod.fst)
    (hfuel : clusters.length < fuel) :
    ∃ connected, GetConnected fuel clusters [] seed = some connected ∧ connected.Nodup ∧
      seed ∈ connected ∧
      ∀ y, y ∈ connected ↔ Relation.ReflTransGen (Adjacent clusters) seed y := by
  have hU : ∀ e ∈ clusters, e.1 ∈ clusters.map Prod.fst ∧
      ∀ s ∈ e.2, s ∈ clusters.map Prod.fst :=
    fun e he => ⟨List.mem_map.2 ⟨e, he, rfl⟩, hkeys e he⟩
  obtain ⟨R, hR, g⟩ := GetConnected_good clusters (clusters.map Prod.fst) hU fuel [] seed hseed
    (by rw [unvisited_nil, List.length_map]; exact hfuel)
  have hlink : ∀ a b, Linked clusters a b → Adjacent clusters a b := by
    rintro a b ⟨e, he, h | h⟩
    · obtain ⟨ea, hea, heak⟩ := List.mem_map.1 (hkeys e he a h.1)
      refine ⟨ea, hea, heak, ?_⟩
      rw [h.2]
      exact (hsym ea hea e he).1 (by rw [heak]; exact h.1)
    · exact ⟨e, he, h.1.symm, h.2⟩
  refine ⟨R, hR, g.nodup List.nodup_nil, g.mem, fun y => ⟨fun hy => ?_, fun hy => ?_⟩⟩
  · exact Relation.ReflTransGen.mono hlink (g.new y hy (List.not_mem_nil y)).2
  · induction hy with
    | refl => exact g.mem
    | @tail b c _ hbc ih =>
      obtain ⟨eb, heb, hebk, hc⟩ := hbc
      obtain ⟨ec, hec, heck⟩ := List.mem_map.1 (hkeys eb heb c hc)
      have hb : b ∈ ec.2 := by
        have := (hsym eb heb ec hec).2 (by rw [heck]; exact hc)
        rw [hebk] at this
        exact this
      have := (g.new b ih (List.not_mem_nil b)).1 ec hec hb
      rw [heck] at this
      exact this

theorem GetConnected_reachable_witness :
    (0 : Fin 3) ∈ rowClusters.map Prod.fst ∧
      (∀ e1 ∈ rowClusters, ∀ e2 ∈ rowClusters, e1.1 ∈ e2.2 ↔ e2.1 ∈ e1.2) ∧
      (∀ e ∈ rowClusters, ∀ s ∈ e.2, s ∈ rowClusters.map Prod.fst) ∧
      rowClusters.length < 4 ∧
      GetConnected 4 rowClusters [] 0 = some [0, 1, 2] ∧
      ∃ connected, GetConnected 4 rowClusters [] 0 = some connected ∧ connected.Nodup ∧
        (0 : Fin 3) ∈ connected ∧
        ∀ y, y ∈ connected ↔ Relation.ReflTransGen (Adjacent rowClusters) 0 y :=
  ⟨by decide, by decide, by decide, by decide, by decide,
    GetConnected_reachable rowClusters 0 4 (by decide) (by decide) (by decide) (by decide)⟩

/-- C19: take a group `s1 :: rest` of `Merge`, in fold order, whose unions all succeed, `fuse`
giving their shapes, none of the shapes involved being null. The fold over the group ends
with `fuse (... (fuse (fuse s1 s2) s3) ...) sn`; its calls are `SetTolerance` on `s1` and
then, for each later member, `SetTolerance` on it and the union of the accumulator with it;
and a run that no exception leaves returns the solids of that shape for the group. -/
theorem Merge_left_fold (K : Kernel Solid Shape) (solids : List (Option Solid)) (tol : Tol)
    (fuse : Shape → Solid → Shape) (pre post : List (List Solid)) (s1 : Solid)
    (rest : List Solid)
    (hgroups : (Merge K solids tol).groups = pre ++ (s1 :: rest) :: post)
    (hnull : K.IsNull K.nullShape = true) (hseed : K.IsNull (K.toShape s1) = false)
    (hfuse : ∀ a s, K.IsNull a = false → s ∈ rest →
      K.Fuse a s = FuseOutcome.shape (fuse a s) ∧ K.IsNull (fuse a s) = false)
    (hret : (Merge K solids tol).result ≠ MergeResult.uncaught) :
    foldShape K tol (s1 :: rest) = some (rest.foldl fuse (K.toShape s1)) ∧
      foldTrace K tol (s1 :: rest) =
        Event.setTolerance s1 tol :: leftFoldCalls fuse tol (K.toShape s1) rest ∧
      (Merge K solids tol).result =
        MergeResult.compound
          ((Merge K solids tol).isolated ++ pre.flatMap (groupSolids K tol) ++
            K.SolidSet (rest.foldl fuse (K.toShape s1)) ++
            post.flatMap (groupSolids K tol)) true tol := by
  have hrun : fuseConnected K tol (s1 :: rest) K.nullShape
      ([] : List (Event Solid Shape Tol)) =
      (some (rest.foldl fuse (K.toShape s1)),
        Event.setTolerance s1 tol :: leftFoldCalls fuse tol (K.toShape s1) rest) := by
    simp only [fuseConnected, hnull, if_true]
    rw [fuseConnected_leftFold K tol fuse rest hfuse (K.toShape s1) _ hseed]
    simp
  have hshape : foldShape K tol (s1 :: rest) = some (rest.foldl fuse (K.toShape s1)) := by
    unfold foldShape; rw [hrun]
  refine ⟨hshape, by unfold foldTrace; rw [hrun], ?_⟩
  have h2 : 2 ≤ (initClusters solids).length := by
    by_contra hsmall
    rw [Merge_groups_small K solids tol hsmall] at hgroups
    simp at hgroups
  rcases Merge_result_general K solids tol h2 with ⟨h, _⟩ | h
  · exact absurd h hret
  · rw [h, hgroups]
    simp [groupSolids, hshape]

theorem Merge_left_fold_witness :
    (Merge (tracingKernel rowInter) rowSolids ()).groups =
        [] ++ (Traced.input 2 :: [Traced.input 1, Traced.input 0]) :: [] ∧
      (Merge (tracingKernel rowInter) rowSolids ()).result ≠ MergeResult.uncaught ∧
      foldShape (tracingKernel rowInter) () [Traced.input 2, Traced.input 1, Traced.input 0] =
        some (some (Traced.fused (Traced.fused (Traced.input 2) (Traced.input 1))
          (Traced.input 0))) ∧
      foldTrace (tracingKernel rowInter) () [Traced.input 2, Traced.input 1, Traced.input 0] =
        [Event.setTolerance (Traced.input 2) (), Event.setTolerance (Traced.input 1) (),
          Event.fuse (some (Traced.input 2)) (Traced.input 1),
          Event.setTolerance (Traced.input 0) (),
          Event.fuse (some (Traced.fused (Traced.input 2) (Traced.input 1)))
            (Traced.input 0)] ∧
      (Merge (tracingKernel rowInter) rowSolids ()).result =
        MergeResult.compound
          [Traced.fused (Traced.fused (Traced.input 2) (Traced.input 1)) (Traced.input 0)]
          true () :=
  ⟨by decide, by decide,
    Merge_left_fold (tracingKernel rowInter) rowSolids () symbolicFuse [] []
      (Traced.input 2) [Traced.input 1, Traced.input 0] (by decide) (by decide) (by decide)
      (fun a s ha _ => by
        cases a with
        | none => simp [tracingKernel, symbolicKernel] at ha
        | some acc => simp [tracingKernel, symbolicKernel, symbolicFuse])
      (by decide)⟩

theorem flatMap_tolerated (K : Kernel Solid Shape) (tol : Tol) (gs : List (List Solid))
    (h : ∀ g ∈ gs, foldShape K tol g ≠ none) :
    (gs.flatMap (foldTrace K tol)).filterMap Event.tolerated =
      gs.flatten.map (fun s => (s, tol)) := by
  induction gs with
  | nil => simp
  | cons g gs ih =>
    rw [List.flatMap_cons, List.filterMap_append, ih (fun g2 hg2 => h g2 (List.mem_cons_of_mem _ hg2)),
      List.flatten_cons, List.map_append]
    congr 1
    have := fuseConnected_tolerated K tol g K.nullShape [] (h g (List.mem_cons_self _ _))
    simpa [foldTrace] using this

theorem flatMap_toleranceFirst (K : Kernel Solid Shape) (tol : Tol) (gs : List (List Solid)) :
    ToleranceFirst tol (gs.flatMap (foldTrace K tol)) := by
  induction gs with
  | nil => intro i acc s hi; simp at hi
  | cons g gs ih =>
    rw [List.flatMap_cons]
    refine ToleranceFirst_append tol _ _ ?_ ih
    exact fuseConnected_toleranceFirst K tol g K.nullShape [] (by intro i acc s hi; simp at hi)

/-- C20: in a run of `Merge` that no exception leaves, the calls of `SetTolerance` are, in
fold order, one for every member of every group, the seed included, each with the tolerance
of the caller. The call right before every boolean union is the call of `SetTolerance` on
its second operand, and the fold over a group starts with the call of `SetTolerance` on the
seed, before any union of the group. -/
theorem Merge_tolerance_before_union (K : Kernel Solid Shape) (solids : List (Option Solid))
    (tol : Tol) (hret : (Merge K solids tol).result ≠ MergeResult.uncaught) :
    (Merge K solids tol).trace = (Merge K solids tol).groups.flatMap (foldTrace K tol) ∧
      (Merge K solids tol).trace.filterMap Event.tolerated =
        (Merge K solids tol).groups.flatten.map (fun s => (s, tol)) ∧
      (∀ (i : Nat) (acc : Shape) (s : Solid),
        (Merge K solids tol).trace[i]? = some (Event.fuse acc s) →
          ∃ j, i = j + 1 ∧ (Merge K solids tol).trace[j]? = some (Event.setTolerance s tol)) ∧
      ∀ g ∈ (Merge K solids tol).groups, ∃ s1 rest tail,
        g = s1 :: rest ∧ foldTrace K tol g = Event.setTolerance s1 tol :: tail := by
  obtain ⟨hmem, hfold⟩ := Merge_group_members K solids tol
  refine ⟨Merge_trace_eq K solids tol, ?_, ?_, ?_⟩
  · rw [Merge_trace_eq]
    exact flatMap_tolerated K tol _ (hfold hret)
  · rw [Merge_trace_eq]
    exact flatMap_toleranceFirst K tol _
  · intro g hg
    cases g with
    | nil => exact absurd rfl (hmem [] hg).1
    | cons s1 rest =>
      obtain ⟨tail, htail⟩ := foldTrace_head K tol s1 rest
      exact ⟨s1, rest, tail, rfl, htail⟩

theorem Merge_tolerance_before_union_witness :
    (Merge (symbolicKernel rowInter (failOn (Traced.input 1) FuseOutcome.hasErrors))
        rowSolids (5 : Nat)).result ≠ MergeResult.uncaught ∧
      (Merge (symbolicKernel rowInter (failOn (Traced.input 1) FuseOutcome.hasErrors))
        rowSolids (5 : Nat)).trace.filterMap Event.tolerated =
        [(Traced.input 2, 5), (Traced.input 1, 5), (Traced.input 0, 5)] ∧
      (Merge (symbolicKernel rowInter (failOn (Traced.input 1) FuseOutcome.hasErrors))
        rowSolids (5 : Nat)).trace.filterMap Event.tolerated =
        (Merge (symbolicKernel rowInter (failOn (Traced.input 1) FuseOutcome.hasErrors))
          rowSolids (5 : Nat)).groups.flatten.map (fun s => (s, 5)) :=
  ⟨by decide, by decide,
    (Merge_tolerance_before_union
      (symbolicKernel rowInter (failOn (Traced.input 1) FuseOutcome.hasErrors)) rowSolids 5
      (by decide)).2.1⟩

end Claims6


section DiscreteClaims2
variable {Solid Shape Tol : Type} [DecidableEq Solid]

theorem foldl_discreteStep_prefix (K : Kernel Solid Shape) (L : List Solid)
    (st : List Solid × List Solid) (d : Solid) (hd : d ∈ st.1) :
    d ∈ (L.foldl (discreteStep K) st).1 := by
  obtain ⟨mask, _, h2, _⟩ := foldl_discreteStep_mask K L st
  rw [h2]
  exact List.mem_append_left _ hd

theorem foldl_discreteStep_sub (K : Kernel Solid Shape) (L : List Solid) (d : Solid)
    (hd : d ∈ (L.foldl (discreteStep K) ([], [])).1) : d ∈ L := by
  obtain ⟨mask, _, h2, _⟩ := foldl_discreteStep_mask K L ([], [])
  rw [h2] at hd
  exact (selected_sublist L mask true).subset (by simpa using hd)

theorem foldl_discreteStep_remaining (K : Kernel Solid Shape) (L : List Solid) :
    ∀ (st : List Solid × List Solid) (x : Solid), x ∈ (L.foldl (discreteStep K) st).2 →
      x ∈ st.2 ∨ ∃ pre post d, L = pre ++ x :: post ∧
        d ∈ (pre.foldl (discreteStep K) st).1 ∧ K.Intersects d x = true := by
  induction L with
  | nil => intro st x hx; exact Or.inl hx
  | cons y L ih =>
    intro st x hx
    rw [List.foldl_cons] at hx
    rcases ih _ x hx with h | ⟨pre, post, d, hL, hd, hdx⟩
    · rcases discreteStep_cases K st y with ⟨hs, _⟩ | ⟨hs, d, hd, hdy⟩
      · rw [hs] at h; exact Or.inl h
      · rw [hs] at h
        rcases List.mem_append.1 h with h | h
        · exact Or.inl h
        · have hxy : x = y := by simpa using h
          subst hxy
          exact Or.inr ⟨[], L, d, rfl, hd, hdy⟩
    · exact Or.inr ⟨y :: pre, post, d, by rw [hL]; rfl, by rw [List.foldl_cons]; exact hd, hdx⟩

theorem foldl_discreteStep_keeps (K : Kernel Solid Shape) (L : List Solid) :
    ∀ (st : List Solid × List Solid) (x : Solid), x ∈ st.1 ∨ x ∈ st.2 ∨ x ∈ L →
      x ∈ (L.foldl (discreteStep K) st).1 ∨ x ∈ (L.foldl (discreteStep K) st).2 := by
  induction L with
  | nil =>
    intro st x hx
    rcases hx with h | h | h
    · exact Or.inl h
    · exact Or.inr h
    · simp at h
  | cons y L ih =>
    intro st x hx
    rw [List.foldl_cons]
    apply ih
    rcases discreteStep_cases K st y with ⟨hs, _⟩ | ⟨hs, _⟩ <;> rw [hs] <;>
      simp only [List.mem_append, List.mem_singleton, List.mem_cons] at hx ⊢ <;> tauto

theorem foldl_discreteStep_apart (K : Kernel Solid Shape) (D : List Solid) :
    ∀ st : List Solid × List Solid,
      (st.1 ++ D).Pairwise (fun a b => K.Intersects a b = false) →
      D.foldl (discreteStep K) st = (st.1 ++ D, st.2) := by
  induction D with
  | nil => intro st _; simp
  | cons y D ih =>
    intro st hp
    rw [List.foldl_cons]
    rcases discreteStep_cases K st y with ⟨hs, _⟩ | ⟨_, d, hd, hdy⟩
    · rw [hs, ih (st.1 ++ [y], st.2) (by simpa using hp)]
      simp
    · rw [List.pairwise_append] at hp
      have := hp.2.2 d hd y (List.mem_cons_self _ _)
      rw [hdy] at this
      exact absurd this (by decide)

theorem remaining_blocked_core (K : Kernel Solid Shape) (L : List Solid) (x : Solid)
    (hx : x ∈ (GetDiscrete K L).2) :
    ∃ pre post d, L = pre ++ x :: post ∧ d ∈ pre ∧ d ∈ (GetDiscrete K L).1 ∧
      K.Intersects d x = true := by
  rw [GetDiscrete_eq_foldl] at hx ⊢
  rcases foldl_discreteStep_remaining K L ([], []) x hx with h | ⟨pre, post, d, hL, hd, hdx⟩
  · simp at h
  · refine ⟨pre, post, d, hL, foldl_discreteStep_sub K pre d hd, ?_, hdx⟩
    rw [hL, List.foldl_append]
    exact foldl_discreteStep_prefix K _ _ d hd

/-- C24: every solid that `GetDiscrete` leaves in the remaining list stands in the input
behind a solid of the returned list whose bounding box intersects its own; and the first
solid of a non-empty input is the first solid of the returned list. -/
theorem GetDiscrete_remaining_blocked (K : Kernel Solid Shape) (L : List Solid) :
    (∀ x ∈ (GetDiscrete K L).2, ∃ pre post d, L = pre ++ x :: post ∧ d ∈ pre ∧
        d ∈ (GetDiscrete K L).1 ∧ K.Intersects d x = true) ∧
      (∀ first rest, L = first :: rest → ∃ tail, (GetDiscrete K L).1 = first :: tail) := by
  refine ⟨fun x hx => remaining_blocked_core K L x hx, ?_⟩
  intro first rest hL
  subst hL
  rw [GetDiscrete_eq_foldl, List.foldl_cons]
  obtain ⟨mask, _, h2, _⟩ := foldl_discreteStep_mask K rest (discreteStep K ([], []) first)
  rw [h2]
  exact ⟨selected rest mask true, by simp [discreteStep]⟩

theorem GetDiscrete_remaining_blocked_witness :
    (GetDiscrete (tracingKernel rowInter)
        [Traced.input 0, Traced.input 1, Traced.input 2]).2 = [Traced.input 1] ∧
      ∃ pre post d, [(Traced.input 0 : Traced (Fin 3)), Traced.input 1, Traced.input 2] =
          pre ++ Traced.input 1 :: post ∧ d ∈ pre ∧
        d ∈ (GetDiscrete (tracingKernel rowInter)
          [Traced.input 0, Traced.input 1, Traced.input 2]).1 ∧
        (tracingKernel rowInter).Intersects d (Traced.input 1) = true :=
  ⟨by decide,
    (GetDiscrete_remaining_blocked (tracingKernel rowInter)
      [Traced.input 0, Traced.input 1, Traced.input 2]).1 (Traced.input 1) (by decide)⟩

/-- C25: applied to the list it returned, `GetDiscrete` returns that list again and leaves an
empty remaining list. -/
theorem GetDiscrete_idempotent (K : Kernel Solid Shape) (L : List Solid) :
    GetDiscrete K (GetDiscrete K L).1 = ((GetDiscrete K L).1, []) := by
  have hp := discrete_pairwise_core K L
  rw [GetDiscrete_eq_foldl K (GetDiscrete K L).1]
  have h := foldl_discreteStep_apart K (GetDiscrete K L).1 ([], []) (by simpa using hp)
  simpa using h

/-- C26: for a list `L` of two or more distinct solids and any reordering `L2` of it, every
solid that `Merge` classifies as isolated for `L` is in the list `GetDiscrete` returns for
`L2` and not in the remaining list; and `GetDiscrete` leaves no solid in the remaining list
that no other solid of the list intersects. -/
theorem Merge_isolated_are_discrete (K : Kernel Solid Shape) (L L2 : List Solid) (tol : Tol)
    (hnd : L.Nodup) (hlen : 2 ≤ L.length) (hperm : L.Perm L2) :
    (∀ x ∈ (Merge K (L.map some) tol).isolated,
        x ∈ (GetDiscrete K L2).1 ∧ x ∉ (GetDiscrete K L2).2) ∧
      (∀ x ∈ L2, (∀ d ∈ L2, d ≠ x → K.Intersects d x = false) →
        x ∈ (GetDiscrete K L2).1 ∧ x ∉ (GetDiscrete K L2).2) := by
  have hnd2 : L2.Nodup := hperm.nodup_iff.1 hnd
  have key : ∀ x ∈ L2, (∀ d ∈ L2, d ≠ x → K.Intersects d x = false) →
      x ∈ (GetDiscrete K L2).1 ∧ x ∉ (GetDiscrete K L2).2 := by
    intro x hx hno
    have hnot : x ∉ (GetDiscrete K L2).2 := by
      intro hR
      obtain ⟨pre, post, d, hL, hd, _, hdx⟩ := remaining_blocked_core K L2 x hR
      have hdne : d ≠ x := by
        intro h
        subst h
        rw [hL] at hnd2
        have := (List.nodup_append.1 hnd2).2.2
        exact this hd (List.mem_cons_self _ _)
      have := hno d (by rw [hL]; exact List.mem_append_left _ hd) hdne
      rw [hdx] at this
      exact absurd this (by decide)
    refine ⟨?_, hnot⟩
    have := foldl_discreteStep_keeps K L2 ([], []) x (Or.inr (Or.inr hx))
    rw [← GetDiscrete_eq_foldl] at this
    exact this.resolve_right hnot
  refine ⟨?_, key⟩
  intro x hx
  obtain ⟨a, ha, b, hb, hab⟩ := two_le_exists_ne hnd hlen
  have h2 : 2 ≤ (initClusters (L.map some)).length :=
    (two_le_count_iff (L.map some)).2
      ⟨a, b, hab, List.mem_map.2 ⟨a, ha, rfl⟩, List.mem_map.2 ⟨b, hb, rfl⟩⟩
  obtain ⟨hxL, hiso⟩ := ((Merge_isolated K (L.map some) tol h2).2 x).1 hx
  have hxL1 : x ∈ L := by simpa using hxL
  apply key x (hperm.subset hxL1)
  intro d hd hdx
  cases hi : K.Intersects d x with
  | false => rfl
  | true =>
    exact absurd ⟨List.mem_map.2 ⟨d, hperm.symm.subset hd, rfl⟩, hxL, hdx, hi⟩ (hiso d)

theorem Merge_isolated_are_discrete_witness :
    ([0, 1, 2, 3].map (@Traced.input (Fin 4))).Nodup ∧
      2 ≤ ([0, 1, 2, 3].map (@Traced.input (Fin 4))).length ∧
      ([0, 1, 2, 3].map (@Traced.input (Fin 4))).Perm
        ([3, 1, 0, 2].map (@Traced.input (Fin 4))) ∧
      (Merge (tracingKernel pairInter) (([0, 1, 2, 3].map (@Traced.input (Fin 4))).map some)
        ()).isolated = [Traced.input 2, Traced.input 3] ∧
      ∀ x ∈ (Merge (tracingKernel pairInter)
          (([0, 1, 2, 3].map (@Traced.input (Fin 4))).map some) ()).isolated,
        x ∈ (GetDiscrete (tracingKernel pairInter)
            ([3, 1, 0, 2].map (@Traced.input (Fin 4)))).1 ∧
          x ∉ (GetDiscrete (tracingKernel pairInter)
            ([3, 1, 0, 2].map (@Traced.input (Fin 4)))).2 :=
  ⟨by decide, by decide, by decide, by decide,
    (Merge_isolated_are_discrete (tracingKernel pairInter)
      ([0, 1, 2, 3].map (@Traced.input (Fin 4))) ([3, 1, 0, 2].map (@Traced.input (Fin 4))) ()
      (by decide) (by decide) (by decide)).1⟩

end DiscreteClaims2

section GCTermination
variable {Solid : Type} [DecidableEq Solid]

theorem visitValue_mono (call call2 : List Solid → Solid → Option (List Solid))
    (h : ∀ W p R, call W p = some R → call2 W p = some R) :
    ∀ (ps W R : List Solid), visitValue call ps W = some R → visitValue call2 ps W = some R := by
  intro ps
  induction ps with
  | nil => intro W R hR; exact hR
  | cons p ps ih =>
    intro W R hR
    simp only [visitValue] at hR ⊢
    cases hc : call W p with
    | none => rw [hc] at hR; simp at hR
    | some W2 =>
      rw [hc, Option.some_bind] at hR
      rw [h W p W2 hc, Option.some_bind]
      exact ih W2 R hR

theorem visitClusters_mono (call call2 : List Solid → Solid → Option (List Solid))
    (h : ∀ W p R, call W p = some R → call2 W p = some R) (x : Solid) :
    ∀ (rest : List (Solid × List Solid)) (W R : List Solid),
      visitClusters call x rest W = some R → visitClusters call2 x rest W = some R := by
  intro rest
  induction rest with
  | nil => intro W R hR; exact hR
  | cons e rest ih =>
    intro W R hR
    simp only [visitClusters] at hR ⊢
    split at hR
    · rename_i hc
      rw [if_pos hc]
      cases h1 : call W e.1 with
      | none => rw [h1] at hR; simp at hR
      | some W2 =>
        rw [h1, Option.some_bind] at hR
        rw [h W e.1 W2 h1, Option.some_bind]
        cases h2 : visitValue call e.2 W2 with
        | none => rw [h2] at hR; simp at hR
        | some W3 =>
          rw [h2, Option.some_bind] at hR
          rw [visitValue_mono call call2 h e.2 W2 W3 h2, Option.some_bind]
          exact ih W3 R hR
    · rename_i hc
      rw [if_neg hc]
      exact ih W R hR

/-- A larger depth bound does not change what `GetConnected` returns. -/
theorem GetConnected_mono (clusters : List (Solid × List Solid)) :
    ∀ (fuel : Nat) (V : List Solid) (x : Solid) (R : List Solid),
      GetConnected fuel clusters V x = some R → GetConnected (fuel + 1) clusters V x = some R := by
  intro fuel
  induction fuel with
  | zero => intro V x R h; simp [GetConnected] at h
  | succ fuel ih =>
    intro V x R h
    rw [GetConnected] at h ⊢
    split at h
    · rename_i hc
      rw [if_pos hc]; exact h
    · rename_i hc
      rw [if_neg hc]
      exact visitClusters_mono _ _ ih x clusters _ R h

theorem GetConnected_mono_le (clusters : List (Solid × List Solid)) (V : List Solid) (x : Solid)
    (R : List Solid) (n m : Nat) (hnm : n ≤ m) (h : GetConnected n clusters V x = some R) :
    GetConnected m clusters V x = some R := by
  induction hnm with
  | refl => exact h
  | step _ ih => exact GetConnected_mono clusters _ V x R ih

theorem reachable_bounds (clusters : List (Solid × List Solid)) (x : Solid) :
    ∀ e ∈ clusters, e.1 ∈ reachable clusters x ∧ ∀ s ∈ e.2, s ∈ reachable clusters x := by
  intro e he
  unfold reachable
  refine ⟨?_, fun s hs => ?_⟩
  · exact List.mem_cons_of_mem _ (List.mem_append_left _ (List.mem_map.2 ⟨e, he, rfl⟩))
  · exact List.mem_cons_of_mem _ (List.mem_append_right _ (List.mem_flatMap.2 ⟨e, he, hs⟩))

theorem unvisited_le_length (U V : List Solid) : unvisited U V ≤ U.length :=
  List.countP_le_length _

/-- C22: `GetConnected` terminates on every adjacency map and from every visited set: there
is one result that every depth bound above the number of solids of the map and the seed
gives, and it extends the visited set and holds the seed. A call whose seed is already
visited returns the visited set unchanged; any other call adds the seed, which takes one from
the solids not yet visited, before it recurses from the enlarged set. -/
theorem GetConnected_terminates (clusters : List (Solid × List Solid)) (connected : List Solid)
    (clusterAround : Solid) :
    (∃ R, (∀ fuel, (reachable clusters clusterAround).length < fuel →
          GetConnected fuel clusters connected clusterAround = some R) ∧
        (∃ e, R = connected ++ e) ∧ clusterAround ∈ R) ∧
      (clusterAround ∈ connected →
        ∀ fuel, GetConnected (fuel + 1) clusters connected clusterAround = some connected) ∧
      (clusterAround ∉ connected →
        (∀ fuel, GetConnected (fuel + 1) clusters connected clusterAround =
          visitClusters (GetConnected fuel clusters) clusterAround clusters
            (connected ++ [clusterAround])) ∧
        unvisited (reachable clusters clusterAround) (connected ++ [clusterAround]) <
          unvisited (reachable clusters clusterAround) connected) := by
  have hx : clusterAround ∈ reachable clusters clusterAround := List.mem_cons_self _ _
  refine ⟨?_, ?_, ?_⟩
  · obtain ⟨R, hR, g⟩ := GetConnected_good clusters (reachable clusters clusterAround)
      (reachable_bounds clusters clusterAround)
      ((reachable clusters clusterAround).length + 1) connected clusterAround hx
      (Nat.lt_succ_of_le (unvisited_le_length _ _))
    exact ⟨R, fun fuel hfuel => GetConnected_mono_le clusters connected clusterAround R _ fuel
      hfuel hR, g.ext, g.mem⟩
  · intro h fuel
    simp [GetConnected, h]
  · intro h
    refine ⟨fun fuel => ?_, unvisited_lt _ hx h⟩
    simp [GetConnected, h, hashSetAdd]

/-- An adjacency map with a cycle 0 - 1 - 2 - 0 and a set that holds its own key. -/
theorem GetConnected_terminates_witness :
    (2 : Fin 3) ∉ [(1 : Fin 3)] ∧
      GetConnected 5 [((0 : Fin 3), [1, 2, 0]), (1, [2, 0]), (2, [0, 1])] [1] 2 =
        some [1, 2, 0] ∧
      ∀ fuel, GetConnected (fuel + 1) [((0 : Fin 3), [1, 2, 0]), (1, [2, 0]), (2, [0, 1])]
          [1] 2 =
        visitClusters (GetConnected fuel [((0 : Fin 3), [1, 2, 0]), (1, [2, 0]), (2, [0, 1])])
          2 [((0 : Fin 3), [1, 2, 0]), (1, [2, 0]), (2, [0, 1])] ([1] ++ [2]) :=
  ⟨by decide, by decide,
    ((GetConnected_terminates [((0 : Fin 3), [1, 2, 0]), (1, [2, 0]), (2, [0, 1])] [1] 2).2.2
      (by decide)).1⟩

end GCTermination

section LoopIterations
variable {Solid Shape Tol : Type} [DecidableEq Solid]

/-- The groups that the `while` loop adds are formed by successive iterations from its pool. -/
theorem mergeLoop_iterations (K : Kernel Solid Shape) (tol : Tol) (depth : Nat) (U : List Solid)
    (hdepth : U.length < depth) :
    ∀ (fuel : Nat) (pool : List (Solid × List Solid)) (st : MergeState Solid Shape Tol),
      (∀ e ∈ pool, e.1 ∈ U ∧ ∀ s ∈ e.2, s ∈ U) → pool.length ≤ fuel →
      ∃ gs, (mergeLoop K tol depth fuel pool st).2.groups = st.groups ++ gs ∧
        Iterations pool gs := by
  intro fuel
  induction fuel with
  | zero =>
    intro pool st _ hlen
    have hp : pool = [] := List.length_eq_zero.1 (Nat.le_zero.1 hlen)
    subst hp
    exact ⟨[], by simp [mergeLoop], trivial⟩
  | succ fuel ih =>
    intro pool st hU hlen
    cases pool with
    | nil => exact ⟨[], by simp [mergeLoop], trivial⟩
    | cons first others =>
      obtain ⟨R, hR, g⟩ := GetConnected_good (first :: others) U hU depth [] first.1
        (hU first (List.mem_cons_self _ _)).1 (by rw [unvisited_nil]; exact hdepth)
      have hfold := fuseConnected_trace K tol R K.nullShape st.trace
      cases hsh : (fuseConnected K tol R K.nullShape ([] : List (Event Solid Shape Tol))).1 with
      | none =>
        rw [hsh] at hfold
        have hml : mergeLoop K tol depth (fuel + 1) (first :: others) st =
            (LoopStatus.uncaught,
              { toMergeReduced := st.toMergeReduced,
                trace := st.trace ++ (fuseConnected K tol R K.nullShape []).2,
                groups := st.groups ++ [R] }) := by
          simp only [mergeLoop, hR, hfold]
        rw [hml]
        exact ⟨[R], rfl, ⟨first, others, rfl, g⟩, trivial⟩
      | some sh =>
        rw [hsh] at hfold
        have hU2 : ∀ e ∈ R.foldl dictRemove (first :: others),
            e.1 ∈ U ∧ ∀ s ∈ e.2, s ∈ U :=
          fun e he => hU e ((mem_foldl_dictRemove R _ e).1 he).1
        have hlen2 : (R.foldl dictRemove (first :: others)).length ≤ fuel :=
          le_trans (length_foldl_dictRemove R first others g.mem)
            (Nat.le_of_succ_le_succ hlen)
        obtain ⟨gs, h1, h2⟩ := ih (R.foldl dictRemove (first :: others))
          { toMergeReduced := st.toMergeReduced ++ K.SolidSet sh,
            trace := st.trace ++ (fuseConnected K tol R K.nullShape []).2,
            groups := st.groups ++ [R] } hU2 hlen2
        have hml : mergeLoop K tol depth (fuel + 1) (first :: others) st =
            mergeLoop K tol depth fuel (R.foldl dictRemove (first :: others))
              { toMergeReduced := st.toMergeReduced ++ K.SolidSet sh,
                trace := st.trace ++ (fuseConnected K tol R K.nullShape []).2,
                groups := st.groups ++ [R] } := by
          simp only [mergeLoop, hR, hfold]
        rw [hml]
        exact ⟨R :: gs, by rw [h1]; simp, ⟨first, others, rfl, g⟩, h2⟩

theorem mem_removeConnected (pool : List (Solid × List Solid)) (g : List Solid)
    (e : Solid × List Solid) : e ∈ removeConnected pool g ↔ e ∈ pool ∧ e.1 ∉ g :=
  mem_foldl_dictRemove g pool e

theorem poolAfter_sub (gs : List (List Solid)) :
    ∀ (pool : List (Solid × List Solid)) (e : Solid × List Solid),
      e ∈ poolAfter pool gs → e ∈ pool := by
  induction gs with
  | nil => intro pool e he; exact he
  | cons g gs ih =>
    intro pool e he
    exact ((mem_removeConnected pool g e).1 (ih (removeConnected pool g) e he)).1

theorem poolAfter_append (pool : List (Solid × List Solid)) (pre : List (List Solid))
    (g : List Solid) : poolAfter pool (pre ++ [g]) = removeConnected (poolAfter pool pre) g := by
  simp [poolAfter, List.foldl_append]

theorem Iterations_split (pre : List (List Solid)) (g : List Solid) (post : List (List Solid)) :
    ∀ pool : List (Solid × List Solid), Iterations pool (pre ++ g :: post) →
      (∃ first others, poolAfter pool pre = first :: others ∧
        Good (poolAfter pool pre) [] first.1 g) ∧
      Iterations (poolAfter pool (pre ++ [g])) post := by
  induction pre with
  | nil =>
    intro pool h
    exact ⟨h.1, by simpa [poolAfter] using h.2⟩
  | cons p pre ih =>
    intro pool h
    have := ih (removeConnected pool p) h.2
    simpa [poolAfter] using this

theorem Iterations_length (gs : List (List Solid)) :
    ∀ pool : List (Solid × List Solid), Iterations pool gs → gs.length ≤ pool.length := by
  induction gs with
  | nil => intro pool _; exact Nat.zero_le _
  | cons g gs ih =>
    intro pool h
    obtain ⟨⟨first, others, hp, hg⟩, hrest⟩ := h
    have h1 := ih _ hrest
    subst hp
    have h2 := length_foldl_dictRemove g first others hg.mem
    simp only [List.length_cons]
    exact Nat.succ_le_succ (le_trans h1 h2)

/-- No member of a group formed from a pool without the keys in `g` is in `g`, when `g` holds
every key whose set holds one of its solids. -/
theorem later_group_apart (pool : List (Solid × List Solid)) (g : List Solid)
    (hclosed : ∀ y ∈ g, Closed pool g y) (gs : List (List Solid)) :
    ∀ pool2 : List (Solid × List Solid), (∀ e ∈ pool2, e ∈ pool ∧ e.1 ∉ g) →
      Iterations pool2 gs → ∀ g2 ∈ gs, ∀ y ∈ g2, y ∉ g := by
  induction gs with
  | nil => intro _ _ _ g2 hg2; simp at hg2
  | cons g1 gs ih =>
    intro pool2 hsub hit g2 hg2 y hy
    obtain ⟨⟨first, others, hp, hg⟩, hrest⟩ := hit
    rcases List.mem_cons.1 hg2 with h | h
    · subst h
      have hreach := (hg.new y hy (List.not_mem_nil y)).2
      clear hy
      induction hreach with
      | refl => exact (hsub first (by rw [hp]; exact List.mem_cons_self _ _)).2
      | @tail b c _ hbc ihb =>
        obtain ⟨e, he, h1 | h1⟩ := hbc
        · rw [h1.2]; exact (hsub e he).2
        · intro hc
          have := hclosed c hc e (hsub e he).1 h1.2
          rw [← h1.1] at this
          exact ihb this
    · exact ih (removeConnected pool2 g1)
        (fun e he => hsub e ((mem_removeConnected pool2 g1 e).1 he).1) hrest g2 h y hy

theorem Iterations_disjoint (gs : List (List Solid)) :
    ∀ pool : List (Solid × List Solid), Iterations pool gs → gs.Pairwise List.Disjoint := by
  induction gs with
  | nil => intro _ _; exact List.Pairwise.nil
  | cons g gs ih =>
    intro pool h
    obtain ⟨⟨first, others, hp, hg⟩, hrest⟩ := h
    rw [List.pairwise_cons]
    refine ⟨?_, ih _ hrest⟩
    intro g2 hg2 y hy hy2
    exact later_group_apart pool g (fun z hz => (hg.new z hz (List.not_mem_nil z)).1) gs
      (removeConnected pool g) (fun e he => (mem_removeConnected pool g e).1 he) hrest
      g2 hg2 y hy2 hy

theorem Merge_iterations (K : Kernel Solid Shape) (solids : List (Option Solid)) (tol : Tol) :
    Iterations (sparseClusters (filledClusters K solids)) (Merge K solids tol).groups := by
  by_cases h : 2 ≤ (initClusters solids).length
  · rw [Merge_general K solids tol h]
    obtain ⟨gs, h1, h2⟩ :=
      mergeLoop_iterations K tol ((filledClusters K solids).length + 1)
        ((filledClusters K solids).map Prod.fst) (by simp)
        (sparseClusters (filledClusters K solids)).length
        (sparseClusters (filledClusters K solids))
        { toMergeReduced := isolatedKeys (filledClusters K solids), trace := [], groups := [] }
        (sparse_bounded K solids) (le_refl _)
    simp only [List.nil_append] at h1
    have hg : (loopRun K solids tol).2.groups = gs := h1
    simp only [hg]
    exact h2
  · rw [Merge_groups_small K solids tol h]
    trivial

/-- C23: the grouping loop of `Merge` ends for every input. It forms at most as many groups,
one per iteration, as there are clustered solids. At the head of each iteration the pool of
remaining clustered solids has a first key, the seed, which is in the group of the
iteration; after the iteration the pool holds exactly its former entries whose key is not in
the group, which are fewer; and groups formed in different iterations share no solid. -/
theorem Merge_loop_terminates (K : Kernel Solid Shape) (solids : List (Option Solid))
    (tol : Tol) :
    (Merge K solids tol).result ≠ MergeResult.outOfFuel ∧
      (Merge K solids tol).groups.length ≤ (sparseClusters (filledClusters K solids)).length ∧
      (∀ pre g post, (Merge K solids tol).groups = pre ++ g :: post →
        ∃ first others,
          poolAfter (sparseClusters (filledClusters K solids)) pre = first :: others ∧
          first.1 ∈ g ∧
          (∀ e, e ∈ poolAfter (sparseClusters (filledClusters K solids)) (pre ++ [g]) ↔
            e ∈ first :: others ∧ e.1 ∉ g) ∧
          (poolAfter (sparseClusters (filledClusters K solids)) (pre ++ [g])).length <
            (first :: others).length) ∧
      (Merge K solids tol).groups.Pairwise List.Disjoint := by
  have hit := Merge_iterations K solids tol
  refine ⟨Merge_terminates K solids tol, Iterations_length _ _ hit, ?_,
    Iterations_disjoint _ _ hit⟩
  intro pre g post hsplit
  rw [hsplit] at hit
  obtain ⟨⟨first, others, hp, hg⟩, _⟩ := Iterations_split pre g post _ hit
  refine ⟨first, others, hp, hg.mem, ?_, ?_⟩
  · intro e
    rw [poolAfter_append, mem_removeConnected, hp]
  · rw [poolAfter_append, hp]
    exact Nat.lt_succ_of_le (length_foldl_dictRemove g first others hg.mem)

theorem Merge_loop_terminates_witness :
    (Merge (tracingKernel twoPairsInter) twoPairsSolids ()).groups =
        [[Traced.input 0, Traced.input 1]] ++ [Traced.input 2, Traced.input 3] :: [] ∧
      ∃ first others,
        poolAfter (sparseClusters (filledClusters (tracingKernel twoPairsInter) twoPairsSolids))
          [[Traced.input 0, Traced.input 1]] = first :: others ∧
        first.1 ∈ [(Traced.input 2 : Traced (Fin 5)), Traced.input 3] ∧
        (∀ e, e ∈ poolAfter
              (sparseClusters (filledClusters (tracingKernel twoPairsInter) twoPairsSolids))
              ([[Traced.input 0, Traced.input 1]] ++ [[Traced.input 2, Traced.input 3]]) ↔
          e ∈ first :: others ∧ e.1 ∉ [(Traced.input 2 : Traced (Fin 5)), Traced.input 3]) ∧
        (poolAfter (sparseClusters (filledClusters (tracingKernel twoPairsInter) twoPairsSolids))
            ([[Traced.input 0, Traced.input 1]] ++
              [[Traced.input 2, Traced.input 3]])).length < (first :: others).length :=
  ⟨by decide,
    (Merge_loop_terminates (tracingKernel twoPairsInter) twoPairsSolids ()).2.2.1
      [[Traced.input 0, Traced.input 1]] [Traced.input 2, Traced.input 3] [] (by decide)⟩

end LoopIterations

section UnionCount
variable {Solid Shape Tol : Type} [DecidableEq Solid]

end UnionCount

section Duplicates
variable {Solid Shape Tol : Type} [DecidableEq Solid]

theorem hashSetAdd_nodup (set : List Solid) (s : Solid) (h : set.Nodup) :
    (hashSetAdd set s).Nodup := by
  unfold hashSetAdd
  split
  · exact h
  · rename_i hs
    rw [List.nodup_append]
    exact ⟨h, by simp, fun a ha hb => hs (by simp at hb; rw [← hb]; exact ha)⟩

theorem addToClusters_nodup (K : Kernel Solid Shape) (s : Solid) (d : List (Solid × List Solid))
    (h : ∀ e ∈ d, e.2.Nodup) : ∀ e ∈ addToClusters K s d, e.2.Nodup := by
  intro e he
  unfold addToClusters at he
  obtain ⟨c, hc, hce⟩ := List.mem_map.1 he
  split at hce
  · rw [← hce]; exact hashSetAdd_nodup c.2 s (h c hc)
  · rw [← hce]; exact h c hc

theorem fillClusters_nodup (K : Kernel Solid Shape) (solids : List (Option Solid)) :
    ∀ d : List (Solid × List Solid), (∀ e ∈ d, e.2.Nodup) →
      ∀ e ∈ fillClusters K solids d, e.2.Nodup := by
  induction solids with
  | nil => intro d h; exact h
  | cons o solids ih =>
    intro d h
    unfold fillClusters
    rw [List.foldl_cons]
    cases o with
    | none => exact ih d h
    | some s => exact ih _ (addToClusters_nodup K s d h)

theorem filledClusters_sets_nodup (K : Kernel Solid Shape) (solids : List (Option Solid)) :
    ∀ e ∈ filledClusters K solids, e.2.Nodup := by
  apply fillClusters_nodup
  intro e he
  rw [(initClusters_spec solids).2.1 e he]
  exact List.nodup_nil

theorem Merge_members_nodup (K : Kernel Solid Shape) (solids : List (Option Solid)) (tol : Tol)
    (hsym : ∀ a b, K.Intersects a b = K.Intersects b a) :
    ((Merge K solids tol).isolated ++ (Merge K solids tol).groups.flatten).Nodup := by
  by_cases h2 : 2 ≤ (initClusters solids).length
  · obtain ⟨g1, g2, _⟩ := Merge_groups_spec K solids tol hsym
    obtain ⟨i1, i2⟩ := Merge_isolated K solids tol h2
    rw [List.nodup_append]
    refine ⟨i1, List.nodup_flatten.2 ⟨fun g hg => (g1 g hg).1, g2⟩, ?_⟩
    intro x hxi hxg
    obtain ⟨g, hg, hx⟩ := List.mem_flatten.1 hxg
    obtain ⟨hnd, hlen, hcomp⟩ := g1 g hg
    obtain ⟨a, ha, b, hb, hab⟩ := two_le_exists_ne hnd hlen
    by_cases hxa : x = a
    · have hc : Chain K solids x b := ((hcomp x hx).2 b).1 hb
      obtain ⟨z, hz⟩ := Chain_exists_overlap hc (by rw [hxa]; exact hab)
      exact ((i2 x).1 hxi).2 z (Overlap_symm hsym hz)
    · have hc : Chain K solids x a := ((hcomp x hx).2 a).1 ha
      obtain ⟨z, hz⟩ := Chain_exists_overlap hc hxa
      exact ((i2 x).1 hxi).2 z (Overlap_symm hsym hz)
  · by_cases h0 : (initClusters solids).length = 0
    · rw [Merge_empty K solids tol h0]; simp
    · have h1 : (initClusters solids).length = 1 := by omega
      obtain ⟨first, hf⟩ := List.length_eq_one.1 h1
      rw [Merge_single K solids tol first hf]; simp

theorem initClusters_repeated (solids : List (Option Solid)) (s : Solid) (hne : solids ≠ [])
    (hall : ∀ o ∈ solids, o = some s) : initClusters solids = [(s, [])] := by
  obtain ⟨hnd, hempty, hmem⟩ := initClusters_spec solids
  have hs : some s ∈ solids := by
    obtain ⟨o, ho⟩ := List.exists_mem_of_ne_nil _ hne
    rw [← hall o ho]; exact ho
  have hkey : ∀ e ∈ initClusters solids, e = (s, []) := by
    intro e he
    have h1 : some e.1 ∈ solids := (hmem e.1).1 (List.mem_map.2 ⟨e, he, rfl⟩)
    have h2 : e.1 = s := Option.some.inj (hall _ h1)
    exact Prod.ext h2 (hempty e he)
  match hi : initClusters solids with
  | [] =>
    have := (hmem s).2 hs
    rw [hi] at this
    simp at this
  | [e] =>
    rw [hkey e (by rw [hi]; exact List.mem_cons_self _ _)]
  | e1 :: e2 :: rest =>
    rw [hi] at hnd
    have h1 := hkey e1 (by rw [hi]; simp)
    have h2 := hkey e2 (by rw [hi]; simp)
    rw [h1, h2] at hnd
    simp at hnd

/-- C27: however often a solid occurs in the input of `Merge`, it is one key of the adjacency
map, the sets of the map hold no solid twice and no set holds its own key. With a symmetric
intersection test, no solid is twice among the isolated solids and the members of the
groups. An input whose elements are all the same solid is treated as the input that holds
the solid once: `Merge` returns a compound of that solid alone. -/
theorem Merge_duplicates_collapsed (K : Kernel Solid Shape) (solids : List (Option Solid))
    (tol : Tol) :
    ((filledClusters K solids).map Prod.fst).Nodup ∧
      (∀ s, s ∈ (filledClusters K solids).map Prod.fst ↔ some s ∈ solids) ∧
      (∀ e ∈ filledClusters K solids, e.1 ∉ e.2 ∧ e.2.Nodup) ∧
      ((∀ a b, K.Intersects a b = K.Intersects b a) →
        ((Merge K solids tol).isolated ++ (Merge K solids tol).groups.flatten).Nodup) ∧
      (∀ s, solids ≠ [] → (∀ o ∈ solids, o = some s) →
        Merge K solids tol = Merge K [some s] tol ∧
          (Merge K solids tol).result = MergeResult.compound [s] true tol ∧
          (Merge K solids tol).trace = []) := by
  obtain ⟨h1, h2, h3⟩ := filledClusters_spec K solids
  refine ⟨h1, h2, ?_, fun hsym => Merge_members_nodup K solids tol hsym, ?_⟩
  · intro e he
    exact ⟨fun hmem => ((h3 e he e.1).1 hmem).2.2.1 rfl, filledClusters_sets_nodup K solids e he⟩
  · intro s hne hall
    have ha := Merge_single K solids tol (s, []) (initClusters_repeated solids s hne hall)
    have hb := Merge_single K [some s] tol (s, [])
      (initClusters_repeated [some s] s (by simp) (by simp))
    rw [ha, hb]
    exact ⟨rfl, rfl, rfl⟩

theorem Merge_duplicates_collapsed_witness :
    Merge (tracingKernel rowInter)
        [some (Traced.input 1), some (Traced.input 1), some (Traced.input 1)] () =
      Merge (tracingKernel rowInter) [some (Traced.input 1)] () ∧
    (Merge (tracingKernel rowInter)
        [some (Traced.input 1), some (Traced.input 1), some (Traced.input 1)] ()).result =
      MergeResult.compound [Traced.input 1] true () ∧
    (Merge (tracingKernel rowInter)
        [some (Traced.input 1), some (Traced.input 1), some (Traced.input 1)] ()).trace = [] :=
  (Merge_duplicates_collapsed (tracingKernel rowInter)
    [some (Traced.input 1), some (Traced.input 1), some (Traced.input 1)] ()).2.2.2.2
    (Traced.input 1) (by decide) (by decide)

end Duplicates

section UpgradeClaims
variable {Sd Sh Fc Tol : Type}

/-- C28 (behaviour of the code): for a valid compound with exactly one top-level item, `Upgrade` returns the
item and not a compound: the solid, the shell or the face. When the item is a shell,
`Upgrade` returns the shell itself also when the shell is closed and a valid solid was made
from it: `lastAdded` is the shell, and the solid is only added to the compound that is not
returned. -/
theorem Upgrade_single_item (K : ShellKernel Sd Sh) (c : CompoundData Sd Sh Fc Tol)
    (hvalid : c.IsValid = true) :
    (∀ s, c.solids = [s] → c.shells = [] → c.faces = [] →
        Upgrade K c = UpgradeResult.solid s) ∧
      (∀ sh, c.solids = [] → c.shells = [sh] → c.faces = [] →
        Upgrade K c = UpgradeResult.shell sh ∧
          (K.IsClosed sh = true → K.IsValid (K.MakeSolid sh) = true →
            (upgradeLoops K c).newCompound = [Item.solid (K.MakeSolid sh)])) ∧
      (∀ f, c.solids = [] → c.shells = [] → c.faces = [f] →
        Upgrade K c = UpgradeResult.face f) := by
  refine ⟨?_, ?_, ?_⟩
  · intro s h1 h2 h3
    simp [Upgrade, upgradeLoops, upgradeSolid, hvalid, h1, h2, h3]
  · intro sh h1 h2 h3
    refine ⟨by simp [Upgrade, upgradeLoops, upgradeShell, hvalid, h1, h2, h3], ?_⟩
    intro hc hv
    simp [upgradeLoops, upgradeShell, h1, h2, h3, hc, hv]
  · intro f h1 h2 h3
    simp [Upgrade, upgradeLoops, upgradeFace, hvalid, h1, h2, h3]

theorem Upgrade_single_item_witness :
    oneShell.IsValid = true ∧ closedShells.IsClosed 7 = true ∧
      closedShells.IsValid (closedShells.MakeSolid 7) = true ∧
      Upgrade closedShells oneShell = UpgradeResult.shell 7 ∧
      Upgrade closedShells oneShell ≠ UpgradeResult.solid (closedShells.MakeSolid 7) ∧
      (upgradeLoops closedShells oneShell).newCompound = [Item.solid 107] :=
  ⟨rfl, rfl, rfl,
    ((Upgrade_single_item closedShells oneShell rfl).2.1 7 rfl rfl rfl).1,
    by decide,
    ((Upgrade_single_item closedShells oneShell rfl).2.1 7 rfl rfl rfl).2 rfl rfl⟩

end UpgradeClaims

section BooleanClaims
variable {Shape Tol : Type}

/-- C29: in `Cut`, `Union` and `Intersection` between compounds, an operation that reports
errors or raises a `std::exception` makes the method return `XbimCompound::Empty` after
exactly one warning, which carries the text of the exception if there is one; a failed
operation never yields another value. An operation that succeeds makes `Union` and
`Intersection` return its shape as a compound flagged as sewn with the tolerance of the call,
without a warning. -/
theorem Booleans_failure_is_empty (IsSewn : Bool) (nonsense : Shape → Bool) (tolerance : Tol) :
    (Cut IsSewn FuseOutcome.hasErrors nonsense tolerance).1 = CompoundResult.empty ∧
      warnings (Cut IsSewn (FuseOutcome.hasErrors : FuseOutcome Shape) nonsense tolerance).2 =
        ["Boolean Cut operation failed. "] ∧
      (Union IsSewn (FuseOutcome.hasErrors : FuseOutcome Shape) tolerance).1 =
        CompoundResult.empty ∧
      warnings (Union IsSewn (FuseOutcome.hasErrors : FuseOutcome Shape) tolerance).2 =
        ["Boolean Union operation failed. "] ∧
      (Intersection IsSewn (FuseOutcome.hasErrors : FuseOutcome Shape) tolerance).1 =
        CompoundResult.empty ∧
      warnings (Intersection IsSewn (FuseOutcome.hasErrors : FuseOutcome Shape) tolerance).2 =
        ["Boolean Intersection operation failed. "] ∧
      (∀ what : String,
        (Cut IsSewn (FuseOutcome.stdException what) nonsense tolerance).1 =
            CompoundResult.empty ∧
          warnings (Cut IsSewn (FuseOutcome.stdException what : FuseOutcome Shape) nonsense
            tolerance).2 = ["Boolean Cut operation failed. " ++ what] ∧
          (Union IsSewn (FuseOutcome.stdException what : FuseOutcome Shape) tolerance).1 =
            CompoundResult.empty ∧
          warnings (Union IsSewn (FuseOutcome.stdException what : FuseOutcome Shape)
            tolerance).2 = ["Boolean Union operation failed. " ++ what] ∧
          (Intersection IsSewn (FuseOutcome.stdException what : FuseOutcome Shape)
            tolerance).1 = CompoundResult.empty ∧
          warnings (Intersection IsSewn (FuseOutcome.stdException what : FuseOutcome Shape)
            tolerance).2 = ["Boolean Intersection operation failed. " ++ what]) ∧
      (∀ (boolOp : FuseOutcome Shape) (shape : Shape) (sewn : Bool) (tol : Tol),
        (∀ result, boolOp ≠ FuseOutcome.shape result) →
          (Cut IsSewn boolOp nonsense tolerance).1 ≠ CompoundResult.compound shape sewn tol ∧
          (Cut IsSewn boolOp nonsense tolerance).1 ≠ CompoundResult.this ∧
          (Union IsSewn boolOp tolerance).1 ≠ CompoundResult.compound shape sewn tol ∧
          (Union IsSewn boolOp tolerance).1 ≠ CompoundResult.this ∧
          (Intersection IsSewn boolOp tolerance).1 ≠ CompoundResult.compound shape sewn tol ∧
          (Intersection IsSewn boolOp tolerance).1 ≠ CompoundResult.this) ∧
      (∀ result : Shape,
        (Union IsSewn (FuseOutcome.shape result) tolerance).1 =
            CompoundResult.compound result true tolerance ∧
          warnings (Union IsSewn (FuseOutcome.shape result) tolerance).2 = [] ∧
          (Intersection IsSewn (FuseOutcome.shape result) tolerance).1 =
            CompoundResult.compound result true tolerance ∧
          warnings (Intersection IsSewn (FuseOutcome.shape result) tolerance).2 = []) := by
  have hsew : warnings (sewFirst IsSewn) = [] := by cases IsSewn <;> rfl
  have happ : ∀ message, warnings (sewFirst IsSewn ++ [CompoundEvent.logWarning message]) =
      [message] := by
    intro message
    cases IsSewn <;> rfl
  refine ⟨rfl, happ _, rfl, happ _, rfl, happ _, ?_, ?_, ?_⟩
  · intro what
    exact ⟨rfl, happ _, rfl, happ _, rfl, happ _⟩
  · intro boolOp shape sewn tol hfail
    cases boolOp with
    | shape result => exact absurd rfl (hfail result)
    | hasErrors => simp [Cut, Union, Intersection]
    | stdException what => simp [Cut, Union, Intersection]
    | otherException => simp [Cut, Union, Intersection]
  · intro result
    exact ⟨rfl, hsew, rfl, hsew⟩

end BooleanClaims

end XbimCompound

namespace BOPAlgo_MakerVolume

section BoxClaims
variable {S F : Type} [DecidableEq F]

theorem RemoveBox_first (faces : S → List F) (theBoxFaces : List F) (aSR : S)
    (post : List S) (hbox : hasBoxFace faces theBoxFaces aSR = true) :
    ∀ pre : List S, (∀ s ∈ pre, hasBoxFace faces theBoxFaces s = false) →
      RemoveBox faces (pre ++ aSR :: post) theBoxFaces = pre ++ post := by
  intro pre
  induction pre with
  | nil => intro _; simp [RemoveBox, hbox]
  | cons p pre ih =>
    intro hpre
    have hp : hasBoxFace faces theBoxFaces p = false := hpre p (List.mem_cons_self _ _)
    have := ih (fun s hs => hpre s (List.mem_cons_of_mem _ hs))
    simp [RemoveBox, hp, this]

theorem RemoveBox_none (faces : S → List F) (theBoxFaces : List F) :
    ∀ theLSR : List S, (∀ s ∈ theLSR, hasBoxFace faces theBoxFaces s = false) →
      RemoveBox faces theLSR theBoxFaces = theLSR := by
  intro theLSR
  induction theLSR with
  | nil => intro _; rfl
  | cons p rest ih =>
    intro h
    have hp : hasBoxFace faces theBoxFaces p = false := h p (List.mem_cons_self _ _)
    simp [RemoveBox, hp, ih (fun s hs => h s (List.mem_cons_of_mem _ hs))]

theorem RemoveBox_clean (faces : S → List F) (theBoxFaces : List F) :
    ∀ theLSR : List S, (theLSR.filter (hasBoxFace faces theBoxFaces)).length ≤ 1 →
      ∀ s ∈ RemoveBox faces theLSR theBoxFaces, hasBoxFace faces theBoxFaces s = false := by
  intro theLSR
  induction theLSR with
  | nil => intro _ s hs; simp [RemoveBox] at hs
  | cons p rest ih =>
    intro hlen s hs
    cases hp : hasBoxFace faces theBoxFaces p with
    | true =>
      simp only [RemoveBox, hp, if_true] at hs
      simp only [List.filter_cons, hp, if_true, List.length_cons] at hlen
      have hnil : rest.filter (hasBoxFace faces theBoxFaces) = [] :=
        List.length_eq_zero.1 (by omega)
      cases hsb : hasBoxFace faces theBoxFaces s with
      | false => rfl
      | true =>
        have : s ∈ rest.filter (hasBoxFace faces theBoxFaces) := List.mem_filter.2 ⟨hs, hsb⟩
        rw [hnil] at this
        simp at this
    | false =>
      simp only [RemoveBox, hp, Bool.false_eq_true, if_false, List.mem_cons] at hs
      simp only [List.filter_cons, hp, Bool.false_eq_true, if_false] at hlen
      rcases hs with h | h
      · rw [h]; exact hp
      · exact ih hlen s h

theorem RemoveBox_eq_filter (faces : S → List F) (theBoxFaces : List F) :
    ∀ theLSR : List S, (theLSR.filter (hasBoxFace faces theBoxFaces)).length ≤ 1 →
      RemoveBox faces theLSR theBoxFaces =
        theLSR.filter (fun aSR => !hasBoxFace faces theBoxFaces aSR) := by
  intro theLSR
  induction theLSR with
  | nil => intro _; rfl
  | cons p rest ih =>
    intro hlen
    cases hp : hasBoxFace faces theBoxFaces p with
    | true =>
      simp only [List.filter_cons, hp, if_true, List.length_cons] at hlen
      have hnil : rest.filter (hasBoxFace faces theBoxFaces) = [] :=
        List.length_eq_zero.1 (by omega)
      have hrest : rest.filter (fun aSR => !hasBoxFace faces theBoxFaces aSR) = rest := by
        rw [List.filter_eq_self]
        intro s hs
        cases hsb : hasBoxFace faces theBoxFaces s with
        | false => rfl
        | true =>
          have : s ∈ rest.filter (hasBoxFace faces theBoxFaces) := List.mem_filter.2 ⟨hs, hsb⟩
          rw [hnil] at this
          simp at this
      simp [RemoveBox, hp, hrest]
    | false =>
      simp only [List.filter_cons, hp, Bool.false_eq_true, if_false] at hlen
      simp [RemoveBox, hp, ih hlen]

/-- The condition on the list cannot be dropped: of three solids of which the first two each
have a face of the box, `RemoveBox` removes the first only. -/
theorem RemoveBox_two_box_solids :
    RemoveBox ownFace [0, 1, 2] [0, 1] = [1, 2] ∧
      ¬ ∀ s ∈ RemoveBox ownFace [0, 1, 2] [0, 1], hasBoxFace ownFace [0, 1] s = false := by
  decide

/-- C30: `RemoveBox` is called once, on the solids that `BuildSolids` made from the faces of
the arguments and of one box that encloses them all, so that at most one solid of the list,
the one between the box and the arguments, has a face of the box. On every such list
`RemoveBox` removes every solid that has a face among the faces of the box: the list it
leaves is the list of the solids without such a face, in their original order, no solid of it
has a face of the box, and every solid without one is kept. -/
theorem RemoveBox_removes_box_solids (faces : S → List F) (theLSR : List S)
    (theBoxFaces : List F)
    (hone : (theLSR.filter (hasBoxFace faces theBoxFaces)).length ≤ 1) :
    RemoveBox faces theLSR theBoxFaces =
        theLSR.filter (fun aSR => !hasBoxFace faces theBoxFaces aSR) ∧
      (∀ s ∈ RemoveBox faces theLSR theBoxFaces, hasBoxFace faces theBoxFaces s = false) ∧
      (∀ s ∈ theLSR, hasBoxFace faces theBoxFaces s = false →
        s ∈ RemoveBox faces theLSR theBoxFaces) ∧
      (RemoveBox faces theLSR theBoxFaces).Sublist theLSR := by
  have heq := RemoveBox_eq_filter faces theBoxFaces theLSR hone
  refine ⟨heq, RemoveBox_clean faces theBoxFaces theLSR hone, ?_, ?_⟩
  · intro s hs hbox
    rw [heq, List.mem_filter]
    exact ⟨hs, by simp [hbox]⟩
  · rw [heq]
    exact List.filter_sublist _

theorem RemoveBox_removes_box_solids_witness :
    ([1, 0, 2].filter (hasBoxFace boxedFaces sampleBox)).length ≤ 1 ∧
      hasBoxFace boxedFaces sampleBox 0 = true ∧
      RemoveBox boxedFaces [1, 0, 2] sampleBox = [1, 2] ∧
      ∀ s ∈ RemoveBox boxedFaces [1, 0, 2] sampleBox, hasBoxFace boxedFaces sampleBox s = false :=
  ⟨by decide, by decide, by decide,
    (RemoveBox_removes_box_solids boxedFaces [1, 0, 2] sampleBox (by decide)).2.1⟩

end BoxClaims

end BOPAlgo_MakerVolume

